import Mathlib

/-!
# ECS-MUD: the in-world interpreter

A shallow embedding of the command dispatcher (`Controller.js`), the resolver
(`findPotentialMUDObjects`, `findPotentialMUDObject`, `filterPossible`), the argument
splitter (`getArgs`), the session registry, the permission engine (`Predicates.js`,
`MUDObject.js`), the flags, the object-editing commands (`PropertyHandler.js`,
`Commands.js`), `extend` (`CommandHandler.js`), and the commands `drop`, `connect` and
`@path` with its pathfinder (`Commands.js`), followed by theorems about them.

Conventions of the embedding.
* A JavaScript string is a list of characters.
* The store is the list of its rows, in store order; `findOne` is the first match,
  `findAll` the matching rows in order.
* Asynchronous functions taking a callback are written in continuation-passing style,
  polymorphic in the answer type.
* A nullable column is an `Option`; `flags` is an integer (a null `flags` behaves as `0`
  under every bitwise operator).
* What a command or the controller does is the list of its actions, in order: messages,
  saves, terminations. A save replaces the row of the same id in the store.
* A loop that may not end takes the number of iterations it is allowed.
* Every entry of the session registry holds a player object of its own, so where the code
  compares two player objects of the registry by identity (`!==`), the embedding compares
  the positions of their entries.
* The breadth-first search that `@path` calls is the package `async-bfs`, which is not
  among the sources: it is modelled from the specification, and the move and goal
  functions given to it are embedded from `Commands.js`.
-/

namespace ECSMUD

/-! ## Data model (`models/MUDObject.js`) -/

/-- A JavaScript string, as the sequence of its characters. -/
abbrev JSString := List Char

/-- The `type` column: `ENUM('ROOM', 'THING', 'EXIT', 'PLAYER')`. -/
inductive MUDType where
  | ROOM
  | THING
  | EXIT
  | PLAYER
deriving DecidableEq, Repr

/-- A row of the `MUDObject` table, with the four foreign keys added by `associate`. -/
structure MUDObject where
  id : Int
  name : JSString
  description : Option JSString
  failureMessage : Option JSString
  successMessage : Option JSString
  othersFailureMessage : Option JSString
  othersSuccessMessage : Option JSString
  type : MUDType
  flags : Int
  password : Option JSString
  targetId : Option Int
  locationId : Option Int
  ownerId : Option Int
  keyId : Option Int
deriving DecidableEq, Repr

/-- A value handed to a callback that the callee then tests for truthiness:
either a boolean or a number. -/
inductive JSVal where
  | bool (b : Bool)
  | num (n : Int)
deriving DecidableEq, Repr

/-- JavaScript truthiness of a boolean or a number. -/
def JSVal.truthy : JSVal → Bool
  | .bool b => b
  | .num n => decide (n ≠ 0)

/-- Truthiness of a nullable integer reference (`!thing.locationId`, `!keyId`):
falsy when null and when `0`. Ids issued by the store start at `1`. -/
def truthyRef : Option Int → Bool
  | none => false
  | some n => decide (n ≠ 0)

/-- The abstract operation `ToInt32` on an integer-valued number. -/
def toInt32 (x : Int) : Int := (x + 2147483648) % 4294967296 - 2147483648

/-- The operator `a & b` on integer-valued numbers. -/
def bitAnd (a b : Int) : Int := Int.land (toInt32 a) (toInt32 b)

/-- `MUDObject.FLAGS.link_ok`, i.e. `1 << 0`. -/
def FLAGS.link_ok : Int := 1

/-- `MUDObject.FLAGS.anti_lock`, i.e. `1 << 1`. -/
def FLAGS.anti_lock : Int := 2

/-- `MUDObject.FLAGS.temple`, i.e. `1 << 2`. -/
def FLAGS.temple : Int := 4

/-- `MUDObject.prototype.hasAntiLock`: `this.flags & FLAGS.anti_lock`. -/
def MUDObject.hasAntiLock (o : MUDObject) : Int := bitAnd o.flags FLAGS.anti_lock

/-- `MUDObject.prototype.canLink`: `this.flags & FLAGS.link_ok`. -/
def MUDObject.canLink (o : MUDObject) : Int := bitAnd o.flags FLAGS.link_ok

/-- `MUDObject.prototype.isTemple`: `this.flags & FLAGS.temple`. -/
def MUDObject.isTemple (o : MUDObject) : Int := bitAnd o.flags FLAGS.temple

/-! ## Permission engine (`scripts/Predicates.js`) -/

/-- `couldDoIt(player, thing, callback)`. The store lookup
`findOne({locationId: player.id, id: keyId})` is the first matching row of `db`. -/
def couldDoIt {α : Type} (db : List MUDObject) (player thing : MUDObject)
    (callback : JSVal → α) : α :=
  if thing.type ≠ MUDType.ROOM ∧ truthyRef thing.locationId = false then
    callback (.bool false)
  else if thing.type = MUDType.EXIT ∧ thing.targetId = none then
    callback (.bool false)
  else
    let keyId := thing.keyId
    if truthyRef keyId = false then
      callback (.bool true)
    else if some player.id = keyId then
      callback (.bool (decide (thing.hasAntiLock = 0)))
    else
      match db.find? (fun o => decide (o.locationId = some player.id ∧ some o.id = keyId)) with
      | some _ => callback (.bool (decide (thing.hasAntiLock = 0)))
      | none => callback (.num thing.hasAntiLock)

/-- The value that `couldDoIt` gives to its callback. -/
def decision (db : List MUDObject) (player thing : MUDObject) : JSVal :=
  couldDoIt db player thing id

/-- The decision of `couldDoIt` as the callers test it (`if (!doit)`): allow or deny. -/
def allows (db : List MUDObject) (player thing : MUDObject) : Bool :=
  (decision db player thing).truthy

/-- The player is the key, or the store holds the key entity located in the player. -/
def holdsKey (db : List MUDObject) (player : MUDObject) (keyId : Option Int) : Prop :=
  some player.id = keyId ∨ ∃ o ∈ db, some o.id = keyId ∧ o.locationId = some player.id

/-- The entity has its `anti_lock` flag set: `hasAntiLock()` is truthy. -/
def antiLocked (thing : MUDObject) : Prop := thing.hasAntiLock ≠ 0

instance (db : List MUDObject) (player : MUDObject) (keyId : Option Int) :
    Decidable (holdsKey db player keyId) := by
  unfold holdsKey; infer_instance

instance (thing : MUDObject) : Decidable (antiLocked thing) := by
  unfold antiLocked; infer_instance

/-! ## String primitives used by the controller -/

/-- The characters removed by `String.prototype.trim`: the ECMAScript `WhiteSpace` and
`LineTerminator` code points. -/
def isWhiteSpace (c : Char) : Bool :=
  let n := c.toNat
  n = 9 || n = 10 || n = 11 || n = 12 || n = 13 || n = 32 || n = 160 || n = 5760 ||
  (8192 ≤ n && n ≤ 8202) || n = 8232 || n = 8233 || n = 8239 || n = 8287 || n = 12288 ||
  n = 65279

/-- `s.trim()`. -/
def trim (s : JSString) : JSString :=
  ((s.dropWhile isWhiteSpace).reverse.dropWhile isWhiteSpace).reverse

/-- `s.indexOf(c)` for a one-character search string: the first position of `c`, or `-1`. -/
def strIndexOf (s : JSString) (c : Char) : Int :=
  if s.indexOf c < s.length then (s.indexOf c : Int) else -1

/-- `s.substring(start, end)` for `0 ≤ start ≤ end`. -/
def substring (s : JSString) (start stop : Nat) : JSString :=
  (s.drop start).take (stop - start)

/-- `s.substring(start)` for `0 ≤ start`. -/
def substringFrom (s : JSString) (start : Nat) : JSString :=
  s.drop start

/-- The separator class `[ ;]` of the regular expression `/[ ;]+/g`. -/
def isSeparator (c : Char) : Bool := c = ' ' || c = ';'

/-- The function `s.split(/[ ;]+/g)`, reading `s` from the left; `inRun` tells that the
previous character was a separator, whose run is still being consumed. A string that
starts (ends) with a separator yields a leading (trailing) empty token, and the empty
string yields one empty token. -/
def splitGo : Bool → JSString → List JSString
  | _, [] => [[]]
  | inRun, c :: cs =>
    if isSeparator c then
      if inRun then splitGo true cs else [] :: splitGo true cs
    else
      match splitGo false cs with
      | [] => [[c]]
      | t :: ts => (c :: t) :: ts

/-- `s.split(/[ ;]+/g)`. -/
def splitTokens (s : JSString) : List JSString := splitGo false s

/-- `strs.indexOf(x, fromIndex)` on an array of strings, for `fromIndex ≥ 0`:
the first position at or after `fromIndex` holding `x`, or `-1`. -/
def arrayIndexOf (strs : List JSString) (x : JSString) (fromIndex : Nat) : Int :=
  if (strs.drop fromIndex).indexOf x < (strs.drop fromIndex).length then
    ((fromIndex + (strs.drop fromIndex).indexOf x : Nat) : Int)
  else -1

/-! ## Entity resolver (`scripts/Controller.js`): candidates -/

section Candidates

/- `String.prototype.toLowerCase` is a parameter of the development: the theorems hold
for every function in its place. -/
variable (toLowerCase : JSString → JSString)

/- The store's operator `name LIKE '%' + pattern + '%'` is a parameter of the
development, `like pattern name`. -/
variable (like : JSString → JSString → Bool)

/-- The `for` loop of `filterPossible` over the query tokens `nstrs`, from the current
value of `index`: `false` as soon as a token is not found at or after `index`. -/
def matchTokens (strs : List JSString) : List JSString → Nat → Bool
  | [], _ => true
  | t :: nstrs, index =>
    let newIndex := arrayIndexOf strs t index
    if newIndex < (index : Int) then false
    else matchTokens strs nstrs newIndex.toNat

/-- The predicate given to `objs.filter` in `filterPossible`. -/
def keepsCandidate (name : JSString) (obj : MUDObject) : Bool :=
  if toLowerCase obj.name = toLowerCase name then true
  else matchTokens (splitTokens (toLowerCase obj.name)) (splitTokens (toLowerCase name)) 0

/-- `filterPossible(objs, name)`. -/
def filterPossible (objs : List MUDObject) (name : JSString) : List MUDObject :=
  if objs.length > 0 then objs.filter (keepsCandidate toLowerCase name)
  else objs

/-- The disjunction `{locationId: player.locationId} OR {locationId: player.id} OR
{id: player.locationId}` of the store query; a null on the right is rendered `IS NULL`. -/
def inScope (player o : MUDObject) : Bool :=
  decide (o.locationId = player.locationId) || decide (o.locationId = some player.id) ||
  decide (some o.id = player.locationId)

/-- `player.getLocation()`: the row whose id is `player.locationId`, or null. -/
def getLocation (db : List MUDObject) (player : MUDObject) : Option MUDObject :=
  db.find? (fun o => decide (some o.id = player.locationId))

/-- `findPotentialMUDObjects(conn, name, cb, allowMe, allowHere, type)`, for the player
registered on `conn`. The array given to `cb` may hold null in the `here` branch. -/
def findPotentialMUDObjects {α : Type} (db : List MUDObject) (player : MUDObject)
    (name : JSString) (cb : List (Option MUDObject) → α) (allowMe allowHere : Bool)
    (type : Option MUDType) : α :=
  if allowMe = true ∧ name = "me".toList then cb [some player]
  else if allowHere = true ∧ name = "here".toList then cb [getLocation db player]
  else
    match type with
    | some t =>
      cb ((filterPossible toLowerCase
            (db.filter (fun o => decide (o.type = t) && like name o.name && inScope player o))
            name).map some)
    | none =>
      cb ((filterPossible toLowerCase (db.filter (fun o => inScope player o)) name).map some)

end Candidates

/-! ## Entity resolver (`scripts/Controller.js`): disambiguation -/

/-- The entries of the message catalogue `./Strings` that the controller uses; the
catalogue is a parameter of the development. -/
structure Strings where
  ambigSet : JSString
  dontSeeThat : JSString
  incorrectArgs : JSString
  alreadyLoggedIn : JSString
  unknownCommand : JSString
  loginPrompt : JSString
deriving DecidableEq, Repr

/-- The effective value of an optional message argument after
`if (!msg) msg = fallback`: the fallback when the argument is undefined or empty. -/
def orDefault (msg : Option JSString) (fallback : JSString) : JSString :=
  match msg with
  | none => fallback
  | some [] => fallback
  | some (c :: cs) => c :: cs

/-- What `findPotentialMUDObject` does once the candidates are known. -/
inductive Outcome where
  /-- The call `cb(obj)`; `none` is a null or undefined argument. -/
  | callback (obj : Option MUDObject)
  /-- The call `controller.sendMessage(conn, message)`. -/
  | sendMessage (message : JSString)
  /-- A `TypeError` raised by reading a property of null. -/
  | typeError
deriving DecidableEq, Repr

/-- The array as an array of rows, when none of its elements is null. -/
def allObjects : List (Option MUDObject) → Option (List MUDObject)
  | [] => some []
  | none :: _ => none
  | some o :: rest => (allObjects rest).map (fun objs => o :: objs)

/-- The description narrowing of `findPotentialMUDObject`: when `requireDescription`
is `true` and there are several candidates, the candidates with a non-null description if
there is exactly one of them, and the whole array otherwise. -/
def narrowByDescription (requireDescription : Bool) (objArr : List MUDObject) :
    List MUDObject :=
  if requireDescription = true ∧ objArr.length > 1 then
    let nObj := objArr.filter (fun obj => obj.description.isSome)
    if nObj.length = 1 then nObj else objArr
  else objArr

section Disambiguation

variable (toLowerCase : JSString → JSString)
variable (like : JSString → JSString → Bool)

/-- The test `objArr[i].name.toLowerCase().trim() === name.toLowerCase().trim()`. -/
def exactName (name : JSString) (obj : MUDObject) : Bool :=
  decide (trim (toLowerCase obj.name) = trim (toLowerCase name))

/-- The counting loop of `findPotentialMUDObject` over the rest of the array from
position `i`: the final values of `count` and `index`. -/
def countExact (name : JSString) : List MUDObject → Nat → Nat → Int → Nat × Int
  | [], _, count, index => (count, index)
  | obj :: rest, i, count, index =>
    if exactName toLowerCase name obj = true then countExact name rest (i + 1) (count + 1) i
    else countExact name rest (i + 1) count index

/-- The callback that `findPotentialMUDObject` gives to `findPotentialMUDObjects`, on an
array of rows. -/
def resolveObjects (strings : Strings) (name : JSString) (ambigMsg failMsg : Option JSString)
    (requireDescription : Bool) (objArr : List MUDObject) : Outcome :=
  if objArr.length > 0 then
    let objArr := narrowByDescription requireDescription objArr
    if objArr.length = 1 then
      Outcome.callback objArr.head?
    else
      let r := countExact toLowerCase name objArr 0 0 (-1)
      if r.1 = 1 then Outcome.callback objArr[r.2.toNat]?
      else Outcome.sendMessage (orDefault ambigMsg strings.ambigSet)
  else
    Outcome.sendMessage (orDefault failMsg strings.dontSeeThat)

/-- The callback that `findPotentialMUDObject` gives to `findPotentialMUDObjects`. An
array holding null is either the one-element array of the `here` branch, which is passed
on, or makes the first property read of the null element raise a `TypeError`. -/
def resolveCallback (strings : Strings) (name : JSString) (ambigMsg failMsg : Option JSString)
    (requireDescription : Bool) (objArr : List (Option MUDObject)) : Outcome :=
  match allObjects objArr with
  | some objs => resolveObjects toLowerCase strings name ambigMsg failMsg requireDescription objs
  | none => if objArr.length = 1 then Outcome.callback none else Outcome.typeError

/-- The array that `findPotentialMUDObjects` gives to its callback. -/
def candidates (db : List MUDObject) (player : MUDObject) (name : JSString)
    (allowMe allowHere : Bool) (type : Option MUDType) : List (Option MUDObject) :=
  findPotentialMUDObjects toLowerCase like db player name id allowMe allowHere type

/-- The entities of the array that `findPotentialMUDObjects` gives to its callback. -/
def candidateRows (db : List MUDObject) (player : MUDObject) (name : JSString)
    (allowMe allowHere : Bool) (type : Option MUDType) : List MUDObject :=
  (candidates toLowerCase like db player name allowMe allowHere type).filterMap id

/-- `findPotentialMUDObject(conn, name, cb, allowMe, allowHere, type, ambigMsg, failMsg,
requireDescription)` for the player registered on `conn`; the call of `cb` is the
outcome `callback`. -/
def findPotentialMUDObject (strings : Strings) (db : List MUDObject) (player : MUDObject)
    (name : JSString) (allowMe allowHere : Bool) (type : Option MUDType)
    (ambigMsg failMsg : Option JSString) (requireDescription : Bool) : Outcome :=
  findPotentialMUDObjects toLowerCase like db player name
    (resolveCallback toLowerCase strings name ambigMsg failMsg requireDescription)
    allowMe allowHere type

end Disambiguation

/-! ## Command definitions (`scripts/CommandHandler.js`, `scripts/PropertyHandler.js`,
`scripts/Commands.js`) -/

/-- A command definition as the dispatcher reads it. `nargs` is `none` when the property
is undefined; `validate` and `perform` name the function bound to the property, when there
is one; `prop` is the property name of a `PropertyHandler`. -/
structure CommandHandler where
  nargs : Option Nat
  preLogin : Bool
  postLogin : Bool
  validate : Option JSString
  perform : Option JSString
  prop : Option JSString
deriving DecidableEq, Repr

/-- The object given to `extend`: for each property, `none` when the object does not have
it, and its value otherwise. -/
structure Extension where
  nargs : Option Nat := none
  preLogin : Option Bool := none
  postLogin : Option Bool := none
  validate : Option JSString := none
  perform : Option JSString := none
  prop : Option (Option JSString) := none
deriving DecidableEq, Repr

/-- The module `CommandHandler.js`: the base definition. -/
def CommandHandler.base : CommandHandler :=
  { nargs := some 0, preLogin := false, postLogin := true,
    validate := some "CommandHandler.validate".toList,
    perform := some "CommandHandler.perform".toList, prop := none }

/-- `this.extend(ext)`: a clone of `this` in which every own property of `ext` overwrites
the inherited one. -/
def CommandHandler.extend (self : CommandHandler) (ext : Extension) : CommandHandler :=
  { nargs := match ext.nargs with
      | some n => some n
      | none => self.nargs,
    preLogin := ext.preLogin.getD self.preLogin,
    postLogin := ext.postLogin.getD self.postLogin,
    validate := match ext.validate with
      | some f => some f
      | none => self.validate,
    perform := match ext.perform with
      | some f => some f
      | none => self.perform,
    prop := ext.prop.getD self.prop }

/-- The module `PropertyHandler.js`. -/
def PropertyHandler : CommandHandler :=
  CommandHandler.base.extend
    { prop := some none, nargs := some 1,
      validate := some "PropertyHandler.validate".toList,
      perform := some "PropertyHandler.perform".toList }

/-- An extension with its own `validate` and `perform`, named after the command. -/
def ownFunctions (key : String) (ext : Extension) : Extension :=
  { ext with validate := some (key ++ ".validate").toList,
             perform := some (key ++ ".perform").toList }

/-- The object literal `commands` of `Commands.js`, in source order. -/
def commandDefinitions : List (JSString × CommandHandler) :=
  [ ("create".toList, CommandHandler.base.extend
      (ownFunctions "create" { nargs := some 2, preLogin := some true, postLogin := some false })),
    ("connect".toList, CommandHandler.base.extend
      (ownFunctions "connect" { nargs := some 2, preLogin := some true, postLogin := some false })),
    ("say".toList, CommandHandler.base.extend (ownFunctions "say" { nargs := some 1 })),
    ("go".toList, CommandHandler.base.extend (ownFunctions "go" { nargs := some 1 })),
    ("look".toList, CommandHandler.base.extend (ownFunctions "look" { })),
    ("drop".toList, CommandHandler.base.extend (ownFunctions "drop" { nargs := some 1 })),
    ("examine".toList, CommandHandler.base.extend (ownFunctions "examine" { nargs := some 1 })),
    ("get".toList, CommandHandler.base.extend (ownFunctions "get" { nargs := some 1 })),
    ("inventory".toList, CommandHandler.base.extend
      (ownFunctions "inventory" { nargs := some 0 })),
    ("page".toList, CommandHandler.base.extend (ownFunctions "page" { nargs := some 1 })),
    ("whisper".toList, CommandHandler.base.extend (ownFunctions "whisper" { nargs := some 1 })),
    ("QUIT".toList, CommandHandler.base.extend
      { preLogin := some true, perform := some "QUIT.perform".toList }),
    ("WHO".toList, CommandHandler.base.extend
      { preLogin := some true, perform := some "WHO.perform".toList }),
    ("HELP".toList, CommandHandler.base.extend (ownFunctions "HELP" { preLogin := some true })),
    ("@create".toList, CommandHandler.base.extend (ownFunctions "@create" { nargs := some 1 })),
    ("@password".toList, CommandHandler.base.extend
      (ownFunctions "@password" { nargs := some 1 })),
    ("@describe".toList, PropertyHandler.extend { prop := some (some "description".toList) }),
    ("@name".toList, PropertyHandler.extend { prop := some (some "name".toList) }),
    ("@success".toList, PropertyHandler.extend { prop := some (some "successMessage".toList) }),
    ("@osuccess".toList, PropertyHandler.extend
      { prop := some (some "othersSuccessMessage".toList) }),
    ("@failure".toList, PropertyHandler.extend { prop := some (some "failureMessage".toList) }),
    ("@ofailure".toList, PropertyHandler.extend
      { prop := some (some "othersFailureMessage".toList) }),
    ("@find".toList, CommandHandler.base.extend (ownFunctions "@find" { nargs := some 1 })),
    ("@set".toList, CommandHandler.base.extend (ownFunctions "@set" { nargs := some 1 })),
    ("@path".toList, CommandHandler.base.extend (ownFunctions "@path" { nargs := some 1 })),
    ("@link".toList, CommandHandler.base.extend (ownFunctions "@link" { nargs := some 1 })),
    ("@unlink".toList, CommandHandler.base.extend (ownFunctions "@unlink" { nargs := some 1 })),
    ("@lock".toList, CommandHandler.base.extend (ownFunctions "@lock" { nargs := some 1 })),
    ("@unlock".toList, CommandHandler.base.extend (ownFunctions "@unlock" { nargs := some 1 })),
    ("@dig".toList, CommandHandler.base.extend (ownFunctions "@dig" { nargs := some 1 })),
    ("@open".toList, PropertyHandler.extend (ownFunctions "@open" { nargs := some 1 })) ]

/-- The value bound to `key` in a list of bindings. -/
def lookupIn (table : List (JSString × CommandHandler)) (key : JSString) :
    Option CommandHandler :=
  (table.find? (fun e => decide (e.1 = key))).map (fun e => e.2)

/-- The alias assignments at the end of `Commands.js`: `commands[alias] = commands[key]`. -/
def commandAliases : List (JSString × JSString) :=
  [ ("login".toList, "connect".toList), ("who".toList, "WHO".toList),
    ("help".toList, "HELP".toList), ("goto".toList, "go".toList),
    ("move".toList, "go".toList), ("cr".toList, "create".toList),
    ("co".toList, "connect".toList), ("throw".toList, "drop".toList),
    ("take".toList, "get".toList), ("read".toList, "look".toList),
    ("@fail".toList, "@failure".toList), ("@ofail".toList, "@ofailure".toList) ]

/-- The exported `commands` object: the definitions followed by the aliases, each alias
bound to the definition object of its command. -/
def commandTable : List (JSString × CommandHandler) :=
  commandDefinitions ++
    commandAliases.filterMap (fun a => (lookupIn commandDefinitions a.2).map (fun c => (a.1, c)))

/-- The lookup `commands[commandStr]` in the command table. -/
def commands (commandStr : JSString) : Option CommandHandler :=
  lookupIn commandTable commandStr

/-! ## Command dispatcher (`scripts/Controller.js`) -/

/-- A WebSocket connection, by identity. -/
abbrev Conn := Nat

/-- An entry `{player: player, conn: conn}` of the list `activePlayers`. -/
structure ActivePlayer where
  player : MUDObject
  conn : Conn
deriving DecidableEq, Repr

/-- `controller.findActivePlayerByConnection(conn)`; `none` is `undefined`. -/
def findActivePlayerByConnection (activePlayers : List ActivePlayer) (conn : Conn) :
    Option MUDObject :=
  (activePlayers.find? (fun e => decide (e.conn = conn))).map (fun e => e.player)

/-- The `for` loop of `getArgs`, with `n` iterations left, the current `argsToCheck` and
`argsArr`, followed by the final `argsArr.push(argsToCheck)`. -/
def getArgsLoop : Nat → JSString → List JSString → List JSString
  | 0, argsToCheck, argsArr => argsArr ++ [argsToCheck]
  | n + 1, argsToCheck, argsArr =>
    let index := strIndexOf argsToCheck ' '
    if index = -1 then argsArr ++ [argsToCheck]
    else
      getArgsLoop n (trim (substringFrom argsToCheck (index.toNat + 1)))
        (argsArr ++ [substring argsToCheck 0 index.toNat])

/-- `getArgs(argsStr, nargs)`. With `nargs` undefined the test `nargs <= 1` is false and
the loop body never runs. -/
def getArgs (argsStr : JSString) (nargs : Option Nat) : List JSString :=
  let argsStr := trim argsStr
  if argsStr.length = 0 then []
  else
    match nargs with
    | none => getArgsLoop 0 argsStr []
    | some n =>
      if n ≤ 1 then [argsStr]
      else getArgsLoop n argsStr []

/-- What `handleMessage` does with a line, in order. -/
inductive Effect where
  /-- The call `controller.sendMessage(conn, message, values)`. -/
  | sendMessage (conn : Conn) (message : JSString)
      (values : Option (List (JSString × JSString)))
  /-- The call `command.validate(conn, argsArr, command.perform)`, by the names of
  the two functions. -/
  | validate (validate : JSString) (conn : Conn) (argsArr : List JSString)
      (cb : Option JSString)
  /-- The call `command.perform(conn, argsArr)`. -/
  | perform (perform : JSString) (conn : Conn) (argsArr : List JSString)
  /-- A `TypeError` raised inside the domain, which logs it. -/
  | typeError
deriving DecidableEq, Repr

/-- `controller.displaySplashScreen(conn)`. -/
def displaySplashScreen (strings : Strings) (conn : Conn) : List Effect :=
  [Effect.sendMessage conn strings.loginPrompt none]

/-- Truthiness of `command.nargs`: defined and not `0`. -/
def truthyNargs : Option Nat → Bool
  | none => false
  | some n => decide (n ≠ 0)

/-- The command token of a line: the text before the first space, trimmed. -/
def commandStrOf (message : JSString) : JSString :=
  let firstSpace := strIndexOf message ' '
  if firstSpace = -1 then trim message else trim (substring message 0 firstSpace.toNat)

/-- The argument string of a line: the text after the first space, trimmed. -/
def argsStrOf (message : JSString) : JSString :=
  let firstSpace := strIndexOf message ' '
  if firstSpace = -1 then [] else trim (substringFrom message (firstSpace.toNat + 1))

/-- `controller.handleMessage(conn, message)`, for the lookup `commands` and the
registry `activePlayers`: the calls it makes. -/
def handleMessage (strings : Strings) (commands : JSString → Option CommandHandler)
    (activePlayers : List ActivePlayer) (conn : Conn) (message : JSString) : List Effect :=
  let commandStr := commandStrOf message
  let argsStr := argsStrOf message
  let command := commands commandStr
  let isLoggedIn := (findActivePlayerByConnection activePlayers conn).isSome
  if commandStr.length = 0 then []
  else
    match command with
    | some command =>
      let argsArr := getArgs argsStr command.nargs
      if truthyNargs command.nargs = true ∧ some argsArr.length ≠ command.nargs then
        [Effect.sendMessage conn strings.incorrectArgs (some [("command".toList, commandStr)])]
      else if isLoggedIn = false ∧ command.postLogin = true ∧ command.preLogin = false then
        displaySplashScreen strings conn
      else if isLoggedIn = true ∧ command.preLogin = true ∧ command.postLogin = false then
        [Effect.sendMessage conn strings.alreadyLoggedIn none]
      else
        match command.validate with
        | some validate => [Effect.validate validate conn argsArr command.perform]
        | none =>
          match command.perform with
          | some perform => [Effect.perform perform conn argsArr]
          | none => [Effect.typeError]
    | none =>
      if isLoggedIn = true then [Effect.sendMessage conn strings.unknownCommand none]
      else displaySplashScreen strings conn

/-! ## Token structure of an argument string -/

/-- A space-delimited token: a non-empty string without a space that neither starts nor
ends with white space. -/
def isToken (t : JSString) : Bool :=
  t.all (fun c => decide (c ≠ ' ')) &&
  (match t.head? with
    | some c => !isWhiteSpace c
    | none => false) &&
  (match t.getLast? with
    | some c => !isWhiteSpace c
    | none => false)

/-- A separator between two tokens: a space, followed by any white space. -/
def isSpaceRun : JSString → Bool
  | [] => false
  | c :: w => decide (c = ' ') && w.all isWhiteSpace

/-- The text made of the token `t` followed by the pairs (separator, token) of `rest`. -/
def assemble (t : JSString) : List (JSString × JSString) → JSString
  | [] => t
  | (sep, u) :: rest => t ++ sep ++ assemble u rest

/-- Every token is a token and every separator a separator. -/
def wellFormed (t : JSString) (rest : List (JSString × JSString)) : Bool :=
  isToken t && rest.all (fun p => isSpaceRun p.1 && isToken p.2)

/-- The tokens of the text `assemble t rest`, in order. -/
def tokensOf (t : JSString) (rest : List (JSString × JSString)) : List JSString :=
  t :: rest.map (fun p => p.2)

/-- The text that remains of `assemble t rest` after its first `n` tokens and the separators
that follow them; empty when there are no more than `n` tokens. -/
def afterTokens : Nat → JSString → List (JSString × JSString) → JSString
  | 0, t, rest => assemble t rest
  | _ + 1, _, [] => []
  | n + 1, _, (_, u) :: rest => afterTokens n u rest

/-- A lower-casing of the letters `A` to `Z`, used to evaluate the definitions on
sample inputs. -/
def asciiLower (s : JSString) : JSString := s.map Char.toLower

/-- A `LIKE` that is a case-insensitive substring test, used to evaluate the definitions
on sample inputs. -/
def substringLike (pattern name : JSString) : Bool :=
  decide (asciiLower pattern <:+: asciiLower name)

/-! ## Flags (`models/MUDObject.js`) and link permission (`scripts/Predicates.js`) -/

/-- The operator `a | b` on integer-valued numbers. -/
def bitOr (a b : Int) : Int := Int.lor (toInt32 a) (toInt32 b)

/-- The operator `~a` on an integer-valued number. -/
def bitNot (a : Int) : Int := Int.lnot (toInt32 a)

/-- The property read `MUDObject.FLAGS[flag]`; `none` is a value that is not a number
(`undefined` for a name that is not a flag). -/
def FLAGS.lookup (flag : JSString) : Option Int :=
  if flag = "link_ok".toList then some FLAGS.link_ok
  else if flag = "anti_lock".toList then some FLAGS.anti_lock
  else if flag = "temple".toList then some FLAGS.temple
  else none

/-- A value as the operand of a bitwise operator: what is not a number converts to `0`. -/
def operand (v : Option Int) : Int := v.getD 0

/-- `MUDObject.prototype.getFlag`: `this.flags & FLAGS[flag]`. -/
def MUDObject.getFlag (o : MUDObject) (flag : JSString) : Int :=
  bitAnd o.flags (operand (FLAGS.lookup flag))

/-- `MUDObject.prototype.setFlag`: the object after `this.flags |= flagbit`, which is
then saved. -/
def MUDObject.setFlag (o : MUDObject) (flagbit : Int) : MUDObject :=
  { o with flags := bitOr o.flags flagbit }

/-- `MUDObject.prototype.resetFlag`: the object after `this.flags &= ~flagbit`, which is
then saved. -/
def MUDObject.resetFlag (o : MUDObject) (flagbit : Int) : MUDObject :=
  { o with flags := bitAnd o.flags (bitNot flagbit) }

/-- `predicates.isLinkable(room, player)`. -/
def isLinkable (room player : MUDObject) : Bool :=
  if room.ownerId = some player.id then true
  else if room.canLink ≠ 0 then true
  else false

/-- The range of the 32-bit signed integers. -/
def inInt32 (x : Int) : Prop := -2147483648 ≤ x ∧ x < 2147483648

/-! ## Session registry and broadcasts (`scripts/Controller.js`) -/

/-- The entries of the message catalogue `./Strings` that the registry and the commands
use, beyond those of `Strings`; a parameter of the development. -/
structure CommandStrings where
  hasDisconnected : JSString
  permissionDenied : JSString
  linked : JSString
  homeSet : JSString
  unlinked : JSString
  unlinkUnknown : JSString
  notARoom : JSString
  set : JSString
  reset : JSString
  setUnknown : JSString
deriving DecidableEq, Repr

/-- The `values` argument of `sendMessage`: undefined, an object literal of strings, or an
entity. -/
inductive Values where
  | none
  | fields (entries : List (JSString × JSString))
  | object (obj : MUDObject)
deriving DecidableEq, Repr

/-- An observable action of the controller or of a command. -/
inductive Emit where
  /-- The call `controller.sendMessage(conn, message, values)`. -/
  | send (conn : Conn) (message : JSString) (values : Values)
  /-- The call `conn.terminate()`. -/
  | terminate (conn : Conn)
  /-- The call `obj.save()` on the row `before`, whose fields are then those of `after`. -/
  | save (before after : MUDObject)
  /-- A `TypeError` raised by reading a property of null or undefined. -/
  | typeError
deriving DecidableEq, Repr

/-- `controller.activatePlayer(conn, player)`: `activePlayers.push(...)`. -/
def activatePlayer (activePlayers : List ActivePlayer) (conn : Conn) (player : MUDObject) :
    List ActivePlayer :=
  activePlayers ++ [{ player := player, conn := conn }]

/-- `controller.findActiveConnectionByPlayer(player)`; `none` is `undefined`. -/
def findActiveConnectionByPlayer (activePlayers : List ActivePlayer) (player : MUDObject) :
    Option Conn :=
  (activePlayers.find? (fun e => decide (e.player.id = player.id))).map (fun e => e.conn)

/-- How a call of the function given to `applyToActivePlayers` ends: it returns a value
other than `false`, it returns `false`, or it raises. -/
inductive Signal where
  | next
  | stop
  | throw
deriving DecidableEq, Repr

/-- The result of a run of `applyToActivePlayers`: the final state, the entries the
function was called on, in order, and whether the last call raised. -/
structure Run (σ : Type) where
  state : σ
  visited : List ActivePlayer
  threw : Bool

/-- `controller.applyToActivePlayers(operation)`: the loop
`for (let i = 0; i < activePlayers.length; i++)` from the current `i`. The state `s`
holds the list `activePlayers`, read by `registry` at every iteration, and whatever else
`operation` changes. The loop need not end when `operation` adds entries: `fuel` bounds the
number of iterations, and `none` is a run that needs more. -/
def applyToActivePlayers {σ : Type} (registry : σ → List ActivePlayer)
    (operation : Conn → MUDObject → σ → σ × Signal) :
    Nat → Nat → σ → List ActivePlayer → Option (Run σ)
  | 0, _, _, _ => none
  | fuel + 1, i, s, visited =>
    match (registry s)[i]? with
    | none => some { state := s, visited := visited, threw := false }
    | some e =>
      match operation e.conn e.player s with
      | (s2, Signal.next) =>
        applyToActivePlayers registry operation fuel (i + 1) s2 (visited ++ [e])
      | (s2, Signal.stop) => some { state := s2, visited := visited ++ [e], threw := false }
      | (s2, Signal.throw) => some { state := s2, visited := visited ++ [e], threw := true }

/-- An iteration over a fixed list of entries, the snapshot: the function is called on the
entries in order, up to and including the first call that returns `false` or raises. -/
def applyToSnapshot {σ : Type} (operation : Conn → MUDObject → σ → σ × Signal) :
    List ActivePlayer → σ → List ActivePlayer → Run σ
  | [], s, visited => { state := s, visited := visited, threw := false }
  | e :: rest, s, visited =>
    match operation e.conn e.player s with
    | (s2, Signal.next) => applyToSnapshot operation rest s2 (visited ++ [e])
    | (s2, Signal.stop) => { state := s2, visited := visited ++ [e], threw := false }
    | (s2, Signal.throw) => { state := s2, visited := visited ++ [e], threw := true }

/-- The state of a broadcast: the registry, which the broadcast does not change, and the
actions so far. -/
abbrev Broadcast := List ActivePlayer × List Emit

/-- The actions of a run over the registry `activePlayers` of a function that sends
messages: those of the final state, followed by the `TypeError` when the run raised. The
registry is not changed by the function, so `activePlayers.length + 1` iterations end
the loop. -/
def runBroadcast (activePlayers : List ActivePlayer)
    (operation : Conn → MUDObject → Broadcast → Broadcast × Signal) : List Emit :=
  match applyToActivePlayers (fun s : Broadcast => s.1) operation
      (activePlayers.length + 1) 0 (activePlayers, []) [] with
  | some run => if run.threw = true then run.state.2 ++ [Emit.typeError] else run.state.2
  | none => []

/-- The function that `broadcastExcept` gives to `applyToActivePlayers`. -/
def broadcastExceptOperation (conn : Conn) (message : JSString) (values : Values) :
    Conn → MUDObject → Broadcast → Broadcast × Signal :=
  fun appconn _ s =>
    if appconn ≠ conn then ((s.1, s.2 ++ [Emit.send appconn message values]), Signal.next)
    else (s, Signal.next)

/-- `controller.broadcastExcept(conn, message, values)`. -/
def broadcastExcept (activePlayers : List ActivePlayer) (conn : Conn) (message : JSString)
    (values : Values) : List Emit :=
  runBroadcast activePlayers (broadcastExceptOperation conn message values)

/-- The state of a broadcast to a room: the state of a broadcast, and the number of calls
of the function so far. The function is called on the entries in registry order and leaves
the registry alone, so the number is the position of the entry it is called on. -/
abbrev RoomBroadcast := Broadcast × Nat

/-- The actions of a run over the registry `activePlayers` of a function that sends
messages to a room: those of the final state, followed by the `TypeError` when the run
raised. -/
def runRoomBroadcast (activePlayers : List ActivePlayer)
    (operation : Conn → MUDObject → RoomBroadcast → RoomBroadcast × Signal) : List Emit :=
  match applyToActivePlayers (fun s : RoomBroadcast => s.1.1) operation
      (activePlayers.length + 1) 0 ((activePlayers, []), 0) [] with
  | some run =>
    if run.threw = true then run.state.1.2 ++ [Emit.typeError] else run.state.1.2
  | none => []

/-- The position of the entry whose player `findActivePlayerByConnection(conn)` returns,
the first entry on `conn`; the length of the registry when there is none. -/
def actorPosition (activePlayers : List ActivePlayer) (conn : Conn) : Nat :=
  activePlayers.findIdx (fun e => decide (e.conn = conn))

/-- The function that `sendMessageRoomExcept` gives to `applyToActivePlayers`. The test
`currPlayer !== otherPlayer` compares the identity of two objects, not their fields. Every
entry of the registry holds a player object of its own (`activatePlayer` is only called
with an object just loaded or created), so the two are the same object exactly when the
entry the function is called on is the entry that `findActivePlayerByConnection(conn)`
finds: the position of an entry stands for the identity of its object. -/
def sendMessageRoomExceptOperation (conn : Conn) (message : JSString) (values : Values) :
    Conn → MUDObject → RoomBroadcast → RoomBroadcast × Signal :=
  fun otherConn otherPlayer s =>
    match findActivePlayerByConnection s.1.1 conn with
    | none => ((s.1, s.2 + 1), Signal.throw)
    | some currPlayer =>
      if otherPlayer.locationId = currPlayer.locationId ∧ actorPosition s.1.1 conn ≠ s.2 then
        (((s.1.1, s.1.2 ++ [Emit.send otherConn message values]), s.2 + 1), Signal.next)
      else ((s.1, s.2 + 1), Signal.next)

/-- `controller.sendMessageRoomExcept(conn, message, values)`. -/
def sendMessageRoomExcept (activePlayers : List ActivePlayer) (conn : Conn)
    (message : JSString) (values : Values) : List Emit :=
  runRoomBroadcast activePlayers (sendMessageRoomExceptOperation conn message values)

/-- `controller.deactivatePlayer(conn)`: the registry afterwards, and the actions. -/
def deactivatePlayer (strings : CommandStrings) (activePlayers : List ActivePlayer)
    (conn : Conn) : List ActivePlayer × List Emit :=
  let player := findActivePlayerByConnection activePlayers conn
  let values := match player with
    | some p => Values.object p
    | none => Values.none
  (activePlayers.eraseP (fun e => decide (e.conn = conn)),
   broadcastExcept activePlayers conn strings.hasDisconnected values ++ [Emit.terminate conn])

/-! ## Permission engine: feedback (`scripts/Predicates.js`) -/

/-- Truthiness of an optional string (`if (thing.failureMessage)`): defined, not null and
not empty. -/
def truthyString : Option JSString → Bool
  | none => false
  | some [] => false
  | some (_ :: _) => true

/-- The calls `sendMessage(playerConn, message)` guarded by `if (message)`. -/
def sendIfSet (conn : Conn) (message : Option JSString) : List Emit :=
  match message with
  | some (c :: cs) => [Emit.send conn (c :: cs) Values.none]
  | _ => []

/-- `predicates.canDoIt(controller, player, thing, callback, defaultFailureMessage)`: the
actions, in order, and the value given to `callback`, which is called last, once (when it
is supplied). -/
def canDoIt (activePlayers : List ActivePlayer) (db : List MUDObject)
    (player thing : MUDObject) (defaultFailureMessage : Option JSString) :
    List Emit × JSVal :=
  match findActiveConnectionByPlayer activePlayers player with
  | none => ([], JSVal.bool false)
  | some playerConn =>
    couldDoIt db player thing (fun doit =>
      if doit.truthy = false then
        ((if truthyString thing.failureMessage = true then
            sendIfSet playerConn thing.failureMessage
          else if truthyString defaultFailureMessage = true then
            sendIfSet playerConn defaultFailureMessage
          else []) ++
         (match thing.othersFailureMessage with
          | some (c :: cs) =>
            sendMessageRoomExcept activePlayers playerConn
              (player.name ++ " ".toList ++ (c :: cs)) Values.none
          | _ => []),
         doit)
      else
        (sendIfSet playerConn thing.successMessage ++
         (match thing.othersSuccessMessage with
          | some (c :: cs) =>
            sendMessageRoomExcept activePlayers playerConn
              (player.name ++ " ".toList ++ (c :: cs)) Values.none
          | _ => []),
         doit))

/-! ## Feedback of the permission engine, in the words of the specification -/

/-- A configured message: a string that is present and not empty. -/
def configured (message : Option JSString) : Option JSString :=
  match message with
  | some (c :: cs) => some (c :: cs)
  | _ => none

/-- The bystanders of the player registered on `conn`, whose player object is `curr`: the
entries of the registry other than the entry of that player, the first one on `conn`, whose
player is in the same location, in registry order. A second session of the same player is
a bystander like any other. -/
def bystanders (activePlayers : List ActivePlayer) (conn : Conn) (curr : MUDObject) :
    List ActivePlayer :=
  (activePlayers.enum.filter
    (fun p => decide (p.2.player.locationId = curr.locationId ∧
      actorPosition activePlayers conn ≠ p.1))).map (fun p => p.2)

/-- The message to the actor, if one is configured: the entity's own message, or else the
fallback of the caller. -/
def actorFeedback (playerConn : Conn) (own fallback : Option JSString) : List Emit :=
  match configured own, configured fallback with
  | some m, _ => [Emit.send playerConn m Values.none]
  | none, some d => [Emit.send playerConn d Values.none]
  | none, none => []

/-- The message to the bystanders, if one is configured: the name of the actor, a space
and the message, to each bystander in registry order. -/
def roomFeedback (activePlayers : List ActivePlayer) (playerConn : Conn)
    (curr player : MUDObject) (others : Option JSString) : List Emit :=
  match configured others with
  | some m =>
    (bystanders activePlayers playerConn curr).map
      (fun e => Emit.send e.conn (player.name ++ " ".toList ++ m) Values.none)
  | none => []

/-- The feedback on a denial: the failure message (or the default of the caller) to the
actor, the others-failure message to the bystanders. -/
def denyFeedback (activePlayers : List ActivePlayer) (playerConn : Conn)
    (curr player thing : MUDObject) (defaultFailureMessage : Option JSString) : List Emit :=
  actorFeedback playerConn thing.failureMessage defaultFailureMessage ++
    roomFeedback activePlayers playerConn curr player thing.othersFailureMessage

/-- The feedback on an allowance: the success message to the actor, the others-success
message to the bystanders. -/
def allowFeedback (activePlayers : List ActivePlayer) (playerConn : Conn)
    (curr player thing : MUDObject) : List Emit :=
  actorFeedback playerConn thing.successMessage none ++
    roomFeedback activePlayers playerConn curr player thing.othersSuccessMessage

/-! ## The object `commands` as the dispatcher reads it -/

/-- The names of the members of `Object.prototype`, which an object literal inherits. -/
def objectPrototypeKeys : List JSString :=
  [ "constructor".toList, "__defineGetter__".toList, "__defineSetter__".toList,
    "hasOwnProperty".toList, "__lookupGetter__".toList, "__lookupSetter__".toList,
    "isPrototypeOf".toList, "propertyIsEnumerable".toList, "toString".toList,
    "valueOf".toList, "__proto__".toList, "toLocaleString".toList ]

/-- A member of `Object.prototype` read as a command definition: a truthy value on which
`nargs`, `preLogin`, `postLogin`, `validate` and `perform` are all undefined. -/
def inheritedMember : CommandHandler :=
  { nargs := none, preLogin := false, postLogin := false, validate := none, perform := none,
    prop := none }

/-- The property read `commands[commandStr]` on the object literal `commands`: an own
property, that is a binding of the command table, or else an inherited member. -/
def commandsObject (commandStr : JSString) : Option CommandHandler :=
  match commands commandStr with
  | some command => some command
  | none => if commandStr ∈ objectPrototypeKeys then some inheritedMember else none

/-! ## Objects and prototypes (`extend` of `scripts/CommandHandler.js`) -/

/-- An object: its prototype, by address, and its own properties, all of them plain
writable data properties; the type `V` of the values is arbitrary. -/
structure JSObject (V : Type) where
  proto : Option Nat
  own : List (JSString × V)

/-- The heap: the object at address `r` is the `r`-th element. -/
abbrev Heap (V : Type) := List (JSObject V)

/-- The value of an own property; `none` when the object has no such own property. -/
def ownProperty {V : Type} (own : List (JSString × V)) (key : JSString) : Option V :=
  (own.find? (fun kv => decide (kv.1 = key))).map (fun kv => kv.2)

/-- The property read `obj[key]` along the prototype chain, through at most `fuel`
objects; `none` when no object of the chain has the property. -/
def getProperty {V : Type} (heap : Heap V) : Nat → Nat → JSString → Option V
  | 0, _, _ => none
  | fuel + 1, r, key =>
    match heap[r]? with
    | none => none
    | some o =>
      match ownProperty o.own key with
      | some v => some v
      | none =>
        match o.proto with
        | none => none
        | some p => getProperty heap fuel p key

/-- The property read `obj[key]` on the object at address `r`: a prototype has a smaller
address than the objects created from it, so the chain has at most `r + 1` objects. -/
def getProp {V : Type} (heap : Heap V) (r : Nat) (key : JSString) : Option V :=
  getProperty heap (r + 1) r key

/-- Every prototype was allocated before the objects that have it as prototype. -/
def Heap.wellFormed {V : Type} (heap : Heap V) : Prop :=
  ∀ (r : Nat) (o : JSObject V) (p : Nat), heap[r]? = some o → o.proto = some p → p < r

/-- The own properties after the assignment `obj[key] = v`. -/
def setOwn {V : Type} (own : List (JSString × V)) (key : JSString) (v : V) :
    List (JSString × V) :=
  if own.any (fun kv => decide (kv.1 = key)) then
    own.map (fun kv => if kv.1 = key then (key, v) else kv)
  else own ++ [(key, v)]

/-- The heap after the assignment `obj[key] = v` on the object at address `r`. -/
def assign {V : Type} (heap : Heap V) (r : Nat) (key : JSString) (v : V) : Heap V :=
  heap.modify (fun o => { o with own := setOwn o.own key v }) r

/-- `Object.create(proto)`: the heap with the new object, and its address. -/
def objectCreate {V : Type} (heap : Heap V) (proto : Nat) : Heap V × Nat :=
  (heap ++ [{ proto := some proto, own := [] }], heap.length)

/-- `this.extend(ext)` of `CommandHandler.js`, for `this` at address `self` and the own
enumerable properties `ext` of the extension object, in enumeration order: the heap
afterwards and the address of the clone. -/
def extend {V : Type} (heap : Heap V) (self : Nat) (ext : List (JSString × V)) :
    Heap V × Nat :=
  let created := objectCreate heap self
  (ext.foldl (fun h kv => assign h created.2 kv.1 kv.2) created.1, created.2)

/-! ## Object-editing commands (`scripts/PropertyHandler.js`, `scripts/Commands.js`) -/

/-- The store after `obj.save()`: the row with the id of `obj` has the fields of `obj`. -/
def saveObject (db : List MUDObject) (obj : MUDObject) : List MUDObject :=
  db.map (fun o => if o.id = obj.id then obj else o)

/-- The store after a list of actions: every save is persisted, in order. -/
def persist (db : List MUDObject) (out : List Emit) : List MUDObject :=
  out.foldl (fun d e =>
    match e with
    | Emit.save _ after => saveObject d after
    | _ => d) db

/-- The store lookup `findOne({id: roomID})`; a null id matches no row. -/
def findById (db : List MUDObject) (roomID : Option Int) : Option MUDObject :=
  match roomID with
  | none => none
  | some n => db.find? (fun o => decide (o.id = n))

/-- The values of `prop` in the property setters of the command table. -/
inductive Property where
  | description
  | name
  | successMessage
  | othersSuccessMessage
  | failureMessage
  | othersFailureMessage
deriving DecidableEq, Repr

/-- The assignment `target[propertyName] = value`. -/
def setProperty (target : MUDObject) (propertyName : Property) (value : JSString) :
    MUDObject :=
  match propertyName with
  | Property.description => { target with description := some value }
  | Property.name => { target with name := value }
  | Property.successMessage => { target with successMessage := some value }
  | Property.othersSuccessMessage => { target with othersSuccessMessage := some value }
  | Property.failureMessage => { target with failureMessage := some value }
  | Property.othersFailureMessage => { target with othersFailureMessage := some value }

/-- `predicates.sameName(ftargets)`. -/
def sameName (ftargets : List MUDObject) : Bool :=
  match ftargets with
  | [] => true
  | first :: rest => rest.all (fun obj => decide (first.name = obj.name))

section Commands

variable (toLowerCase : JSString → JSString)
variable (like : JSString → JSString → Bool)
variable (strings : Strings) (cstrings : CommandStrings)

/- The entry of the catalogue for a property name, capitalised
(`Str(strings[propertyName]).capitalize().s`), is a parameter of the development. -/
variable (propertyLabel : Property → JSString)

/- The reading of a string as the value of the `id` column in a store query is a
parameter of the development; `none` is a string that matches no id. -/
variable (idOfString : JSString → Option Int)

/-- `updatePropertyInternal(conn, targets, propertyName, value)` for the player `me`
registered on `conn`. -/
def updatePropertyInternal (conn : Conn) (me : MUDObject) (targets : List (Option MUDObject))
    (propertyName : Property) (value : JSString) : List Emit :=
  match allObjects targets with
  | none => [Emit.typeError]
  | some objs =>
    let ftargets := objs.filter (fun obj => decide (obj.ownerId = some me.id))
    if ftargets.length = 0 then
      [Emit.send conn cstrings.permissionDenied Values.none]
    else if ftargets.length > 1 ∧ sameName ftargets = true then
      [Emit.send conn strings.ambigSet Values.none]
    else
      match ftargets with
      | [] => [Emit.typeError]
      | target :: _ =>
        [Emit.save target (setProperty target propertyName value),
         Emit.send conn cstrings.set
           (Values.fields [("property".toList, propertyLabel propertyName)])]

/-- `updateProperty(conn, targetName, propertyName, value)`. -/
def updateProperty (db : List MUDObject) (conn : Conn) (me : MUDObject)
    (targetName : JSString) (propertyName : Property) (value : JSString) : List Emit :=
  findPotentialMUDObjects toLowerCase like db me targetName
    (fun objs => updatePropertyInternal strings cstrings propertyLabel conn me objs
      propertyName value)
    true true none

/-- `PropertyHandler.perform(conn, argsArr)` for the command whose `prop` is
`propertyName`, on the argument `argsArr[0]`. -/
def propertyPerform (db : List MUDObject) (conn : Conn) (me : MUDObject)
    (propertyName : Property) (arg : JSString) : List Emit :=
  let index := if strIndexOf arg '=' = -1 then arg.length else (strIndexOf arg '=').toNat
  let targetName := trim (substring arg 0 index)
  let value := trim (substringFrom arg (index + 1))
  updateProperty toLowerCase like strings cstrings propertyLabel db conn me targetName
    propertyName value

/-- `@set.perform(conn, objectName, flagName)`. -/
def setPerform (db : List MUDObject) (conn : Conn) (player : MUDObject)
    (objectName flagName : JSString) : List Emit :=
  match db.filter (fun o => decide (o.name = objectName)) with
  | [object] =>
    if object.ownerId = some player.id then
      let rawFlagName := flagName.erase '!'
      let flagbit := operand (FLAGS.lookup rawFlagName)
      if strIndexOf flagName '!' > -1 then
        [Emit.save object (object.resetFlag flagbit),
         Emit.send conn cstrings.reset (Values.fields [("property".toList, rawFlagName)])]
      else
        [Emit.save object (object.setFlag flagbit),
         Emit.send conn cstrings.set (Values.fields [("property".toList, rawFlagName)])]
    else [Emit.send conn cstrings.permissionDenied Values.none]
  | [] => [Emit.send conn cstrings.setUnknown Values.none]
  | _ :: _ :: _ => [Emit.send conn strings.ambigSet Values.none]

/-- `@set.validate(conn, argsArr, cb)` with `cb` the `perform` of `@set`. -/
def setValidate (db : List MUDObject) (conn : Conn) (player : MUDObject)
    (argsArr : List JSString) : List Emit :=
  match argsArr with
  | [arg] =>
    match arg.splitOn '=' with
    | first :: second :: _ =>
      let objectName := trim first
      let flagName := trim second
      if flagName = "link_ok".toList ∨ flagName = "anti_lock".toList ∨
          flagName = "temple".toList ∨ flagName = "!link_ok".toList ∨
          flagName = "!anti_lock".toList ∨ flagName = "!temple".toList then
        setPerform strings cstrings db conn player objectName flagName
      else [Emit.send conn strings.unknownCommand Values.none]
    | _ => [Emit.send conn strings.unknownCommand Values.none]
  | _ => [Emit.send conn strings.unknownCommand Values.none]

/-- The value of `roomID` in `linkDirection` and `linkThing`: the target of the player
for `home`, the location of the player for `here`, and the given text otherwise. -/
def resolveRoomID (player : MUDObject) (passedRoomID : JSString) : Option Int :=
  if passedRoomID = "home".toList then player.targetId
  else if passedRoomID = "here".toList then player.locationId
  else idOfString passedRoomID

/-- `@link.linkDirection(conn, passedObject, passedRoomID)`. -/
def linkDirection (db : List MUDObject) (conn : Conn) (player passedObject : MUDObject)
    (passedRoomID : JSString) : List Emit :=
  if passedObject.targetId = none then
    match findById db (resolveRoomID idOfString player passedRoomID) with
    | none => [Emit.typeError]
    | some room =>
      if isLinkable room player = true then
        [Emit.save passedObject
           { passedObject with targetId := some room.id, ownerId := some player.id },
         Emit.send conn cstrings.linked Values.none]
      else [Emit.send conn cstrings.permissionDenied Values.none]
  else [Emit.send conn cstrings.permissionDenied Values.none]

/-- `@link.linkThing(conn, passedObject, passedRoomID)`. -/
def linkThing (db : List MUDObject) (conn : Conn) (player passedObject : MUDObject)
    (passedRoomID : JSString) : List Emit :=
  if passedObject.ownerId = some player.id then
    match findById db (resolveRoomID idOfString player passedRoomID) with
    | none => [Emit.typeError]
    | some room =>
      if isLinkable room player = true then
        [Emit.save passedObject { passedObject with targetId := some room.id },
         Emit.send conn cstrings.homeSet Values.none]
      else [Emit.send conn cstrings.permissionDenied Values.none]
  else [Emit.send conn cstrings.permissionDenied Values.none]

/-- `@link.linkRoom(conn, passedObject, passedRoomID)`. -/
def linkRoom (db : List MUDObject) (conn : Conn) (player passedObject : MUDObject)
    (passedRoomID : JSString) : List Emit :=
  if passedObject.ownerId ≠ some player.id then
    [Emit.send conn cstrings.permissionDenied Values.none]
  else if passedRoomID ≠ "here".toList ∧ passedRoomID = "home".toList then
    match getLocation db player with
    | none => [Emit.typeError]
    | some playerLocation =>
      if passedObject.id = playerLocation.id then
        setValidate strings cstrings db conn player
          [playerLocation.name ++ "=temple".toList]
      else
        setValidate strings cstrings db conn player [passedObject.name ++ "=temple".toList]
  else
    match findById db (if passedRoomID = "here".toList then player.locationId
        else idOfString passedRoomID) with
    | none => [Emit.typeError]
    | some room =>
      if isLinkable room player = true then
        [Emit.save passedObject { passedObject with targetId := some room.id },
         Emit.send conn cstrings.linked Values.none]
      else [Emit.send conn cstrings.permissionDenied Values.none]

/-- `@link.perform(conn, objectName, roomID)`. -/
def linkPerform (db : List MUDObject) (conn : Conn) (player : MUDObject)
    (objectName roomID : JSString) : List Emit :=
  let foundRoom := match idOfString roomID with
    | none => none
    | some n => db.find? (fun o => decide (o.id = n) && decide (o.type = MUDType.ROOM))
  if foundRoom = none ∧ roomID ≠ "here".toList ∧ roomID ≠ "home".toList then
    [Emit.send conn cstrings.notARoom Values.none]
  else
    findPotentialMUDObjects toLowerCase like db player objectName
      (fun objectArr =>
        match objectArr with
        | [none] => [Emit.typeError]
        | [some object] =>
          if object.type = MUDType.EXIT then
            linkDirection cstrings idOfString db conn player object roomID
          else if object.type = MUDType.THING ∨ objectName = "me".toList then
            linkThing cstrings idOfString db conn player object roomID
          else if object.type = MUDType.ROOM ∨ objectName = "here".toList then
            linkRoom strings cstrings idOfString db conn player object roomID
          else [Emit.send conn strings.unknownCommand Values.none]
        | [] => [Emit.send conn strings.unknownCommand Values.none]
        | _ :: _ :: _ => [Emit.send conn strings.ambigSet Values.none])
      true true none

/-- `@unlink.perform(conn, objectName)`. -/
def unlinkPerform (db : List MUDObject) (conn : Conn) (player : MUDObject)
    (objectName : JSString) : List Emit :=
  findPotentialMUDObjects toLowerCase like db player objectName
    (fun objArr =>
      match allObjects objArr with
      | none => [Emit.typeError]
      | some objs =>
        match objs.filter (fun o =>
            (decide (o.type = MUDType.EXIT) && decide (o.name = objectName)) ||
            decide (o.type = MUDType.ROOM)) with
        | [object] =>
          if object.ownerId = some player.id then
            [Emit.save object { object with targetId := none },
             Emit.send conn cstrings.unlinked Values.none]
          else [Emit.send conn cstrings.permissionDenied Values.none]
        | [] => [Emit.send conn cstrings.unlinkUnknown Values.none]
        | _ :: _ :: _ => [Emit.send conn strings.ambigSet Values.none])
    false true none

/-- An execution of a command that edits a name, a description, a message, the flags or a
link of an entity: a property setter with its argument, `@set`, `@link` or `@unlink` with
the arguments of their `perform`. -/
inductive Execution where
  | property (propertyName : Property) (arg : JSString)
  | set (objectName flagName : JSString)
  | link (objectName roomID : JSString)
  | unlink (objectName : JSString)

/-- The actions of an execution for the player registered on `conn`. -/
def Execution.run (db : List MUDObject) (conn : Conn) (player : MUDObject) :
    Execution → List Emit
  | Execution.property propertyName arg =>
    propertyPerform toLowerCase like strings cstrings propertyLabel db conn player
      propertyName arg
  | Execution.set objectName flagName =>
    setPerform strings cstrings db conn player objectName flagName
  | Execution.link objectName roomID =>
    linkPerform toLowerCase like strings cstrings idOfString db conn player objectName roomID
  | Execution.unlink objectName =>
    unlinkPerform toLowerCase like strings cstrings db conn player objectName

end Commands

/-- A reading of a string of decimal digits as an id, used to evaluate the definitions on
sample inputs. -/
def decimalId (s : JSString) : Option Int :=
  match s with
  | [] => none
  | _ :: _ =>
    s.foldl (fun acc c =>
      match acc with
      | none => none
      | some n =>
        if 48 ≤ c.toNat ∧ c.toNat ≤ 57 then some (n * 10 + ((c.toNat - 48 : Nat) : Int))
        else none) (some 0)

/-- The catalogue entries for the property names, used to evaluate the definitions on
sample inputs. -/
def sampleLabel : Property → JSString
  | Property.description => "Description".toList
  | Property.name => "Name".toList
  | Property.successMessage => "Success message".toList
  | Property.othersSuccessMessage => "Others success message".toList
  | Property.failureMessage => "Failure message".toList
  | Property.othersFailureMessage => "Others failure message".toList

/-! ## Candidates of a property setter that the actor owns -/

/-- The array `ftargets` of `updatePropertyInternal` when `updateProperty` is called by the
player `me` with the target name `targetName`: the candidates whose owner is `me`. -/
def ownedCandidates (toLowerCase : JSString → JSString) (like : JSString → JSString → Bool)
    (db : List MUDObject) (me : MUDObject) (targetName : JSString) : List MUDObject :=
  (candidateRows toLowerCase like db me targetName true true none).filter
    (fun obj => decide (obj.ownerId = some me.id))

/-! ## Commands with a `key=value` argument (`scripts/Commands.js`) -/

/-- `predicates.isUsernameValid(str)`: the regular expression `/[!-~^=]+/` finds a
character between `!` and `~`, and the string holds no `=`. -/
def isUsernameValid (str : JSString) : Bool :=
  str.any (fun c => decide (33 ≤ c.toNat ∧ c.toNat ≤ 126)) && decide (strIndexOf str '=' = -1)

/-- What a `validate` that splits its argument does: the call `cb(conn, first, second)`,
where `second` may be undefined, or a message to the connection. -/
inductive Validation where
  | cb (first : JSString) (second : Option JSString)
  | send (message : JSString)
deriving DecidableEq, Repr

/-- `whisper.validate(conn, argsArr, cb)`. -/
def whisperValidate (strings : Strings) (argsArr : List JSString) : Validation :=
  match argsArr with
  | [arg] =>
    match arg.splitOn '=' with
    | first :: second :: _ =>
      let username := trim first
      let message := second
      if isUsernameValid username = true then Validation.cb username (some message)
      else Validation.send strings.unknownCommand
    | _ => Validation.send strings.unknownCommand
  | _ => Validation.send strings.unknownCommand

/-- `@password.validate(conn, argsArr, cb)`: the two passwords are not trimmed, and the new
password is undefined when the argument holds no `=`. The array that `split` returns has
at least one element. -/
def passwordValidate (strings : Strings) (argsArr : List JSString) : Validation :=
  match argsArr with
  | [arg] =>
    let argsSplit := arg.splitOn '='
    Validation.cb (argsSplit.headD []) argsSplit[1]?
  | _ => Validation.send strings.unknownCommand

/-- `@link.validate(conn, argsArr, cb)`. -/
def linkValidate (strings : Strings) (argsArr : List JSString) : Validation :=
  match argsArr with
  | [arg] =>
    match arg.splitOn '=' with
    | first :: second :: _ => Validation.cb (trim first) (some (trim second))
    | _ => Validation.send strings.unknownCommand
  | _ => Validation.send strings.unknownCommand

/-- `@lock.validate(conn, argsArr, cb)`. -/
def lockValidate (strings : Strings) (argsArr : List JSString) : Validation :=
  match argsArr with
  | [arg] =>
    match arg.splitOn '=' with
    | first :: second :: _ => Validation.cb (trim first) (some (trim second))
    | _ => Validation.send strings.unknownCommand
  | _ => Validation.send strings.unknownCommand

/-- The text of an argument before its first `=`: all of it when it holds none. -/
def beforeFirstEquals (arg : JSString) : JSString := arg.takeWhile (fun c => decide (c ≠ '='))

/-- The text of an argument after its first `=`, further `=` characters included: empty
when it holds none. -/
def afterFirstEquals (arg : JSString) : JSString :=
  (arg.dropWhile (fun c => decide (c ≠ '='))).drop 1

/-! ## Message catalogue of `@path`, `drop` and `connect` -/

/-- The entries of the message catalogue `./Strings` that `@path`, `drop` and `connect`
use, beyond those of `Strings` and `CommandStrings`; a parameter of the development. -/
structure WorldStrings where
  notFound : JSString
  dropped : JSString
  dontHave : JSString
  hasConnected : JSString
deriving DecidableEq, Repr

/-! ## Pathfinder (`@path` of `scripts/Commands.js`) -/

/-- The loop of the move function of `@path` over the exits `exitArr`, from the current
`possNodes`: the target of every exit whose `targetId` is not null is pushed. -/
def possNodesLoop : List MUDObject → List Int → List Int
  | [], possNodes => possNodes
  | e :: exitArr, possNodes =>
    match e.targetId with
    | some t => possNodesLoop exitArr (possNodes ++ [t])
    | none => possNodesLoop exitArr possNodes

/-- The move function that `@path.perform` gives to the search: the array `possNodes` that
it passes to the callback for the room id `node`. The store query is
`{locationId: node, type: 'EXIT'}`. -/
def pathMove (db : List MUDObject) (node : Int) : List Int :=
  let exitArr := db.filter
    (fun o => decide (o.locationId = some node) && decide (o.type = MUDType.EXIT))
  if exitArr.length > 0 then possNodesLoop exitArr [] else []

/-- The goal function that `@path.perform` gives to the search: `node === destinationObj.id`. -/
def pathGoal (destinationObj : MUDObject) (node : Int) : Bool :=
  decide (node = destinationObj.id)

section Search

variable {α : Type} [DecidableEq α]

/-- Modelled from the spec: the nodes that the expansion of `v` adds to a layer of the
breadth-first search (the package `async-bfs`, which is not part of the sources), the
neighbours of `v` not visited yet, each once. -/
def bfsFresh (moves : α → List α) (visited : List α) (v : α) : List α :=
  ((moves v).filter (fun w => decide (w ∉ visited))).dedup

/-- Modelled from the spec: one layer of the breadth-first search. Every entry of the
frontier is a node with the path that led to it, last node first; the nodes are expanded
in order, and the result is the next frontier with the nodes visited so far. -/
def bfsExpand (moves : α → List α) :
    List (α × List α) → List α → List (α × List α) × List α
  | [], visited => ([], visited)
  | e :: frontier, visited =>
    let fresh := bfsFresh moves visited e.1
    let r := bfsExpand moves frontier (visited ++ fresh)
    (fresh.map (fun w => (w, e.1 :: e.2)) ++ r.1, r.2)

/-- Modelled from the spec: the breadth-first search from a frontier, layer by layer. The
first node of the frontier that passes the goal test ends the search with its path, from
the start to it; an empty frontier ends it with not-found (`some none`); `fuel` is the
number of layers allowed, and `none` is a search that needs more. -/
def bfsLayers (moves : α → List α) (goal : α → Bool) :
    Nat → List (α × List α) → List α → Option (Option (List α))
  | 0, _, _ => none
  | fuel + 1, frontier, visited =>
    match frontier.find? (fun e => goal e.1) with
    | some e => some (some (e.1 :: e.2).reverse)
    | none =>
      if frontier.isEmpty = true then some none
      else
        bfsLayers moves goal fuel (bfsExpand moves frontier visited).1
          (bfsExpand moves frontier visited).2

/-- Modelled from the spec: `bfs(start, moves, goal, done)` of the package `async-bfs`, a
generic breadth-first search parameterized by a node-expansion function and a goal
predicate, returning the path found or not-found. The value is what `done` receives as
`path`: `some (some path)`, or `some none` for null. -/
def bfs (moves : α → List α) (goal : α → Bool) (fuel : Nat) (start : α) :
    Option (Option (List α)) :=
  bfsLayers moves goal fuel [(start, [])] [start]

/-- A sequence of nodes, not empty, in which every node is followed by one that `edge`
relates it to. -/
def isWalk (edge : α → α → Bool) : List α → Bool
  | [] => false
  | [_] => true
  | u :: v :: rest => edge u v && isWalk edge (v :: rest)

/-- A walk of `k` edges along `moves` leads from `u` to `v`. -/
def reach (moves : α → List α) : α → Nat → α → Prop
  | u, 0, v => v = u
  | u, k + 1, v => ∃ w ∈ moves u, reach moves w k v

/-- The invariant of the search at layer `k`: the frontier holds paths of `k` edges from the
start; every node that a walk of `k` edges reaches is in the frontier or is reached by a
shorter walk; the visited nodes are those reached by a walk of at most `k` edges; and no
node reached by a shorter walk passes the goal test. -/
def bfsInv (moves : α → List α) (goal : α → Bool) (start : α) (k : Nat)
    (frontier : List (α × List α)) (visited : List α) : Prop :=
  (∀ e ∈ frontier,
    isWalk (fun a b => decide (b ∈ moves a)) (e.1 :: e.2).reverse = true ∧
    (e.1 :: e.2).reverse.head? = some start ∧ e.2.length = k) ∧
  (∀ v, reach moves start k v →
    v ∈ frontier.map Prod.fst ∨ ∃ j, j < k ∧ reach moves start j v) ∧
  (∀ v, v ∈ visited ↔ ∃ j, j ≤ k ∧ reach moves start j v) ∧
  (∀ j v, j < k → reach moves start j v → goal v = false)

end Search

/-- What `@path.perform` does after the store lookups and the search. -/
inductive PathOutcome where
  /-- The call `controller.sendMessage(conn, message)`. -/
  | send (conn : Conn) (message : JSString)
  /-- The call `commands["@path"].printPath(conn, path, startId, endId)`. -/
  | printPath (conn : Conn) (path : List Int) (startId endId : Int)
  /-- A `TypeError` raised by reading `location.id` of null. -/
  | typeError
  /-- The search needs more layers than it is allowed. -/
  | unfinished
deriving DecidableEq, Repr

/-- `@path.perform(conn, argsArr)` for the player registered on `conn` and the argument
`argsArr[0]`, with `fuel` layers allowed to the search. -/
def pathPerform (wstrings : WorldStrings) (db : List MUDObject) (conn : Conn)
    (player : MUDObject) (destinationName : JSString) (fuel : Nat) : PathOutcome :=
  match db.find? (fun o => decide (o.name = destinationName) && decide (o.type = MUDType.ROOM))
    with
  | none => PathOutcome.send conn wstrings.notFound
  | some destinationObj =>
    match getLocation db player with
    | none => PathOutcome.typeError
    | some location =>
      match bfs (pathMove db) (pathGoal destinationObj) fuel location.id with
      | none => PathOutcome.unfinished
      | some none => PathOutcome.send conn wstrings.notFound
      | some (some path) => PathOutcome.printPath conn path location.id destinationObj.id

/-! ## Routes, in the words of the specification -/

/-- An exit of the store leads from the room `u` to the room `v`: an `EXIT` entity whose
`locationId` is `u` and whose `targetId` is `v`. -/
def linkedExit (db : List MUDObject) (u v : Int) : Bool :=
  db.any (fun o => decide (o.type = MUDType.EXIT) && decide (o.locationId = some u) &&
    decide (o.targetId = some v))

/-- A sequence of room ids joined by linked exits. -/
def isRoute (db : List MUDObject) (rooms : List Int) : Bool := isWalk (linkedExit db) rooms

/-- The neighbours of a room: the targets of the `EXIT` entities whose `locationId` is the
room and whose `targetId` is not null, in store order. -/
def exitTargets (db : List MUDObject) (node : Int) : List Int :=
  (db.filter (fun o => decide (o.type = MUDType.EXIT) &&
    decide (o.locationId = some node))).filterMap (fun o => o.targetId)

/-! ## The command `drop` (`scripts/Commands.js`) -/

/-- The loop of `drop.perform` over the things `thingArr`, in the room `currentRoom`: every
thing gets its new `locationId`, is saved, and the message `dropped` is sent. -/
def dropLoop (wstrings : WorldStrings) (conn : Conn) (currentRoom : MUDObject) :
    List MUDObject → List Emit
  | [] => []
  | thingToDrop :: thingArr =>
    (if currentRoom.isTemple ≠ 0 then
      if currentRoom.targetId ≠ none then
        [Emit.save thingToDrop { thingToDrop with locationId := currentRoom.targetId },
         Emit.send conn wstrings.dropped Values.none]
      else
        [Emit.save thingToDrop { thingToDrop with locationId := thingToDrop.targetId },
         Emit.send conn wstrings.dropped Values.none]
    else
      [Emit.save thingToDrop { thingToDrop with locationId := some currentRoom.id },
       Emit.send conn wstrings.dropped Values.none])
    ++ dropLoop wstrings conn currentRoom thingArr

/-- `drop.perform(conn, argsArr)` for the player registered on `conn` and the argument
`argsArr[0]`. The store queries are `{name: argsArr[0], type: 'THING', locationId:
player.id}` and `{type: 'ROOM', id: player.locationId}`; with no such room,
`currentRoom.isTemple()` raises. -/
def dropPerform (wstrings : WorldStrings) (db : List MUDObject) (conn : Conn)
    (player : MUDObject) (arg : JSString) : List Emit :=
  let thingArr := db.filter (fun o => decide (o.name = arg) &&
    decide (o.type = MUDType.THING) && decide (o.locationId = some player.id))
  if thingArr.length > 0 then
    match db.find? (fun o => decide (o.type = MUDType.ROOM) &&
        decide (some o.id = player.locationId)) with
    | none => [Emit.typeError]
    | some currentRoom => dropLoop wstrings conn currentRoom thingArr
  else [Emit.send conn wstrings.dontHave Values.none]

/-! ## Dropping, in the words of the specification -/

/-- A thing that the player carries under the given name. -/
def isCarried (player : MUDObject) (arg : JSString) (o : MUDObject) : Bool :=
  decide (o.type = MUDType.THING) && decide (o.locationId = some player.id) &&
    decide (o.name = arg)

/-- Where a thing dropped in a room goes: to the target of the room when the room has the
`temple` flag and a target, to the target of the thing when the room has the `temple` flag
and no target, and to the room itself when the room is no temple. -/
def dropLocation (room thing : MUDObject) : Option Int :=
  if room.getFlag "temple".toList ≠ 0 then
    match room.targetId with
    | some t => some t
    | none => thing.targetId
  else some room.id

/-! ## The command `connect` (`scripts/Commands.js`) -/

/-- The function that `connect.perform` gives to `applyToActivePlayers`, on the registry
and the actions so far: a registered player whose name is `argsArr[0]` is deactivated, and
the function returns `false`; on every other entry it returns nothing. -/
def kickOperation (cstrings : CommandStrings) (name : JSString) :
    Conn → MUDObject → List ActivePlayer × List Emit →
      (List ActivePlayer × List Emit) × Signal :=
  fun apconn ap s =>
    if ap.name = name then
      (((deactivatePlayer cstrings s.1 apconn).1,
        s.2 ++ (deactivatePlayer cstrings s.1 apconn).2), Signal.stop)
    else (s, Signal.next)

/-- `controller.clearScreen(conn)`: 24 calls of `sendMessage(conn)`, each of which sends
the empty string. -/
def clearScreen (conn : Conn) : List Emit :=
  List.replicate 24 (Emit.send conn [] Values.none)

/-- `connect.perform(conn, argsArr)` with `argsArr = [name, password]`, up to its last call,
`commands.look.perform(conn, [])`, which sends messages and changes neither the registry
nor the store: the registry afterwards and the actions. The store query is
`{name: argsArr[0], password: argsArr[1], type: 'PLAYER'}`; the loop over the registry is
allowed one iteration more than there are entries, and `none` is a loop that needs more. -/
def connectPerform (cstrings : CommandStrings) (wstrings : WorldStrings) (db : List MUDObject)
    (activePlayers : List ActivePlayer) (conn : Conn) (name password : JSString) :
    Option (List ActivePlayer × List Emit) :=
  match db.find? (fun o => decide (o.name = name) && decide (o.password = some password) &&
      decide (o.type = MUDType.PLAYER)) with
  | none => some (activePlayers, [])
  | some player =>
    match applyToActivePlayers (fun s : List ActivePlayer × List Emit => s.1)
        (kickOperation cstrings name) (activePlayers.length + 1) 0 (activePlayers, []) [] with
    | none => none
    | some run =>
      some (activatePlayer run.state.1 conn player,
        run.state.2 ++
          broadcastExcept (activatePlayer run.state.1 conn player) conn wstrings.hasConnected
            (Values.object player) ++
          clearScreen conn)

/-! ## Sample entities -/

/-- A row with the given identity, kind and name, and every other column empty. -/
def mkObject (id : Int) (type : MUDType) (name : JSString) : MUDObject :=
  { id := id, name := name, description := none, failureMessage := none,
    successMessage := none, othersFailureMessage := none, othersSuccessMessage := none,
    type := type, flags := 0, password := none, targetId := none, locationId := none,
    ownerId := none, keyId := none }

/-- A player with id 1 standing in room 10. -/
def alice : MUDObject :=
  { mkObject 1 MUDType.PLAYER "alice".toList with locationId := some 10 }

/-- A thing with id 5 carried by `alice`. -/
def brassKey : MUDObject :=
  { mkObject 5 MUDType.THING "brass key".toList with locationId := some 1 }

/-- An exit in room 10 leading to room 11, locked with `brassKey`. -/
def door : MUDObject :=
  { mkObject 7 MUDType.EXIT "out;north".toList with
    locationId := some 10, targetId := some 11, keyId := some 5 }

/-- The same exit with the `anti_lock` flag set. -/
def antiDoor : MUDObject := { door with flags := 2 }

/-- The exit `antiDoor` before it is linked: its `targetId` is null. -/
def unlinkedAntiDoor : MUDObject := { antiDoor with targetId := none }

/-- An exit named `out` in room 10. -/
def outExit : MUDObject :=
  { mkObject 20 MUDType.EXIT "out".toList with locationId := some 10, targetId := some 11 }

/-- A thing named `key` lying in room 10. -/
def plainKey : MUDObject :=
  { mkObject 21 MUDType.THING "key".toList with locationId := some 10 }

/-- A thing named `red rusty key` lying in room 10. -/
def rustyKey : MUDObject :=
  { mkObject 22 MUDType.THING "red rusty key".toList with locationId := some 10 }

/-- A message catalogue for the sample inputs. -/
def sampleStrings : Strings :=
  { ambigSet := "I do not know which one you mean!".toList,
    dontSeeThat := "I do not see that here.".toList,
    incorrectArgs := "Incorrect arguments for that command.".toList,
    alreadyLoggedIn := "You are already logged in.".toList,
    unknownCommand := "Huh?".toList,
    loginPrompt := "Welcome! connect <name> <password>".toList }

/-- A second thing named `key` in room 10, this one with a description. -/
def describedKey : MUDObject :=
  { mkObject 23 MUDType.THING "key".toList with
    locationId := some 10, description := some "A small key.".toList }

/-- A thing named `red key` in room 10. -/
def redKey : MUDObject :=
  { mkObject 24 MUDType.THING "red key".toList with locationId := some 10 }

/-- Another thing named `red key` in room 10. -/
def redKeyTwin : MUDObject :=
  { mkObject 25 MUDType.THING "red key".toList with locationId := some 10 }

/-- The pairs (separator, token) that follow the token `a` in the text `a b  c=x d`. -/
def sampleRest : List (JSString × JSString) :=
  [(" ".toList, "b".toList), ("  ".toList, "c=x".toList), (" ".toList, "d".toList)]

/-- A registry in which `alice` is logged in on connection 3. -/
def sampleRegistry : List ActivePlayer := [{ player := alice, conn := 3 }]

/-- A room with id 10 owned by player 2, with no flag set. -/
def hall : MUDObject :=
  { mkObject 10 MUDType.ROOM "hall".toList with ownerId := some 2 }

/-- A player with id 2 standing in room 10, the owner of `hall`. -/
def bob : MUDObject :=
  { mkObject 2 MUDType.PLAYER "bob".toList with locationId := some 10, ownerId := some 2 }

/-- A player with id 3 standing in room 11. -/
def carol : MUDObject :=
  { mkObject 3 MUDType.PLAYER "carol".toList with locationId := some 11 }

/-- A registry with `alice` on connection 3, `bob` on 4 and `carol` on 5. -/
def threePlayers : List ActivePlayer :=
  [{ player := alice, conn := 3 }, { player := bob, conn := 4 },
   { player := carol, conn := 5 }]

/-- A function for `applyToActivePlayers` that removes the entry of the connection it is
called on from the registry, and returns nothing. -/
def dropVisited (conn : Conn) (_player : MUDObject) (s : List ActivePlayer) :
    List ActivePlayer × Signal :=
  (s.eraseP (fun e => decide (e.conn = conn)), Signal.next)

/-- A function for `applyToActivePlayers` that changes nothing and returns `false` on
connection 4. -/
def stopAtFour (conn : Conn) (_player : MUDObject) (s : List ActivePlayer) :
    List ActivePlayer × Signal :=
  (s, if conn = 4 then Signal.stop else Signal.next)

/-- A message catalogue of the commands for the sample inputs. -/
def sampleCommandStrings : CommandStrings :=
  { hasDisconnected := "A player has disconnected.".toList,
    permissionDenied := "Permission denied.".toList,
    linked := "Linked.".toList,
    homeSet := "Home set.".toList,
    unlinked := "Unlinked.".toList,
    unlinkUnknown := "Unlink what?".toList,
    notARoom := "That is not a room.".toList,
    set := "Set.".toList,
    reset := "Reset.".toList,
    setUnknown := "Set what?".toList }

/-- The exit `door` with all four messages configured. -/
def talkingDoor : MUDObject :=
  { door with
    successMessage := some "You open the door.".toList,
    othersSuccessMessage := some "opens the door.".toList,
    failureMessage := some "The door is locked.".toList,
    othersFailureMessage := some "rattles the door.".toList }

/-- The object exported by `CommandHandler.js`, with its properties as source text. -/
def baseObject : JSObject JSString :=
  { proto := none,
    own := [("nargs".toList, "0".toList), ("preLogin".toList, "false".toList),
      ("postLogin".toList, "true".toList), ("validate".toList, "function validate".toList),
      ("perform".toList, "function perform".toList),
      ("extend".toList, "function extend".toList)] }

/-- The object literal given to `extend` in `PropertyHandler.js`, with its properties as
source text, `validate` and `perform` left out. -/
def propertyExtension : List (JSString × JSString) :=
  [("prop".toList, "undefined".toList), ("nargs".toList, "1".toList)]

/-- An exit named `north` in room 10, owned by `bob`, not linked. -/
def northExit : MUDObject :=
  { mkObject 30 MUDType.EXIT "north".toList with locationId := some 10, ownerId := some 2 }

/-- A room with id 11 owned by `bob`, with no flag set. -/
def yard : MUDObject :=
  { mkObject 11 MUDType.ROOM "yard".toList with ownerId := some 2 }

/-- A room with id 12 owned by `alice`. -/
def attic : MUDObject :=
  { mkObject 12 MUDType.ROOM "attic".toList with ownerId := some 1 }

/-- A store with the room `hall`, the players `alice` and `bob` in it, the unlinked exit
`northExit` in it, and the rooms `yard` and `attic`. -/
def sampleWorld : List MUDObject := [hall, alice, bob, northExit, yard, attic]

/-- A thing named `red key` in room 10, owned by `alice`. -/
def aliceRedKey : MUDObject :=
  { mkObject 40 MUDType.THING "red key".toList with locationId := some 10, ownerId := some 1 }

/-- A thing named `blue key` in room 10, owned by `alice`. -/
def aliceBlueKey : MUDObject :=
  { mkObject 41 MUDType.THING "blue key".toList with locationId := some 10, ownerId := some 1 }

/-- A store with the room `hall`, the player `alice` in it, and her two keys of different
names. -/
def keyWorld : List MUDObject := [hall, alice, aliceRedKey, aliceBlueKey]

/-- A message catalogue of `@path`, `drop` and `connect` for the sample inputs. -/
def sampleWorldStrings : WorldStrings :=
  { notFound := "Not found.".toList,
    dropped := "Dropped.".toList,
    dontHave := "You do not have that.".toList,
    hasConnected := "A player has connected.".toList }

/-- A room with the given id and name. -/
def mkRoom (id : Int) (name : String) : MUDObject := mkObject id MUDType.ROOM name.toList

/-- An exit with the given id, in the room `source`, leading to `target`. -/
def mkExit (id : Int) (name : String) (source : Int) (target : Option Int) : MUDObject :=
  { mkObject id MUDType.EXIT name.toList with locationId := some source, targetId := target }

/-- A player with id 9 standing in room 101. -/
def dana : MUDObject :=
  { mkObject 9 MUDType.PLAYER "dana".toList with locationId := some 101 }

/-- The diamond: the rooms `A`, `B`, `C`, `D` and `E` with ids 101 to 105, the exits
`A → B`, `A → C`, `B → D` and `C → D`, an exit of `A` that is not linked, and the player
`dana` in `A`. No exit leads to `E`. -/
def diamond : List MUDObject :=
  [mkRoom 101 "A", mkRoom 102 "B", mkRoom 103 "C", mkRoom 104 "D", mkRoom 105 "E", dana,
   mkExit 111 "closed" 101 none, mkExit 112 "ab" 101 (some 102),
   mkExit 113 "ac" 101 (some 103), mkExit 114 "bd" 102 (some 104),
   mkExit 115 "cd" 103 (some 104)]

/-- A temple with id 50, owned by `bob`, whose target is the room 12. -/
def shrine : MUDObject :=
  { mkObject 50 MUDType.ROOM "shrine".toList with
    ownerId := some 2, flags := 4, targetId := some 12 }

/-- A player with id 8 standing in the temple. -/
def erin : MUDObject :=
  { mkObject 8 MUDType.PLAYER "erin".toList with locationId := some 50 }

/-- A thing named `coin` carried by `erin`, whose home is room 10. -/
def coin : MUDObject :=
  { mkObject 60 MUDType.THING "coin".toList with locationId := some 8, targetId := some 10 }

/-- A second thing named `coin` carried by `erin`, with no home. -/
def oldCoin : MUDObject :=
  { mkObject 61 MUDType.THING "coin".toList with locationId := some 8 }

/-- A thing named `lamp` carried by `erin`. -/
def lamp : MUDObject :=
  { mkObject 62 MUDType.THING "lamp".toList with locationId := some 8 }

/-- A store with the temple, `erin` in it, and the three things she carries. -/
def templeWorld : List MUDObject := [shrine, erin, coin, oldCoin, lamp]

/-- The player `alice` with a password. -/
def aliceAccount : MUDObject := { alice with password := some "secret".toList }

/-- A store with the room `hall` and the players `aliceAccount` and `bob`. -/
def accounts : List MUDObject := [hall, aliceAccount, bob]

/-- A registry in which `bob` and `aliceAccount` are both registered on connection 7. -/
def sharedConnection : List ActivePlayer :=
  [{ player := bob, conn := 7 }, { player := aliceAccount, conn := 7 }]

/-- A registry with `bob` on connection 6 and `aliceAccount` on connection 7. -/
def twoSessions : List ActivePlayer :=
  [{ player := bob, conn := 6 }, { player := aliceAccount, conn := 7 }]

/-- A registry in which `alice` has two sessions, on connections 3 and 9, both holding the
same row, and `carol`, who stands elsewhere, one on connection 5. -/
def twoWindows : List ActivePlayer :=
  [{ player := alice, conn := 3 }, { player := alice, conn := 9 },
   { player := carol, conn := 5 }]

/-- A player whose name is `bob` followed by a tab, as the line `create bob<TAB> pw` stores
it, standing in room 10. -/
def tabBob : MUDObject :=
  { mkObject 44 MUDType.PLAYER ("bob".toList ++ [Char.ofNat 9]) with locationId := some 10 }

/-- A thing named ` key `, with a space before and after, lying in room 10. -/
def paddedKey : MUDObject :=
  { mkObject 45 MUDType.THING " key ".toList with locationId := some 10 }

/-! ## Theorems: permission engine -/

/-- The callback of `couldDoIt` is called once, on a value that does not depend on it. -/
theorem couldDoIt_callback {α : Type} (db : List MUDObject) (player thing : MUDObject)
    (callback : JSVal → α) :
    couldDoIt db player thing callback = callback (couldDoIt db player thing id) := by
  unfold couldDoIt
  split_ifs <;> try rfl
  simp only []
  split_ifs <;> try rfl
  split <;> rfl

/-- With a key set and the player not being the key, `find?` decides whether the key is held. -/
theorem find_key_isSome (db : List MUDObject) (player : MUDObject) (keyId : Option Int) :
    (db.find? (fun o => decide (o.locationId = some player.id ∧ some o.id = keyId))).isSome
      = true ↔ ∃ o ∈ db, some o.id = keyId ∧ o.locationId = some player.id := by
  rw [List.find?_isSome]
  constructor
  · rintro ⟨o, ho, h⟩
    simp only [decide_eq_true_eq] at h
    exact ⟨o, ho, h.2, h.1⟩
  · rintro ⟨o, ho, h1, h2⟩
    exact ⟨o, ho, by simp [h1, h2]⟩

/-- Claim C1. For every player and every entity that is in-world (a Room, or with a
truthy `locationId`) and is not an Exit with a null `targetId`, `couldDoIt` calls its
callback once with a value that allows when the entity has no `keyId`, whatever its
`anti_lock` flag, and otherwise allows exactly when "the player is the key or carries it"
and the `anti_lock` flag differ. -/
theorem couldDoIt_truth_table {α : Type} (db : List MUDObject) (player thing : MUDObject)
    (callback : JSVal → α)
    (hworld : thing.type = MUDType.ROOM ∨ truthyRef thing.locationId = true)
    (hlinked : ¬ (thing.type = MUDType.EXIT ∧ thing.targetId = none)) :
    couldDoIt db player thing callback = callback (decision db player thing) ∧
    (truthyRef thing.keyId = false → allows db player thing = true) ∧
    (truthyRef thing.keyId = true →
      (allows db player thing = true ↔
        (holdsKey db player thing.keyId ↔ ¬ antiLocked thing))) := by
  refine ⟨couldDoIt_callback db player thing callback, ?_, ?_⟩
  · intro hk
    have h1 : ¬ (thing.type ≠ MUDType.ROOM ∧ truthyRef thing.locationId = false) := by
      rintro ⟨ht, hl⟩
      rcases hworld with h | h
      · exact ht h
      · rw [hl] at h; exact Bool.false_ne_true h
    simp [allows, decision, couldDoIt, h1, hlinked, hk, JSVal.truthy]
  · intro hk
    have h1 : ¬ (thing.type ≠ MUDType.ROOM ∧ truthyRef thing.locationId = false) := by
      rintro ⟨ht, hl⟩
      rcases hworld with h | h
      · exact ht h
      · rw [hl] at h; exact Bool.false_ne_true h
    have hk2 : ¬ (truthyRef thing.keyId = false) := by rw [hk]; decide
    unfold allows decision couldDoIt
    rw [if_neg h1, if_neg hlinked]
    simp only []
    rw [if_neg hk2]
    by_cases hp : some player.id = thing.keyId
    · rw [if_pos hp]
      simp only [JSVal.truthy, id, decide_eq_true_eq, holdsKey, antiLocked, hp, true_or,
        true_iff, ne_eq, not_not]
    · rw [if_neg hp]
      have hf := find_key_isSome db player thing.keyId
      cases hfind : db.find?
          (fun o => decide (o.locationId = some player.id ∧ some o.id = thing.keyId)) with
      | some o =>
        rw [hfind] at hf
        have hex := hf.mp rfl
        simp only [JSVal.truthy, id, decide_eq_true_eq, holdsKey, antiLocked, hex, or_true,
          true_iff, ne_eq, not_not]
      | none =>
        rw [hfind] at hf
        have hex : ¬ ∃ o ∈ db, some o.id = thing.keyId ∧ o.locationId = some player.id :=
          fun h => Bool.false_ne_true (hf.mpr h)
        simp only [JSVal.truthy, id, decide_eq_true_eq, holdsKey, antiLocked, hp, hex,
          or_self, false_iff, ne_eq, not_not]

/-- The hypotheses of C1 hold of the player `alice` carrying `brassKey` at the locked
`door` (in room 10, linked to room 11), where the decision is to allow. -/
theorem couldDoIt_truth_table_witness :
    (door.type = MUDType.ROOM ∨ truthyRef door.locationId = true) ∧
    ¬ (door.type = MUDType.EXIT ∧ door.targetId = none) ∧
    truthyRef door.keyId = true ∧
    (allows [alice, brassKey, door] alice door = true ↔
      (holdsKey [alice, brassKey, door] alice door.keyId ↔ ¬ antiLocked door)) ∧
    allows [alice, brassKey, door] alice door = true :=
  ⟨Or.inr (by decide), by decide, by decide,
   (couldDoIt_truth_table [alice, brassKey, door] alice door id
      (Or.inr (by decide)) (by decide)).2.2 (by decide),
   by decide⟩

/-- Claim C2. For every player, `couldDoIt` gives `false` to its callback for every entity
that is not a Room and has no (truthy) `locationId`, and for every Exit whose `targetId` is
null, whatever the `keyId`, the `anti_lock` flag and the store. -/
theorem couldDoIt_denies_out_of_world {α : Type} (db : List MUDObject)
    (player thing : MUDObject) (callback : JSVal → α)
    (h : (thing.type ≠ MUDType.ROOM ∧ truthyRef thing.locationId = false) ∨
         (thing.type = MUDType.EXIT ∧ thing.targetId = none)) :
    couldDoIt db player thing callback = callback (JSVal.bool false) ∧
    allows db player thing = false := by
  have key : ∀ {β : Type} (cb : JSVal → β),
      couldDoIt db player thing cb = cb (JSVal.bool false) := by
    intro β cb
    unfold couldDoIt
    rcases h with h | h
    · rw [if_pos h]
    · by_cases h1 : thing.type ≠ MUDType.ROOM ∧ truthyRef thing.locationId = false
      · rw [if_pos h1]
      · rw [if_neg h1, if_pos h]
  refine ⟨key callback, ?_⟩
  unfold allows decision
  rw [key id]
  rfl

/-- An unlinked exit with the `anti_lock` flag set, whose key the player does not hold,
is denied: the inversion does not apply. -/
theorem couldDoIt_denies_out_of_world_witness :
    ((unlinkedAntiDoor.type ≠ MUDType.ROOM ∧ truthyRef unlinkedAntiDoor.locationId = false) ∨
      (unlinkedAntiDoor.type = MUDType.EXIT ∧ unlinkedAntiDoor.targetId = none)) ∧
    antiLocked unlinkedAntiDoor ∧
    ¬ holdsKey [alice] alice unlinkedAntiDoor.keyId ∧
    allows [alice] alice unlinkedAntiDoor = false :=
  ⟨Or.inr ⟨rfl, rfl⟩, by decide, by decide,
   (couldDoIt_denies_out_of_world [alice] alice unlinkedAntiDoor id
    (Or.inr ⟨rfl, rfl⟩)).2⟩

/-! ## Theorems: whole-word matcher and resolver -/

/-- Claim C3, the code at the failing input: the candidate named `out` has one token, the
query `out out` has two, the names differ, and `filterPossible` keeps the candidate: the
one candidate token serves both query tokens, so the query tokens do not sit at strictly
increasing positions of the candidate (they are not a subsequence of its tokens). -/
theorem filterPossible_reuses_token :
    filterPossible asciiLower [outExit] "out out".toList = [outExit] ∧
    asciiLower outExit.name ≠ asciiLower "out out".toList ∧
    splitTokens (asciiLower outExit.name) = ["out".toList] ∧
    splitTokens (asciiLower "out out".toList) = ["out".toList, "out".toList] ∧
    ¬ List.Sublist (splitTokens (asciiLower "out out".toList))
        (splitTokens (asciiLower outExit.name)) := by
  decide

/-- The split of a string is never the empty array. -/
theorem splitGo_ne_nil (s : JSString) : ∀ inRun : Bool, splitGo inRun s ≠ [] := by
  induction s with
  | nil => intro inRun; simp [splitGo]
  | cons c cs ih =>
    intro inRun
    unfold splitGo
    by_cases hc : isSeparator c = true
    · rw [if_pos hc]
      cases inRun with
      | true => simpa using ih true
      | false => simp
    · rw [if_neg hc]
      cases h : splitGo false cs with
      | nil => simp
      | cons t ts => simp

/-- Inside a run of separators, a run of separators is skipped. -/
theorem splitGo_true_run (pre s : JSString) (hpre : pre.all isSeparator = true) :
    splitGo true (pre ++ s) = splitGo true s := by
  induction pre with
  | nil => rfl
  | cons c cs ih =>
    simp only [List.all_cons, Bool.and_eq_true] at hpre
    rw [List.cons_append, splitGo, if_pos hpre.1]
    simpa using ih hpre.2

/-- The tokens of a string inside a run of separators are those of the string, without the
first one when it is empty because the string starts with a separator. -/
theorem splitGo_true_sublist (s : JSString) :
    List.Sublist (splitGo false s) ([] :: splitGo true s) := by
  cases s with
  | nil => exact List.sublist_cons_self _ _
  | cons c cs =>
    by_cases hc : isSeparator c = true
    · have h1 : splitGo false (c :: cs) = [] :: splitGo true cs := by
        rw [splitGo, if_pos hc]; rfl
      have h2 : splitGo true (c :: cs) = splitGo true cs := by
        rw [splitGo, if_pos hc]; rfl
      rw [h1, h2]
    · have h1 : splitGo true (c :: cs) = splitGo false (c :: cs) := by
        rw [splitGo, splitGo, if_neg hc, if_neg hc]
      rw [h1]
      exact List.sublist_cons_self _ _

/-- Separators put in front of a string add at most an empty first token. -/
theorem splitTokens_prepend (pre s : JSString) (hpre : pre.all isSeparator = true) :
    List.Sublist (splitTokens s) (splitTokens (pre ++ s)) := by
  cases pre with
  | nil => exact List.Sublist.refl _
  | cons c cs =>
    simp only [List.all_cons, Bool.and_eq_true] at hpre
    have h1 : splitTokens (c :: cs ++ s) = [] :: splitGo true s := by
      unfold splitTokens
      rw [List.cons_append, splitGo, if_pos hpre.1]
      simp only [Bool.false_eq_true, if_false]
      rw [splitGo_true_run cs s hpre.2]
    rw [h1]
    exact splitGo_true_sublist s

/-- The split of a run of separators. -/
theorem splitGo_run (post : JSString) (hpost : post.all isSeparator = true) :
    splitGo true post = [[]] ∧ (splitGo false post = [[]] ∨ splitGo false post = [[], []]) := by
  have h1 : splitGo true post = [[]] := by
    have := splitGo_true_run post [] hpost
    rw [List.append_nil] at this
    rw [this]; rfl
  refine ⟨h1, ?_⟩
  cases post with
  | nil => left; rfl
  | cons c cs =>
    right
    simp only [List.all_cons, Bool.and_eq_true] at hpost
    rw [splitGo, if_pos hpost.1]
    simp only [Bool.false_eq_true, if_false]
    have := splitGo_true_run cs [] hpost.2
    rw [List.append_nil] at this
    rw [this]; rfl

/-- Separators put after a string add at most an empty last token. -/
theorem splitGo_append (post : JSString) (hpost : post.all isSeparator = true)
    (s : JSString) :
    ∀ inRun : Bool, ∃ extra : List JSString,
      splitGo inRun (s ++ post) = splitGo inRun s ++ extra := by
  induction s with
  | nil =>
    intro inRun
    obtain ⟨h1, h2⟩ := splitGo_run post hpost
    cases inRun with
    | true => exact ⟨[], by rw [List.nil_append, h1]; rfl⟩
    | false =>
      rcases h2 with h | h
      · exact ⟨[], by rw [List.nil_append, h]; rfl⟩
      · exact ⟨[[]], by rw [List.nil_append, h]; rfl⟩
  | cons c cs ih =>
    intro inRun
    by_cases hc : isSeparator c = true
    · obtain ⟨extra, he⟩ := ih true
      refine ⟨extra, ?_⟩
      rw [List.cons_append, splitGo, splitGo, if_pos hc, if_pos hc, he]
      cases inRun with
      | true => simp
      | false => simp
    · obtain ⟨extra, he⟩ := ih false
      refine ⟨extra, ?_⟩
      rw [List.cons_append, splitGo, splitGo, if_neg hc, if_neg hc, he]
      cases h : splitGo false cs with
      | nil => exact absurd h (splitGo_ne_nil cs false)
      | cons t ts => simp

/-- The tokens of a string are among the tokens of the string with separators put before
and after it, in order. -/
theorem splitTokens_padded (pre post s : JSString) (hpre : pre.all isSeparator = true)
    (hpost : post.all isSeparator = true) :
    List.Sublist (splitTokens s) (splitTokens (pre ++ s ++ post)) := by
  rw [List.append_assoc]
  refine List.Sublist.trans ?_ (splitTokens_prepend pre (s ++ post) hpre)
  obtain ⟨extra, he⟩ := splitGo_append post hpost s false
  unfold splitTokens
  rw [he]
  exact List.sublist_append_left _ _

/-- A list that starts with `a` and is found in order in `p ++ q` is found in `q` when `a`
is not in `p`. -/
theorem sublist_of_cons_sublist_append {α : Type} (a : α) (s p q : List α)
    (h : List.Sublist (a :: s) (p ++ q)) (ha : a ∉ p) : List.Sublist (a :: s) q := by
  induction p with
  | nil => exact h
  | cons x p2 ih =>
    rw [List.cons_append] at h
    have hax : a ≠ x := fun e => ha (by rw [e]; exact List.mem_cons_self _ _)
    have hap : a ∉ p2 := fun e => ha (List.mem_cons_of_mem _ e)
    cases h with
    | cons _ h2 => exact ih h2 hap
    | cons₂ _ h2 => exact absurd rfl hax

/-- The first position of an element of a list is a position of the list. -/
theorem indexOf_lt_length_of_mem {α : Type} [BEq α] [LawfulBEq α] (a : α) (l : List α)
    (h : a ∈ l) : l.indexOf a < l.length := by
  induction l with
  | nil => simp at h
  | cons x rest ih =>
    unfold List.indexOf at ih ⊢
    rw [List.findIdx_cons]
    by_cases hx : (x == a) = true
    · rw [hx]; simp
    · have hne : x ≠ a := fun e => hx (by rw [e]; exact beq_self_eq_true a)
      have hmem : a ∈ rest := by
        rcases List.mem_cons.mp h with h2 | h2
        · exact absurd h2.symm hne
        · exact h2
      have := ih hmem
      simp only [Bool.not_eq_true] at hx
      rw [hx]
      simp only [cond_false, List.length_cons]
      omega

/-- An element is not found before its first position. -/
theorem not_mem_take_indexOf {α : Type} [BEq α] [LawfulBEq α] (a : α) (l : List α) :
    a ∉ l.take (l.indexOf a) := by
  induction l with
  | nil => simp
  | cons x rest ih =>
    unfold List.indexOf at ih ⊢
    rw [List.findIdx_cons]
    by_cases hx : (x == a) = true
    · rw [hx]; simp
    · have hne : x ≠ a := fun e => hx (by rw [e]; exact beq_self_eq_true a)
      simp only [Bool.not_eq_true] at hx
      rw [hx]
      simp only [cond_false, List.take_succ_cons, List.mem_cons]
      rintro (h2 | h2)
      · exact hne h2.symm
      · exact ih h2

/-- The loop of `filterPossible` succeeds when the query tokens are found, in order, among
the tokens of the candidate from the current index on. -/
theorem matchTokens_of_sublist (strs : List JSString) (nstrs : List JSString) :
    ∀ index : Nat, List.Sublist nstrs (strs.drop index) →
      matchTokens strs nstrs index = true := by
  induction nstrs with
  | nil => intro index _; rfl
  | cons t rest ih =>
    intro index h
    have hmem : t ∈ strs.drop index := h.subset (List.mem_cons_self _ _)
    have hlt : (strs.drop index).indexOf t < (strs.drop index).length :=
      indexOf_lt_length_of_mem t _ hmem
    have hidx : arrayIndexOf strs t index =
        ((index + (strs.drop index).indexOf t : Nat) : Int) := by
      unfold arrayIndexOf
      rw [if_pos hlt]
    have hsplit : strs.drop index =
        (strs.drop index).take ((strs.drop index).indexOf t) ++
          (strs.drop index).drop ((strs.drop index).indexOf t) :=
      (List.take_append_drop _ _).symm
    have hnot : t ∉ (strs.drop index).take ((strs.drop index).indexOf t) :=
      not_mem_take_indexOf t _
    have hsub : List.Sublist (t :: rest)
        ((strs.drop index).drop ((strs.drop index).indexOf t)) := by
      rw [hsplit] at h
      exact sublist_of_cons_sublist_append t rest _ _ h hnot
    have hrest : List.Sublist rest (strs.drop (index + (strs.drop index).indexOf t)) := by
      rw [List.drop_drop] at hsub
      exact List.Sublist.trans (List.sublist_cons_self t rest) hsub
    unfold matchTokens
    simp only [hidx]
    rw [if_neg (by omega), Int.toNat_ofNat]
    exact ih _ hrest


/-- Claim C4 as stated fails. The line `create bob<TAB> pw` is split into the name `bob`
followed by a tab and the password, and the name is accepted as a user name. That name
equals the query `bob` once both are lower-cased and trimmed, yet `filterPossible` drops
the player: `look bob`, typed by `alice` in the same room, has no candidate. -/
theorem filterPossible_drops_tab_padded_name :
    getArgs ("bob".toList ++ [Char.ofNat 9] ++ " pw".toList) (some 2)
      = [tabBob.name, "pw".toList] ∧
    isUsernameValid tabBob.name = true ∧
    trim (asciiLower tabBob.name) = trim (asciiLower "bob".toList) ∧
    tabBob ∉ filterPossible asciiLower [tabBob] "bob".toList ∧
    candidates asciiLower substringLike [hall, alice, tabBob] alice "bob".toList true true
      none = [] := by
  decide

/-- Claim C4, amended. For every candidate list and every query, `filterPossible` keeps
every candidate whose lower-cased full name is the lower-cased query, or the lower-cased
query with space characters before it, after it or both, regardless of how either string
tokenizes. White space of another kind around the name is not ignored. -/
theorem filterPossible_keeps_space_padded (toLowerCase : JSString → JSString)
    (objs : List MUDObject) (name : JSString) (obj : MUDObject) (pre post : JSString)
    (hmem : obj ∈ objs)
    (hpre : pre.all (fun c => decide (c = ' ')) = true)
    (hpost : post.all (fun c => decide (c = ' ')) = true)
    (hname : toLowerCase obj.name = pre ++ toLowerCase name ++ post) :
    obj ∈ filterPossible toLowerCase objs name := by
  have hsep : ∀ l : JSString, l.all (fun c => decide (c = ' ')) = true →
      l.all isSeparator = true := by
    intro l hl
    rw [List.all_eq_true] at hl ⊢
    intro c hc
    have := hl c hc
    unfold isSeparator
    simp only [decide_eq_true_eq] at this
    rw [this]
    rfl
  unfold filterPossible
  split_ifs with h
  · rw [List.mem_filter]
    refine ⟨hmem, ?_⟩
    unfold keepsCandidate
    by_cases he : toLowerCase obj.name = toLowerCase name
    · rw [if_pos he]
    · rw [if_neg he, hname]
      exact matchTokens_of_sublist _ _ 0
        (splitTokens_padded pre post (toLowerCase name) (hsep pre hpre) (hsep post hpost))
  · exact hmem

/-- The candidate ` key `, with a space before and after, is kept for the query `Key`, and
the candidate `brass key` for the query `Brass Key`. -/
theorem filterPossible_keeps_space_padded_witness :
    paddedKey ∈ [door, paddedKey] ∧
    asciiLower paddedKey.name = " ".toList ++ asciiLower "Key".toList ++ " ".toList ∧
    trim (asciiLower paddedKey.name) = trim (asciiLower "Key".toList) ∧
    paddedKey ∈ filterPossible asciiLower [door, paddedKey] "Key".toList ∧
    brassKey ∈ filterPossible asciiLower [door, brassKey] "Brass Key".toList :=
  ⟨by decide, by decide, by decide,
   filterPossible_keeps_space_padded asciiLower [door, paddedKey] "Key".toList paddedKey
     " ".toList " ".toList (by decide) (by decide) (by decide) (by decide),
   filterPossible_keeps_space_padded asciiLower [door, brassKey] "Brass Key".toList brassKey
     [] [] (by decide) (by decide) (by decide) (by decide)⟩

/-- Claim C7, the code at the failing input: with no type filter the store query has no
`LIKE` clause, and the whole-word matcher keeps `red rusty key` for the query `red key`,
which is not a substring of that name. -/
theorem findPotentialMUDObjects_untyped_not_substring :
    findPotentialMUDObjects asciiLower substringLike [alice, rustyKey] alice
      "red key".toList id false false none = [some rustyKey] ∧
    ¬ (asciiLower "red key".toList <:+: asciiLower rustyKey.name) := by
  decide

/-- With a type filter, every entity that `findPotentialMUDObjects` returns outside the
`me` and `here` shortcuts has passed the store's `LIKE` test on the query. -/
theorem findPotentialMUDObjects_typed_like (toLowerCase : JSString → JSString)
    (like : JSString → JSString → Bool) (db : List MUDObject) (player : MUDObject)
    (name : JSString) (allowMe allowHere : Bool) (t : MUDType) (o : MUDObject)
    (hme : ¬ (allowMe = true ∧ name = "me".toList))
    (hhere : ¬ (allowHere = true ∧ name = "here".toList))
    (hmem : some o ∈ findPotentialMUDObjects toLowerCase like db player name id
      allowMe allowHere (some t)) :
    like name o.name = true ∧ o.type = t := by
  unfold findPotentialMUDObjects at hmem
  rw [if_neg hme, if_neg hhere] at hmem
  simp only [id, List.mem_map, Option.some.injEq, exists_eq_right] at hmem
  have hsub : o ∈ db.filter
      (fun o => decide (o.type = t) && like name o.name && inScope player o) := by
    unfold filterPossible at hmem
    split_ifs at hmem
    · exact (List.mem_filter.mp hmem).1
    · exact hmem
  have h := (List.mem_filter.mp hsub).2
  simp only [Bool.and_eq_true, decide_eq_true_eq] at h
  exact ⟨h.1.2, h.1.1⟩

/-! ## Theorems: disambiguation -/

/-- The callback of `findPotentialMUDObjects` is called once, on an array that does not
depend on it. -/
theorem findPotentialMUDObjects_callback {α : Type} (toLowerCase : JSString → JSString)
    (like : JSString → JSString → Bool) (db : List MUDObject) (player : MUDObject)
    (name : JSString) (cb : List (Option MUDObject) → α) (allowMe allowHere : Bool)
    (type : Option MUDType) :
    findPotentialMUDObjects toLowerCase like db player name cb allowMe allowHere type =
      cb (findPotentialMUDObjects toLowerCase like db player name id allowMe allowHere type) := by
  unfold findPotentialMUDObjects
  split_ifs <;> try rfl
  cases type <;> rfl

/-- An array of rows holds no null. -/
theorem allObjects_map_some (objs : List MUDObject) :
    allObjects (objs.map some) = some objs := by
  induction objs with
  | nil => rfl
  | cons o rest ih => simp [allObjects, ih]

/-- The counting loop: `count` grows by the number of exact matches, `index` is left alone
when there is none, and otherwise ends at the position of the last exact match. -/
theorem countExact_spec (toLowerCase : JSString → JSString) (name : JSString)
    (l : List MUDObject) :
    ∀ (i count : Nat) (index : Int),
      (countExact toLowerCase name l i count index).1 =
        count + (l.filter (exactName toLowerCase name)).length ∧
      (l.filter (exactName toLowerCase name) = [] →
        (countExact toLowerCase name l i count index).2 = index) ∧
      (∀ x, (l.filter (exactName toLowerCase name)).getLast? = some x →
        ∃ k : Nat, (countExact toLowerCase name l i count index).2 = ((i + k : Nat) : Int) ∧
          l[k]? = some x) := by
  induction l with
  | nil =>
    intro i count index
    simp [countExact]
  | cons o rest ih =>
    intro i count index
    by_cases hp : exactName toLowerCase name o = true
    · obtain ⟨h1, h2, h3⟩ := ih (i + 1) (count + 1) (i : Int)
      have hf : (o :: rest).filter (exactName toLowerCase name) =
          o :: rest.filter (exactName toLowerCase name) := List.filter_cons_of_pos hp
      have hc : countExact toLowerCase name (o :: rest) i count index =
          countExact toLowerCase name rest (i + 1) (count + 1) (i : Int) := by
        simp [countExact, hp]
      rw [hc, hf]
      refine ⟨?_, ?_, ?_⟩
      · rw [h1, List.length_cons]; omega
      · intro h; exact absurd h (List.cons_ne_nil _ _)
      · intro x hx
        cases hfr : rest.filter (exactName toLowerCase name) with
        | nil =>
          rw [hfr] at hx
          simp only [List.getLast?_singleton, Option.some.injEq] at hx
          refine ⟨0, ?_, ?_⟩
          · rw [h2 hfr]; simp
          · simp [hx]
        | cons y ys =>
          rw [hfr] at hx
          rw [List.getLast?_cons_cons] at hx
          rw [hfr] at h3
          obtain ⟨k, hk1, hk2⟩ := h3 x hx
          refine ⟨k + 1, ?_, ?_⟩
          · rw [hk1]; congr 1; omega
          · simpa using hk2
    · obtain ⟨h1, h2, h3⟩ := ih (i + 1) count index
      have hf : (o :: rest).filter (exactName toLowerCase name) =
          rest.filter (exactName toLowerCase name) := List.filter_cons_of_neg hp
      have hc : countExact toLowerCase name (o :: rest) i count index =
          countExact toLowerCase name rest (i + 1) count index := by
        simp [countExact, hp]
      rw [hc, hf]
      refine ⟨h1, h2, ?_⟩
      intro x hx
      obtain ⟨k, hk1, hk2⟩ := h3 x hx
      refine ⟨k + 1, ?_, ?_⟩
      · rw [hk1]; congr 1; omega
      · simpa using hk2

/-- The narrowing leaves the array alone or leaves exactly one candidate. -/
theorem narrowByDescription_cases (requireDescription : Bool) (objs : List MUDObject) :
    narrowByDescription requireDescription objs = objs ∨
    (narrowByDescription requireDescription objs).length = 1 := by
  unfold narrowByDescription
  by_cases h1 : requireDescription = true ∧ objs.length > 1
  · rw [if_pos h1]
    by_cases h2 : (objs.filter (fun obj => obj.description.isSome)).length = 1
    · right; simp only [h2, if_true]
    · left; simp only [h2, if_false]
  · rw [if_neg h1]; left; rfl

/-- With several candidates left after the narrowing, the outcome is decided by the exact
matches among them: the callback on the only one, or the ambiguity message. -/
theorem resolveObjects_many (toLowerCase : JSString → JSString) (strings : Strings)
    (name : JSString) (ambigMsg failMsg : Option JSString) (requireDescription : Bool)
    (objs : List MUDObject)
    (hmany : 1 < (narrowByDescription requireDescription objs).length) :
    resolveObjects toLowerCase strings name ambigMsg failMsg requireDescription objs =
      match (narrowByDescription requireDescription objs).filter
          (exactName toLowerCase name) with
      | [c] => Outcome.callback (some c)
      | _ => Outcome.sendMessage (orDefault ambigMsg strings.ambigSet) := by
  have hlen : objs.length > 0 := by
    rcases narrowByDescription_cases requireDescription objs with h | h
    · rw [h] at hmany; omega
    · omega
  have hne : ¬ (narrowByDescription requireDescription objs).length = 1 := by omega
  unfold resolveObjects
  rw [if_pos hlen]
  simp only []
  rw [if_neg hne]
  obtain ⟨h1, -, h3⟩ := countExact_spec toLowerCase name
    (narrowByDescription requireDescription objs) 0 0 (-1)
  rw [h1]
  cases hf : (narrowByDescription requireDescription objs).filter
      (exactName toLowerCase name) with
  | nil => simp
  | cons c cs =>
    cases cs with
    | nil =>
      rw [hf] at h3
      obtain ⟨k, hk1, hk2⟩ := h3 c rfl
      simp only [List.length_singleton, zero_add, if_true]
      rw [hk1]
      simp [hk2]
    | cons d ds => simp

/-- The array given to the callback holds entities only, except for the one-element
array of the `here` branch when the location of the player is not in the store. -/
theorem candidates_cases (toLowerCase : JSString → JSString)
    (like : JSString → JSString → Bool) (db : List MUDObject) (player : MUDObject)
    (name : JSString) (allowMe allowHere : Bool) (type : Option MUDType) :
    candidates toLowerCase like db player name allowMe allowHere type =
        (candidateRows toLowerCase like db player name allowMe allowHere type).map some ∨
    candidates toLowerCase like db player name allowMe allowHere type = [none] := by
  unfold candidateRows candidates findPotentialMUDObjects
  split_ifs
  · left; rfl
  · cases getLocation db player with
    | none => right; rfl
    | some loc => left; rfl
  · cases type with
    | none =>
      left
      simp only [id, List.filterMap_map, Function.comp_def, List.filterMap_some]
    | some t =>
      left
      simp only [id, List.filterMap_map, Function.comp_def, List.filterMap_some]

/-- On an array of entities, `findPotentialMUDObject` is `resolveObjects`. -/
theorem findPotentialMUDObject_of_rows (toLowerCase : JSString → JSString)
    (like : JSString → JSString → Bool) (strings : Strings) (db : List MUDObject)
    (player : MUDObject) (name : JSString) (allowMe allowHere : Bool) (type : Option MUDType)
    (ambigMsg failMsg : Option JSString) (requireDescription : Bool)
    (hc : candidates toLowerCase like db player name allowMe allowHere type =
      (candidateRows toLowerCase like db player name allowMe allowHere type).map some) :
    findPotentialMUDObject toLowerCase like strings db player name allowMe allowHere type
      ambigMsg failMsg requireDescription =
    resolveObjects toLowerCase strings name ambigMsg failMsg requireDescription
      (candidateRows toLowerCase like db player name allowMe allowHere type) := by
  unfold findPotentialMUDObject
  rw [findPotentialMUDObjects_callback]
  unfold candidates at hc
  rw [hc]
  unfold resolveCallback
  rw [allObjects_map_some]

/-- Two distinct members make a list of at least two elements. -/
theorem length_gt_one_of_mem_ne {α : Type} (l : List α) (a b : α) (ha : a ∈ l) (hb : b ∈ l)
    (hab : a ≠ b) : 1 < l.length := by
  match l, ha, hb with
  | [x], ha, hb =>
    rw [List.mem_singleton] at ha hb
    exact absurd (ha.trans hb.symm) hab
  | _ :: _ :: _, _, _ => simp

/-- Claim C5 as stated fails, in two ways. With `requireDescription` set, of the two
distinct candidates named `key` the only one with a description is passed to the callback.
Without it, the candidates `red key`, `red key` and `key` for the query `key` end in the
callback on `key`, and no ambiguity message is sent. -/
theorem findPotentialMUDObject_same_names_not_ambiguous :
    (candidates asciiLower substringLike [alice, plainKey, describedKey] alice
        "key".toList true true none = [some plainKey, some describedKey] ∧
      plainKey ≠ describedKey ∧ plainKey.name = describedKey.name ∧
      findPotentialMUDObject asciiLower substringLike sampleStrings
        [alice, plainKey, describedKey] alice "key".toList true true none none none true
        = Outcome.callback (some describedKey)) ∧
    (candidates asciiLower substringLike [alice, redKey, redKeyTwin, plainKey]
        alice "key".toList true true none
        = [some redKey, some redKeyTwin, some plainKey] ∧
      redKey ≠ redKeyTwin ∧ redKey.name = redKeyTwin.name ∧
      findPotentialMUDObject asciiLower substringLike sampleStrings
        [alice, redKey, redKeyTwin, plainKey] alice "key".toList true true none none none
        false = Outcome.callback (some plainKey)) := by
  decide

/-- Claim C5, amended. For every call of `findPotentialMUDObject`, with any `allowMe`,
`allowHere` and `type`, in which the description narrowing does not single out a candidate
(`requireDescription` is not `true`, or the candidates with a description are not exactly
one): if the candidates hold two distinct entities with identical names, then neither of
the two is passed to the callback; the outcome is the ambiguity message, or the
callback on a candidate of another name that matches the query exactly; and when the
shared name matches the query exactly, the outcome is the ambiguity message. -/
theorem findPotentialMUDObject_same_names (toLowerCase : JSString → JSString)
    (like : JSString → JSString → Bool) (strings : Strings) (db : List MUDObject)
    (player : MUDObject) (name : JSString) (allowMe allowHere : Bool) (type : Option MUDType)
    (ambigMsg failMsg : Option JSString) (requireDescription : Bool) (a b : MUDObject)
    (ha : some a ∈ candidates toLowerCase like db player name allowMe allowHere type)
    (hb : some b ∈ candidates toLowerCase like db player name allowMe allowHere type)
    (hab : a ≠ b) (hname : a.name = b.name)
    (hnarrow : ¬ (requireDescription = true ∧
      ((candidateRows toLowerCase like db player name allowMe allowHere type).filter
        (fun obj => obj.description.isSome)).length = 1)) :
    (findPotentialMUDObject toLowerCase like strings db player name allowMe allowHere type
        ambigMsg failMsg requireDescription
        = Outcome.sendMessage (orDefault ambigMsg strings.ambigSet) ∨
      ∃ c, findPotentialMUDObject toLowerCase like strings db player name allowMe allowHere
          type ambigMsg failMsg requireDescription = Outcome.callback (some c) ∧
        some c ∈ candidates toLowerCase like db player name allowMe allowHere type ∧
        exactName toLowerCase name c = true ∧ c.name ≠ a.name ∧ c.name ≠ b.name) ∧
    (exactName toLowerCase name a = true →
      findPotentialMUDObject toLowerCase like strings db player name allowMe allowHere type
        ambigMsg failMsg requireDescription
        = Outcome.sendMessage (orDefault ambigMsg strings.ambigSet)) := by
  have hc : candidates toLowerCase like db player name allowMe allowHere type =
      (candidateRows toLowerCase like db player name allowMe allowHere type).map some := by
    rcases candidates_cases toLowerCase like db player name allowMe allowHere type with h | h
    · exact h
    · rw [h] at ha; simp at ha
  have hmem : ∀ x, some x ∈ candidates toLowerCase like db player name allowMe allowHere type
      ↔ x ∈ candidateRows toLowerCase like db player name allowMe allowHere type := by
    intro x
    rw [hc]
    simp
  rw [findPotentialMUDObject_of_rows toLowerCase like strings db player name allowMe
    allowHere type ambigMsg failMsg requireDescription hc]
  generalize candidateRows toLowerCase like db player name allowMe allowHere type = objs
    at hc hmem hnarrow ⊢
  have ha2 : a ∈ objs := (hmem a).mp ha
  have hb2 : b ∈ objs := (hmem b).mp hb
  have hlen : 1 < objs.length := length_gt_one_of_mem_ne objs a b ha2 hb2 hab
  have hnar : narrowByDescription requireDescription objs = objs := by
    unfold narrowByDescription
    by_cases h1 : requireDescription = true ∧ objs.length > 1
    · rw [if_pos h1]
      have h2 : ¬ (objs.filter (fun obj => obj.description.isSome)).length = 1 :=
        fun h => hnarrow ⟨h1.1, h⟩
      simp only [h2, if_false]
    · rw [if_neg h1]
  have hexact : exactName toLowerCase name b = exactName toLowerCase name a := by
    unfold exactName; rw [hname]
  rw [resolveObjects_many toLowerCase strings name ambigMsg failMsg
    requireDescription objs (by rw [hnar]; exact hlen), hnar]
  cases hf : objs.filter (exactName toLowerCase name) with
  | nil => exact ⟨Or.inl rfl, fun _ => rfl⟩
  | cons c cs =>
    cases cs with
    | cons d ds => exact ⟨Or.inl rfl, fun _ => rfl⟩
    | nil =>
      have hcmem : c ∈ objs.filter (exactName toLowerCase name) := by
        rw [hf]; exact List.mem_singleton_self c
      have hca : ¬ exactName toLowerCase name a = true := by
        intro hpa
        have h1 : a ∈ objs.filter (exactName toLowerCase name) :=
          List.mem_filter.mpr ⟨ha2, hpa⟩
        have h2 : b ∈ objs.filter (exactName toLowerCase name) :=
          List.mem_filter.mpr ⟨hb2, by rw [hexact]; exact hpa⟩
        rw [hf, List.mem_singleton] at h1 h2
        exact hab (h1.trans h2.symm)
      have hcp := (List.mem_filter.mp hcmem).2
      have hcn : c.name ≠ a.name := by
        intro h
        apply hca
        unfold exactName at hcp ⊢
        rw [← h]; exact hcp
      refine ⟨Or.inr ⟨c, rfl, (hmem c).mpr (List.mem_filter.mp hcmem).1, hcp, hcn, ?_⟩,
        fun h => absurd h hca⟩
      rw [← hname]; exact hcn

/-- The two distinct things named `red key`, asked for as `red key` with no description
narrowing, end in the ambiguity message. -/
theorem findPotentialMUDObject_same_names_witness :
    some redKey ∈ candidates asciiLower substringLike [alice, redKey, redKeyTwin, plainKey]
        alice "red key".toList true true none ∧
    some redKeyTwin ∈ candidates asciiLower substringLike
        [alice, redKey, redKeyTwin, plainKey] alice "red key".toList true true none ∧
    redKey ≠ redKeyTwin ∧ redKey.name = redKeyTwin.name ∧
    exactName asciiLower "red key".toList redKey = true ∧
    findPotentialMUDObject asciiLower substringLike sampleStrings
        [alice, redKey, redKeyTwin, plainKey] alice "red key".toList true true none none none
        false = Outcome.sendMessage sampleStrings.ambigSet :=
  ⟨by decide, by decide, by decide, by decide, by decide,
   (findPotentialMUDObject_same_names asciiLower substringLike sampleStrings
      [alice, redKey, redKeyTwin, plainKey] alice "red key".toList true true none none none
      false redKey redKeyTwin (by decide) (by decide) (by decide) (by decide)
      (by decide)).2 (by decide)⟩

/-- Claim C6. For every call of `findPotentialMUDObject` in which more than one candidate
remains after the optional description narrowing: the callback is called with the
candidate `c` if and only if `c` is the only remaining candidate whose name, lower-cased
and trimmed, equals the query lower-cased and trimmed; when no or several remaining
candidates have such a name, the ambiguity message is sent, and the callback is not
called. -/
theorem findPotentialMUDObject_exact_tiebreak (toLowerCase : JSString → JSString)
    (like : JSString → JSString → Bool) (strings : Strings) (db : List MUDObject)
    (player : MUDObject) (name : JSString) (allowMe allowHere : Bool) (type : Option MUDType)
    (ambigMsg failMsg : Option JSString) (requireDescription : Bool)
    (hmany : 1 < (narrowByDescription requireDescription
      (candidateRows toLowerCase like db player name allowMe allowHere type)).length) :
    (∀ o, findPotentialMUDObject toLowerCase like strings db player name allowMe allowHere
        type ambigMsg failMsg requireDescription = Outcome.callback o ↔
      ∃ c, o = some c ∧ (narrowByDescription requireDescription
        (candidateRows toLowerCase like db player name allowMe allowHere type)).filter
        (exactName toLowerCase name) = [c]) ∧
    (((narrowByDescription requireDescription
        (candidateRows toLowerCase like db player name allowMe allowHere type)).filter
        (exactName toLowerCase name)).length ≠ 1 →
      findPotentialMUDObject toLowerCase like strings db player name allowMe allowHere type
        ambigMsg failMsg requireDescription
        = Outcome.sendMessage (orDefault ambigMsg strings.ambigSet)) := by
  have hc : candidates toLowerCase like db player name allowMe allowHere type =
      (candidateRows toLowerCase like db player name allowMe allowHere type).map some := by
    rcases candidates_cases toLowerCase like db player name allowMe allowHere type with h | h
    · exact h
    · exfalso
      have hr : candidateRows toLowerCase like db player name allowMe allowHere type = [] := by
        unfold candidateRows; rw [h]; rfl
      rw [hr] at hmany
      revert hmany
      cases requireDescription <;> decide
  rw [findPotentialMUDObject_of_rows toLowerCase like strings db player name allowMe
    allowHere type ambigMsg failMsg requireDescription hc,
    resolveObjects_many toLowerCase strings name ambigMsg failMsg requireDescription _ hmany]
  cases hf : (narrowByDescription requireDescription
      (candidateRows toLowerCase like db player name allowMe allowHere type)).filter
      (exactName toLowerCase name) with
  | nil => simp
  | cons c cs =>
    cases cs with
    | cons d ds => simp
    | nil =>
      refine ⟨fun o => ?_, fun h => absurd rfl h⟩
      constructor
      · intro h
        exact ⟨c, (Outcome.callback.inj h).symm, rfl⟩
      · rintro ⟨c2, rfl, h⟩
        rw [List.cons.injEq] at h
        rw [h.1]

/-- Of the candidates `red key`, `red key` and `key` for the query `key`, only the last
matches exactly, and it is passed to the callback. -/
theorem findPotentialMUDObject_exact_tiebreak_witness :
    candidateRows asciiLower substringLike [alice, redKey, redKeyTwin, plainKey]
        alice "key".toList true true none = [redKey, redKeyTwin, plainKey] ∧
    1 < (narrowByDescription false (candidateRows asciiLower substringLike
        [alice, redKey, redKeyTwin, plainKey] alice "key".toList true true none)).length ∧
    (narrowByDescription false (candidateRows asciiLower substringLike
        [alice, redKey, redKeyTwin, plainKey] alice "key".toList true true none)).filter
        (exactName asciiLower "key".toList) = [plainKey] ∧
    findPotentialMUDObject asciiLower substringLike sampleStrings
        [alice, redKey, redKeyTwin, plainKey] alice "key".toList true true none none none
        false = Outcome.callback (some plainKey) :=
  ⟨by decide, by decide, by decide,
   ((findPotentialMUDObject_exact_tiebreak asciiLower substringLike sampleStrings
      [alice, redKey, redKeyTwin, plainKey] alice "key".toList true true none none none
      false (by decide)).1 (some plainKey)).mpr ⟨plainKey, rfl, by decide⟩⟩

/-! ## Theorems: argument splitting -/

/-- Leading white space is dropped up to the first character that is not white space. -/
theorem dropWhile_whiteSpace_append (w : JSString) (c : Char) (x : JSString)
    (hw : w.all isWhiteSpace = true) (hc : isWhiteSpace c = false) :
    (w ++ c :: x).dropWhile isWhiteSpace = c :: x := by
  induction w with
  | nil => simp [List.dropWhile, hc]
  | cons d w ih =>
    simp only [List.all_cons, Bool.and_eq_true] at hw
    simp [List.dropWhile, hw.1, ih hw.2]

/-- A text that neither starts nor ends with white space is its own trim, also after
white space is put in front of it. -/
theorem trim_whiteSpace_append (w : JSString) (c d : Char) (x y : JSString)
    (hw : w.all isWhiteSpace = true) (hc : isWhiteSpace c = false)
    (hd : isWhiteSpace d = false) (hxy : c :: x = y ++ [d]) :
    trim (w ++ c :: x) = c :: x := by
  unfold trim
  rw [dropWhile_whiteSpace_append w c x hw hc, hxy, List.reverse_append]
  simp [List.dropWhile, hd]

/-- A token has no space in it. -/
theorem space_not_mem_of_isToken (t : JSString) (ht : isToken t = true) : ' ' ∉ t := by
  intro hmem
  unfold isToken at ht
  simp only [Bool.and_eq_true, List.all_eq_true, decide_eq_true_eq] at ht
  exact ht.1.1 ' ' hmem rfl

/-- A token starts with a character that is not white space. -/
theorem isToken_first (t : JSString) (ht : isToken t = true) :
    ∃ c x, t = c :: x ∧ isWhiteSpace c = false := by
  unfold isToken at ht
  simp only [Bool.and_eq_true] at ht
  cases t with
  | nil => simp at ht
  | cons c x =>
    refine ⟨c, x, rfl, ?_⟩
    have h := ht.1.2
    simpa using h

/-- A token ends with a character that is not white space. -/
theorem isToken_last (t : JSString) (ht : isToken t = true) :
    ∃ y d, t = y ++ [d] ∧ isWhiteSpace d = false := by
  unfold isToken at ht
  simp only [Bool.and_eq_true] at ht
  have h := ht.2
  cases hl : t.getLast? with
  | none => rw [hl] at h; simp at h
  | some d =>
    rw [hl] at h
    have hne : t ≠ [] := by
      intro h0; rw [h0] at hl; simp at hl
    have hd : t.getLast hne = d := by
      rw [List.getLast?_eq_getLast t hne] at hl
      exact Option.some.inj hl
    refine ⟨t.dropLast, d, ?_, by simpa using h⟩
    rw [← hd]
    exact (List.dropLast_append_getLast hne).symm

/-- A well-formed text starts with a character that is not white space. -/
theorem assemble_first (t : JSString) (rest : List (JSString × JSString))
    (ht : isToken t = true) :
    ∃ c x, assemble t rest = c :: x ∧ isWhiteSpace c = false := by
  obtain ⟨c, t2, rfl, hc⟩ := isToken_first t ht
  cases rest with
  | nil => exact ⟨c, t2, rfl, hc⟩
  | cons p rest2 =>
    obtain ⟨sep, u⟩ := p
    exact ⟨c, t2 ++ sep ++ assemble u rest2, by simp [assemble], hc⟩

/-- A well-formed text ends with a character that is not white space. -/
theorem assemble_last (rest : List (JSString × JSString)) :
    ∀ t : JSString, wellFormed t rest = true →
      ∃ y d, assemble t rest = y ++ [d] ∧ isWhiteSpace d = false := by
  induction rest with
  | nil =>
    intro t hwf
    unfold wellFormed at hwf
    simp only [List.all_nil, Bool.and_true] at hwf
    exact isToken_last t hwf
  | cons p rest2 ih =>
    intro t hwf
    obtain ⟨sep, u⟩ := p
    have hwf2 : wellFormed u rest2 = true := by
      unfold wellFormed at hwf ⊢
      simp only [List.all_cons, Bool.and_eq_true] at hwf ⊢
      exact ⟨hwf.2.1.2, hwf.2.2⟩
    obtain ⟨y, d, hy, hd⟩ := ih u hwf2
    refine ⟨t ++ sep ++ y, d, ?_, hd⟩
    simp only [assemble, hy, List.append_assoc]

/-- A well-formed text is its own trim, also after white space is put in front of it. -/
theorem trim_assemble (w t : JSString) (rest : List (JSString × JSString))
    (hw : w.all isWhiteSpace = true) (hwf : wellFormed t rest = true) :
    trim (w ++ assemble t rest) = assemble t rest := by
  have ht : isToken t = true := by
    unfold wellFormed at hwf
    simp only [Bool.and_eq_true] at hwf
    exact hwf.1
  obtain ⟨c, x, hcx, hc⟩ := assemble_first t rest ht
  obtain ⟨y, d, hyd, hd⟩ := assemble_last rest t hwf
  rw [hcx]
  exact trim_whiteSpace_append w c d x y hw hc hd (hcx.symm.trans hyd)

/-- A token has no first space. -/
theorem strIndexOf_token (t : JSString) (ht : isToken t = true) : strIndexOf t ' ' = -1 := by
  unfold strIndexOf
  have h : ¬ List.indexOf ' ' t < t.length := by
    rw [List.indexOf_lt_length]
    exact space_not_mem_of_isToken t ht
  rw [if_neg h]

/-- The first space of a token followed by a space is right after the token. -/
theorem strIndexOf_token_space (t x : JSString) (ht : isToken t = true) :
    strIndexOf (t ++ ' ' :: x) ' ' = (t.length : Int) := by
  unfold strIndexOf
  have h1 : List.indexOf ' ' (t ++ ' ' :: x) = t.length := by
    rw [List.indexOf_append_of_not_mem (space_not_mem_of_isToken t ht),
      List.indexOf_cons_self, Nat.add_zero]
  rw [h1, if_pos (by simp)]

/-- The loop of `getArgs` on a well-formed text: it pushes the first `n` tokens, and then
the rest of the text when there are more than `n` tokens. -/
theorem getArgsLoop_assemble (n : Nat) :
    ∀ (t : JSString) (rest : List (JSString × JSString)) (argsArr : List JSString),
      wellFormed t rest = true →
      getArgsLoop n (assemble t rest) argsArr =
        argsArr ++ (tokensOf t rest).take n ++
          (if rest.length + 1 ≤ n then [] else [afterTokens n t rest]) := by
  induction n with
  | zero =>
    intro t rest argsArr _
    simp [getArgsLoop, afterTokens]
  | succ n ih =>
    intro t rest argsArr hwf
    have ht : isToken t = true := by
      unfold wellFormed at hwf
      simp only [Bool.and_eq_true] at hwf
      exact hwf.1
    cases rest with
    | nil =>
      simp only [assemble, getArgsLoop, strIndexOf_token t ht, if_true, tokensOf,
        List.map_nil, List.length_nil]
      simp
    | cons p rest2 =>
      obtain ⟨sep, u⟩ := p
      have hparts : isSpaceRun sep = true ∧ wellFormed u rest2 = true := by
        unfold wellFormed at hwf ⊢
        simp only [List.all_cons, Bool.and_eq_true] at hwf ⊢
        exact ⟨hwf.2.1.1, hwf.2.1.2, hwf.2.2⟩
      cases sep with
      | nil => simp [isSpaceRun] at hparts
      | cons s w =>
        have hs : s = ' ' ∧ w.all isWhiteSpace = true := by
          have h := hparts.1
          unfold isSpaceRun at h
          simp only [Bool.and_eq_true, decide_eq_true_eq] at h
          exact h
        obtain ⟨rfl, hw⟩ := hs
        have hidx : strIndexOf (assemble t ((' ' :: w, u) :: rest2)) ' ' = (t.length : Int) := by
          simp only [assemble, List.append_assoc, List.cons_append]
          exact strIndexOf_token_space t _ ht
        have hne : ¬ ((t.length : Int) = -1) := by omega
        have hsub : substring (assemble t ((' ' :: w, u) :: rest2)) 0 t.length = t := by
          simp [assemble, substring]
        have hfrom : substringFrom (assemble t ((' ' :: w, u) :: rest2)) (t.length + 1)
            = w ++ assemble u rest2 := by
          simp only [assemble, substringFrom, List.append_assoc, List.cons_append]
          rw [List.drop_append]
          rfl
        rw [getArgsLoop, hidx, if_neg hne]
        simp only [Int.toNat_ofNat]
        rw [hsub, hfrom, trim_assemble w u rest2 hw hparts.2, ih u rest2 _ hparts.2]
        simp only [tokensOf, List.map_cons, List.length_cons, List.take_succ_cons, afterTokens,
          List.append_assoc, List.singleton_append, Nat.add_le_add_iff_right]

/-- Claim C8 as stated fails: with `nargs = 2` the text `a b c` of three tokens is split
into three arguments, not two, and the tail `b c` is split further. -/
theorem getArgs_splits_past_nargs :
    getArgs "a b c".toList (some 2) = ["a".toList, "b".toList, "c".toList] ∧
    (getArgs "a b c".toList (some 2)).length ≠ 2 ∧
    (getArgs "a b c".toList (some 2)).getLast? ≠ some "b c".toList := by
  decide

/-- Claim C8, amended. For every `nargs ≥ 1` and every argument string made of at least
`nargs` tokens separated by a space and optional further white space: with `nargs = 1`,
`getArgs` returns one argument, the whole text, spaces included; with `nargs ≥ 2` and
exactly `nargs` tokens it returns exactly the `nargs` tokens; with `nargs ≥ 2` and more
tokens it returns `nargs + 1` arguments, the first `nargs` tokens followed by all the text
that remains after them, spaces included. A token is a non-empty string without a space
that neither starts nor ends with white space. -/
theorem getArgs_tokens (n : Nat) (t : JSString) (rest : List (JSString × JSString))
    (hn : 1 ≤ n) (hwf : wellFormed t rest = true) (hk : n ≤ rest.length + 1) :
    getArgs (assemble t rest) (some n) =
      if n = 1 then [assemble t rest]
      else if rest.length + 1 = n then tokensOf t rest
      else (tokensOf t rest).take n ++ [afterTokens n t rest] := by
  have ht : isToken t = true := by
    unfold wellFormed at hwf
    simp only [Bool.and_eq_true] at hwf
    exact hwf.1
  have htrim : trim (assemble t rest) = assemble t rest := by
    have h := trim_assemble [] t rest rfl hwf
    simpa using h
  have hlen : ¬ (assemble t rest).length = 0 := by
    obtain ⟨c, x, hcx, -⟩ := assemble_first t rest ht
    rw [hcx]; simp
  unfold getArgs
  simp only [htrim, if_neg hlen]
  by_cases h1 : n = 1
  · rw [if_pos (by omega), if_pos h1]
  · rw [if_neg (by omega), if_neg h1, getArgsLoop_assemble n t rest [] hwf]
    by_cases h2 : rest.length + 1 = n
    · have htake : (tokensOf t rest).take n = tokensOf t rest := by
        apply List.take_of_length_le
        simp only [tokensOf, List.length_cons, List.length_map]
        omega
      rw [if_pos (by omega), if_pos h2, htake]
      simp
    · rw [if_neg (by omega), if_neg h2]
      simp

/-- The text `a b  c=x d` of four tokens with `nargs = 2` gives three arguments: the tokens
`a` and `b`, and the remaining text `c=x d`. -/
theorem getArgs_tokens_witness :
    1 ≤ 2 ∧ wellFormed "a".toList sampleRest = true ∧ 2 ≤ sampleRest.length + 1 ∧
    assemble "a".toList sampleRest = "a b  c=x d".toList ∧
    getArgs (assemble "a".toList sampleRest) (some 2)
      = ["a".toList, "b".toList, "c=x d".toList] :=
  ⟨by decide, by decide, by decide, by decide,
   (getArgs_tokens 2 "a".toList sampleRest (by decide) (by decide) (by decide)).trans
     (by decide)⟩

/-! ## Theorems: command dispatcher -/

/-- No command is bound to the empty token. -/
theorem commands_nil : commands [] = none := by
  decide

/-- A lookup that succeeds is a binding of the table. -/
theorem lookupIn_mem (table : List (JSString × CommandHandler)) (key : JSString)
    (command : CommandHandler) (h : lookupIn table key = some command) :
    (key, command) ∈ table := by
  unfold lookupIn at h
  rw [Option.map_eq_some'] at h
  obtain ⟨e, he, hc⟩ := h
  have hmem := List.mem_of_find?_eq_some he
  have hkey := List.find?_some he
  simp only [decide_eq_true_eq] at hkey
  have : e = (key, command) := Prod.ext hkey hc
  rw [← this]; exact hmem

/-- Every command of the table has a `validate` and a `perform`, its own or inherited. -/
theorem commands_have_functions (key : JSString) (command : CommandHandler)
    (h : commands key = some command) :
    ∃ v p, command.validate = some v ∧ command.perform = some p := by
  have hall : ∀ e ∈ commandTable, e.2.validate.isSome = true ∧ e.2.perform.isSome = true := by
    decide
  have hmem := lookupIn_mem commandTable key command h
  obtain ⟨hv, hp⟩ := hall (key, command) hmem
  obtain ⟨v, hv⟩ := Option.isSome_iff_exists.mp hv
  obtain ⟨p, hp⟩ := Option.isSome_iff_exists.mp hp
  exact ⟨v, p, hv, hp⟩

/-- The dispatch of a line whose non-empty command token is bound to `command`. -/
theorem handleMessage_known (strings : Strings) (cmds : JSString → Option CommandHandler)
    (activePlayers : List ActivePlayer) (conn : Conn) (message : JSString)
    (command : CommandHandler) (hne : commandStrOf message ≠ [])
    (hlookup : cmds (commandStrOf message) = some command) :
    handleMessage strings cmds activePlayers conn message =
      if truthyNargs command.nargs = true ∧
          some (getArgs (argsStrOf message) command.nargs).length ≠ command.nargs then
        [Effect.sendMessage conn strings.incorrectArgs
          (some [("command".toList, commandStrOf message)])]
      else if (findActivePlayerByConnection activePlayers conn).isSome = false ∧
          command.postLogin = true ∧ command.preLogin = false then
        displaySplashScreen strings conn
      else if (findActivePlayerByConnection activePlayers conn).isSome = true ∧
          command.preLogin = true ∧ command.postLogin = false then
        [Effect.sendMessage conn strings.alreadyLoggedIn none]
      else
        match command.validate with
        | some validate =>
          [Effect.validate validate conn (getArgs (argsStrOf message) command.nargs)
            command.perform]
        | none =>
          match command.perform with
          | some perform =>
            [Effect.perform perform conn (getArgs (argsStrOf message) command.nargs)]
          | none => [Effect.typeError] := by
  have hlen : ¬ (commandStrOf message).length = 0 := by
    intro h; exact hne (List.length_eq_zero.mp h)
  unfold handleMessage
  simp only [hlen, if_false, hlookup]

/-- Claim C9 as stated fails for `nargs = 0`: `inventory` has `nargs` set to the number 0,
the line `inventory now` gives one argument, and the dispatcher sends no message and calls
the command's `validate`. -/
theorem handleMessage_zero_nargs_not_enforced :
    (commands "inventory".toList).map (fun c => c.nargs) = some (some 0) ∧
    (getArgs (argsStrOf "inventory now".toList) (some 0)).length ≠ 0 ∧
    handleMessage sampleStrings commands sampleRegistry 3 "inventory now".toList =
      [Effect.validate "inventory.validate".toList 3 ["now".toList]
        (some "inventory.perform".toList)] := by
  decide

/-- Claim C9, amended. For every command in the table whose `nargs` is a number `n` other
than `0`, and every input line naming it whose argument split does not yield exactly `n`
arguments, `handleMessage` sends the "incorrect arguments" message naming the typed command
to the connection and does nothing else: neither `validate` nor `perform` is called. -/
theorem handleMessage_incorrect_args (strings : Strings) (activePlayers : List ActivePlayer)
    (conn : Conn) (message : JSString) (command : CommandHandler) (n : Nat)
    (hlookup : commands (commandStrOf message) = some command)
    (hnargs : command.nargs = some n) (hn : n ≠ 0)
    (hargs : (getArgs (argsStrOf message) (some n)).length ≠ n) :
    handleMessage strings commands activePlayers conn message =
      [Effect.sendMessage conn strings.incorrectArgs
        (some [("command".toList, commandStrOf message)])] := by
  have hne : commandStrOf message ≠ [] := by
    intro h
    rw [h, commands_nil] at hlookup
    exact Option.noConfusion hlookup
  rw [handleMessage_known strings commands activePlayers conn message command hne hlookup]
  have hcond : truthyNargs command.nargs = true ∧
      some (getArgs (argsStrOf message) command.nargs).length ≠ command.nargs := by
    rw [hnargs]
    refine ⟨by simp [truthyNargs, hn], ?_⟩
    intro h
    exact hargs (Option.some.inj h)
  rw [if_pos hcond]

/-- The line `create bob` gives one argument to a command with `nargs = 2`. -/
theorem handleMessage_incorrect_args_witness :
    (commands (commandStrOf "create bob".toList)).map (fun c => c.nargs) = some (some 2) ∧
    (getArgs (argsStrOf "create bob".toList) (some 2)).length ≠ 2 ∧
    handleMessage sampleStrings commands [] 3 "create bob".toList =
      [Effect.sendMessage 3 sampleStrings.incorrectArgs
        (some [("command".toList, "create".toList)])] :=
  ⟨by decide, by decide,
   handleMessage_incorrect_args sampleStrings [] 3 "create bob".toList
     (CommandHandler.base.extend (ownFunctions "create"
        { nargs := some 2, preLogin := some true, postLogin := some false }))
     2 (by decide) (by decide) (by decide) (by decide)⟩

/-- Claim C10. For every input line that names a command of the table and passes the
argument-count check: if the connection is not in the registry and the command is
post-login only, the splash is sent and nothing else happens; if the connection is in the
registry and the command is pre-login only, the "already logged in" message is sent and
nothing else happens; in every other case `validate` is called with the command's
`perform` as continuation. -/
theorem handleMessage_login_gate (strings : Strings) (activePlayers : List ActivePlayer)
    (conn : Conn) (message : JSString) (command : CommandHandler)
    (hlookup : commands (commandStrOf message) = some command)
    (hcount : truthyNargs command.nargs = true →
      some (getArgs (argsStrOf message) command.nargs).length = command.nargs) :
    ((findActivePlayerByConnection activePlayers conn = none ∧
        command.postLogin = true ∧ command.preLogin = false) →
      handleMessage strings commands activePlayers conn message =
        [Effect.sendMessage conn strings.loginPrompt none]) ∧
    ((findActivePlayerByConnection activePlayers conn ≠ none ∧
        command.preLogin = true ∧ command.postLogin = false) →
      handleMessage strings commands activePlayers conn message =
        [Effect.sendMessage conn strings.alreadyLoggedIn none]) ∧
    (¬ (findActivePlayerByConnection activePlayers conn = none ∧
        command.postLogin = true ∧ command.preLogin = false) →
      ¬ (findActivePlayerByConnection activePlayers conn ≠ none ∧
        command.preLogin = true ∧ command.postLogin = false) →
      ∃ v p, command.validate = some v ∧ command.perform = some p ∧
        handleMessage strings commands activePlayers conn message =
          [Effect.validate v conn (getArgs (argsStrOf message) command.nargs) (some p)]) := by
  have hne : commandStrOf message ≠ [] := by
    intro h
    rw [h, commands_nil] at hlookup
    exact Option.noConfusion hlookup
  have hcond : ¬ (truthyNargs command.nargs = true ∧
      some (getArgs (argsStrOf message) command.nargs).length ≠ command.nargs) :=
    fun h => h.2 (hcount h.1)
  have hanon : (findActivePlayerByConnection activePlayers conn).isSome = false ↔
      findActivePlayerByConnection activePlayers conn = none := by
    cases findActivePlayerByConnection activePlayers conn <;> simp
  have hauth : (findActivePlayerByConnection activePlayers conn).isSome = true ↔
      findActivePlayerByConnection activePlayers conn ≠ none := by
    cases findActivePlayerByConnection activePlayers conn <;> simp
  rw [handleMessage_known strings commands activePlayers conn message command hne hlookup,
    if_neg hcond]
  refine ⟨?_, ?_, ?_⟩
  · intro h
    rw [if_pos ⟨hanon.mpr h.1, h.2⟩]
    rfl
  · intro h
    have h1 : ¬ ((findActivePlayerByConnection activePlayers conn).isSome = false ∧
        command.postLogin = true ∧ command.preLogin = false) :=
      fun h2 => h.1 (hanon.mp h2.1)
    rw [if_neg h1, if_pos ⟨hauth.mpr h.1, h.2⟩]
  · intro h1 h2
    obtain ⟨v, p, hv, hp⟩ := commands_have_functions (commandStrOf message) command hlookup
    refine ⟨v, p, hv, hp, ?_⟩
    have h3 : ¬ ((findActivePlayerByConnection activePlayers conn).isSome = false ∧
        command.postLogin = true ∧ command.preLogin = false) :=
      fun h => h1 ⟨hanon.mp h.1, h.2⟩
    have h4 : ¬ ((findActivePlayerByConnection activePlayers conn).isSome = true ∧
        command.preLogin = true ∧ command.postLogin = false) :=
      fun h => h2 ⟨hauth.mp h.1, h.2⟩
    rw [if_neg h3, if_neg h4, hv, hp]

/-- The line `look` from a connection that is not in the registry: `look` is post-login
only, and the splash is sent. -/
theorem handleMessage_login_gate_witness :
    commands (commandStrOf "look".toList) =
      some (CommandHandler.base.extend (ownFunctions "look" { })) ∧
    findActivePlayerByConnection sampleRegistry 4 = none ∧
    (CommandHandler.base.extend (ownFunctions "look" { })).postLogin = true ∧
    (CommandHandler.base.extend (ownFunctions "look" { })).preLogin = false ∧
    handleMessage sampleStrings commands sampleRegistry 4 "look".toList =
      [Effect.sendMessage 4 sampleStrings.loginPrompt none] :=
  ⟨by decide, by decide, by decide, by decide,
   (handleMessage_login_gate sampleStrings sampleRegistry 4 "look".toList
      (CommandHandler.base.extend (ownFunctions "look" { })) (by decide) (by decide)).1
      ⟨by decide, by decide, by decide⟩⟩

/-! ## Theorems: flags and link permission -/

/-- `ToInt32` lands in the 32-bit range. -/
theorem toInt32_inInt32 (x : Int) : inInt32 (toInt32 x) := by
  unfold inInt32 toInt32
  omega

/-- `ToInt32` leaves a 32-bit integer alone. -/
theorem toInt32_of_inInt32 (x : Int) (h : inInt32 x) : toInt32 x = x := by
  unfold inInt32 at h
  unfold toInt32
  omega

/-- A natural number as an integer is in the 32-bit range when it is below `2 ^ 31`. -/
theorem inInt32_ofNat (m : Nat) : inInt32 (Int.ofNat m) ↔ m < 2 ^ 31 := by
  unfold inInt32
  simp only [Int.ofNat_eq_coe]
  omega

/-- The integer `-(m + 1)` is in the 32-bit range when `m` is below `2 ^ 31`. -/
theorem inInt32_negSucc (m : Nat) : inInt32 (Int.negSucc m) ↔ m < 2 ^ 31 := by
  unfold inInt32
  rw [Int.negSucc_eq]
  omega

/-- The set difference of two naturals below `2 ^ 31` is below `2 ^ 31`. -/
theorem ldiff_lt (m n : Nat) (hm : m < 2 ^ 31) (hn : n < 2 ^ 31) :
    Nat.ldiff m n < 2 ^ 31 := by
  unfold Nat.ldiff
  exact Nat.bitwise_lt_two_pow hm hn

/-- The 32-bit integers are closed under bitwise or. -/
theorem inInt32_lor (a b : Int) (ha : inInt32 a) (hb : inInt32 b) :
    inInt32 (Int.lor a b) := by
  cases a with
  | ofNat m =>
    cases b with
    | ofNat n =>
      rw [inInt32_ofNat] at ha hb
      show inInt32 (Int.ofNat (m ||| n))
      rw [inInt32_ofNat]
      exact Nat.or_lt_two_pow ha hb
    | negSucc n =>
      rw [inInt32_ofNat] at ha
      rw [inInt32_negSucc] at hb
      show inInt32 (Int.negSucc (Nat.ldiff n m))
      rw [inInt32_negSucc]
      exact ldiff_lt n m hb ha
  | negSucc m =>
    cases b with
    | ofNat n =>
      rw [inInt32_negSucc] at ha
      rw [inInt32_ofNat] at hb
      show inInt32 (Int.negSucc (Nat.ldiff m n))
      rw [inInt32_negSucc]
      exact ldiff_lt m n ha hb
    | negSucc n =>
      rw [inInt32_negSucc] at ha hb
      show inInt32 (Int.negSucc (m &&& n))
      rw [inInt32_negSucc]
      exact Nat.and_lt_two_pow m hb

/-- The 32-bit integers are closed under bitwise and. -/
theorem inInt32_land (a b : Int) (ha : inInt32 a) (hb : inInt32 b) :
    inInt32 (Int.land a b) := by
  cases a with
  | ofNat m =>
    cases b with
    | ofNat n =>
      rw [inInt32_ofNat] at ha hb
      show inInt32 (Int.ofNat (m &&& n))
      rw [inInt32_ofNat]
      exact Nat.and_lt_two_pow m hb
    | negSucc n =>
      rw [inInt32_ofNat] at ha
      rw [inInt32_negSucc] at hb
      show inInt32 (Int.ofNat (Nat.ldiff m n))
      rw [inInt32_ofNat]
      exact ldiff_lt m n ha hb
  | negSucc m =>
    cases b with
    | ofNat n =>
      rw [inInt32_negSucc] at ha
      rw [inInt32_ofNat] at hb
      show inInt32 (Int.ofNat (Nat.ldiff n m))
      rw [inInt32_ofNat]
      exact ldiff_lt n m hb ha
    | negSucc n =>
      rw [inInt32_negSucc] at ha hb
      show inInt32 (Int.negSucc (m ||| n))
      rw [inInt32_negSucc]
      exact Nat.or_lt_two_pow ha hb

/-- The 32-bit integers are closed under bitwise not. -/
theorem inInt32_lnot (a : Int) (ha : inInt32 a) : inInt32 (Int.lnot a) := by
  cases a with
  | ofNat m =>
    rw [inInt32_ofNat] at ha
    show inInt32 (Int.negSucc m)
    rw [inInt32_negSucc]
    exact ha
  | negSucc m =>
    rw [inInt32_negSucc] at ha
    show inInt32 (Int.ofNat m)
    rw [inInt32_ofNat]
    exact ha

/-- Two integers with the same bits are equal. -/
theorem int_eq_of_testBit_eq (a b : Int) (h : ∀ i, a.testBit i = b.testBit i) : a = b := by
  have hmixed : ∀ m n : Nat, ¬ (∀ i, Nat.testBit m i = !(Nat.testBit n i)) := by
    intro m n hmn
    have h1 : Nat.testBit m (m + n) = false :=
      Nat.testBit_lt_two_pow (Nat.lt_of_le_of_lt (Nat.le_add_right m n) (Nat.lt_two_pow (m + n)))
    have h2 : Nat.testBit n (m + n) = false :=
      Nat.testBit_lt_two_pow (Nat.lt_of_le_of_lt (Nat.le_add_left n m) (Nat.lt_two_pow (m + n)))
    have h3 := hmn (m + n)
    rw [h1, h2] at h3
    exact Bool.false_ne_true h3
  cases a with
  | ofNat m =>
    cases b with
    | ofNat n =>
      have : m = n := Nat.eq_of_testBit_eq (fun i => h i)
      rw [this]
    | negSucc n => exact absurd (fun i => h i) (hmixed m n)
  | negSucc m =>
    cases b with
    | ofNat n =>
      refine absurd (fun i => ?_) (hmixed n m)
      have := h i
      simp only [Int.testBit] at this
      exact this.symm
    | negSucc n =>
      have : m = n := Nat.eq_of_testBit_eq (fun i => by
        have := h i
        simp only [Int.testBit] at this
        exact Bool.not_inj this)
      rw [this]

/-- Absorption: `(f | b) & b` is `b` as a 32-bit integer. -/
theorem bitAnd_bitOr_self (f b : Int) : bitAnd (bitOr f b) b = toInt32 b := by
  unfold bitAnd bitOr
  rw [toInt32_of_inInt32 _ (inInt32_lor _ _ (toInt32_inInt32 f) (toInt32_inInt32 b))]
  apply int_eq_of_testBit_eq
  intro i
  rw [Int.testBit_land, Int.testBit_lor]
  cases (toInt32 f).testBit i <;> cases (toInt32 b).testBit i <;> rfl

/-- Clearing: `(f & ~b) & b` is `0`. -/
theorem bitAnd_bitNot_self (f b : Int) : bitAnd (bitAnd f (bitNot b)) b = 0 := by
  unfold bitAnd bitNot
  rw [toInt32_of_inInt32 (Int.lnot (toInt32 b)) (inInt32_lnot _ (toInt32_inInt32 b)),
    toInt32_of_inInt32 _ (inInt32_land _ _ (toInt32_inInt32 f)
      (inInt32_lnot _ (toInt32_inInt32 b)))]
  apply int_eq_of_testBit_eq
  intro i
  have hz : Int.testBit 0 i = false := Nat.zero_testBit i
  rw [Int.testBit_land, Int.testBit_land, Int.testBit_lnot, hz]
  cases (toInt32 f).testBit i <;> cases (toInt32 b).testBit i <;> rfl

/-- Idempotence: `(f | b) | b` is `f | b`. -/
theorem bitOr_bitOr_self (f b : Int) : bitOr (bitOr f b) b = bitOr f b := by
  unfold bitOr
  rw [toInt32_of_inInt32 _ (inInt32_lor _ _ (toInt32_inInt32 f) (toInt32_inInt32 b))]
  apply int_eq_of_testBit_eq
  intro i
  rw [Int.testBit_lor, Int.testBit_lor]
  cases (toInt32 f).testBit i <;> cases (toInt32 b).testBit i <;> rfl

/-- Claim C12. For every room and player, `isLinkable(room, player)` is true if and only
if the player owns the room or the room's `link_ok` flag is set (`canLink()` is not zero);
ownership grants link permission whatever the flag. -/
theorem isLinkable_iff (room player : MUDObject) :
    (isLinkable room player = true ↔
      (room.ownerId = some player.id ∨ room.canLink ≠ 0)) ∧
    (room.ownerId = some player.id → isLinkable room player = true) := by
  unfold isLinkable
  refine ⟨?_, fun h => by rw [if_pos h]⟩
  by_cases h1 : room.ownerId = some player.id
  · rw [if_pos h1]
    exact ⟨fun _ => Or.inl h1, fun _ => rfl⟩
  · rw [if_neg h1]
    by_cases h2 : room.canLink ≠ 0
    · rw [if_pos h2]
      exact ⟨fun _ => Or.inr h2, fun _ => rfl⟩
    · rw [if_neg h2]
      constructor
      · intro h; exact absurd h Bool.false_ne_true
      · rintro (h | h)
        · exact absurd h h1
        · exact absurd h h2

/-- Claim C14. For every entity with any integer `flags` value and every flag name `f`
among `link_ok`, `anti_lock` and `temple`: after `setFlag(FLAGS[f])` the test `getFlag(f)`
is not zero, and after `resetFlag(FLAGS[f])` the test `getFlag(f)` is zero. -/
theorem getFlag_after_setFlag_resetFlag (o : MUDObject) (flag : JSString)
    (hflag : flag = "link_ok".toList ∨ flag = "anti_lock".toList ∨ flag = "temple".toList) :
    (o.setFlag (operand (FLAGS.lookup flag))).getFlag flag ≠ 0 ∧
    (o.resetFlag (operand (FLAGS.lookup flag))).getFlag flag = 0 := by
  have hbit : toInt32 (operand (FLAGS.lookup flag)) ≠ 0 := by
    rcases hflag with h | h | h <;> rw [h] <;> decide
  constructor
  · show bitAnd (bitOr o.flags (operand (FLAGS.lookup flag))) (operand (FLAGS.lookup flag)) ≠ 0
    rw [bitAnd_bitOr_self]
    exact hbit
  · show bitAnd (bitAnd o.flags (bitNot (operand (FLAGS.lookup flag))))
      (operand (FLAGS.lookup flag)) = 0
    exact bitAnd_bitNot_self _ _

/-- The flag `anti_lock` on the room `hall`, whose flags are `0`, and on `antiDoor`, whose
flags are `2`. -/
theorem getFlag_after_setFlag_resetFlag_witness :
    ("anti_lock".toList = "link_ok".toList ∨ "anti_lock".toList = "anti_lock".toList ∨
      "anti_lock".toList = "temple".toList) ∧
    (hall.setFlag (operand (FLAGS.lookup "anti_lock".toList))).getFlag "anti_lock".toList
      = 2 ∧
    (hall.setFlag (operand (FLAGS.lookup "anti_lock".toList))).getFlag "anti_lock".toList
      ≠ 0 ∧
    (antiDoor.resetFlag (operand (FLAGS.lookup "anti_lock".toList))).getFlag
      "anti_lock".toList = 0 :=
  ⟨Or.inr (Or.inl rfl), by decide,
   (getFlag_after_setFlag_resetFlag hall "anti_lock".toList (Or.inr (Or.inl rfl))).1,
   (getFlag_after_setFlag_resetFlag antiDoor "anti_lock".toList (Or.inr (Or.inl rfl))).2⟩

/-- Claim C15. For every entity and every flag bit `b`, setting the flag twice is
idempotent: the entity after `setFlag(b)` followed by `setFlag(b)` is the entity after a
single `setFlag(b)`. -/
theorem setFlag_idempotent (o : MUDObject) (b : Int) :
    (o.setFlag b).setFlag b = o.setFlag b ∧
    ((o.setFlag b).setFlag b).flags = (o.setFlag b).flags := by
  have h : bitOr (bitOr o.flags b) b = bitOr o.flags b := bitOr_bitOr_self o.flags b
  constructor
  · show ({ ({ o with flags := bitOr o.flags b } : MUDObject) with
        flags := bitOr (bitOr o.flags b) b } : MUDObject) =
      { o with flags := bitOr o.flags b }
    rw [h]
  · exact h

/-! ## Theorems: session registry -/

/-- As long as the calls that go on leave the registry alone, the loop over the live
registry is the iteration over the rest of the snapshot. -/
theorem applyToActivePlayers_drop {σ : Type} (registry : σ → List ActivePlayer)
    (operation : Conn → MUDObject → σ → σ × Signal)
    (hkeep : ∀ c p s s2, operation c p s = (s2, Signal.next) → registry s2 = registry s)
    (fuel : Nat) :
    ∀ (i : Nat) (s : σ) (visited : List ActivePlayer),
      (registry s).length - i < fuel →
      (applyToActivePlayers registry operation fuel i s visited).map
          (fun r => (r.state, r.visited, r.threw)) =
        some ((applyToSnapshot operation ((registry s).drop i) s visited).state,
          (applyToSnapshot operation ((registry s).drop i) s visited).visited,
          (applyToSnapshot operation ((registry s).drop i) s visited).threw) := by
  induction fuel with
  | zero => intro i s visited h; omega
  | succ fuel ih =>
    intro i s visited hfuel
    unfold applyToActivePlayers
    cases hget : (registry s)[i]? with
    | none =>
      have hlen : (registry s).length ≤ i := by
        rcases Nat.lt_or_ge i (registry s).length with h | h
        · rw [List.getElem?_eq_getElem h] at hget; exact Option.noConfusion hget
        · exact h
      rw [List.drop_eq_nil_of_le hlen]
      rfl
    | some e =>
      have hlt : i < (registry s).length := by
        rcases Nat.lt_or_ge i (registry s).length with h | h
        · exact h
        · rw [List.getElem?_eq_none h] at hget; exact Option.noConfusion hget
      have hdrop : (registry s).drop i = e :: (registry s).drop (i + 1) := by
        rw [List.getElem?_eq_getElem hlt] at hget
        rw [← Option.some.inj hget]
        exact List.drop_eq_getElem_cons hlt
      rw [hdrop]
      simp only [applyToSnapshot]
      rcases hop : operation e.conn e.player s with ⟨s2, sig⟩
      cases sig with
      | next =>
        simp only []
        have hreg := hkeep e.conn e.player s s2 hop
        have := ih (i + 1) s2 (visited ++ [e]) (by rw [hreg]; omega)
        rw [hreg] at this
        exact this
      | stop => rfl
      | throw => rfl

/-- Claim C16 as stated fails: the loop reads the live registry. With `alice`, `bob` and
`carol` registered, a function that removes the entry it is called on is called on
`alice` and `carol` only: `bob`, an entry of the snapshot, is skipped. -/
theorem applyToActivePlayers_not_snapshot :
    (applyToActivePlayers (fun s : List ActivePlayer => s) dropVisited 10 0 threePlayers []).map
        (fun r => (r.state, r.visited, r.threw)) =
      some ([{ player := bob, conn := 4 }],
        [{ player := alice, conn := 3 }, { player := carol, conn := 5 }], false) ∧
    (applyToSnapshot dropVisited threePlayers threePlayers []).visited = threePlayers := by
  decide

/-- Claim C16, amended. For every registry state and every function `fn` whose calls leave
the registry as it is unless they return `false` or raise, `applyToActivePlayers(fn)` calls
`fn(connection, player)` on the entries that were registered when the call began, in
insertion order, up to and including the first call that returns `false`: with more
iterations allowed than there are entries, the run over the live registry is the run over
the snapshot, whose visited entries are a prefix of the snapshot. -/
theorem applyToActivePlayers_snapshot {σ : Type} (registry : σ → List ActivePlayer)
    (operation : Conn → MUDObject → σ → σ × Signal)
    (hkeep : ∀ c p s s2, operation c p s = (s2, Signal.next) → registry s2 = registry s)
    (s : σ) (fuel : Nat) (hfuel : (registry s).length < fuel) :
    (applyToActivePlayers registry operation fuel 0 s []).map
        (fun r => (r.state, r.visited, r.threw)) =
      some ((applyToSnapshot operation (registry s) s []).state,
        (applyToSnapshot operation (registry s) s []).visited,
        (applyToSnapshot operation (registry s) s []).threw) ∧
    (applyToSnapshot operation (registry s) s []).visited <+: registry s := by
  constructor
  · have h := applyToActivePlayers_drop registry operation hkeep fuel 0 s [] (by omega)
    rw [List.drop_zero] at h
    exact h
  · have hpre : ∀ (l : List ActivePlayer) (t : σ) (visited : List ActivePlayer),
        ∃ k, (applyToSnapshot operation l t visited).visited = visited ++ l.take k := by
      intro l
      induction l with
      | nil => intro t visited; exact ⟨0, by simp [applyToSnapshot]⟩
      | cons e rest ih =>
        intro t visited
        rcases hop : operation e.conn e.player t with ⟨t2, sig⟩
        cases sig with
        | next =>
          obtain ⟨k, hk⟩ := ih t2 (visited ++ [e])
          refine ⟨k + 1, ?_⟩
          simp only [applyToSnapshot, hop, hk, List.take_succ_cons, List.append_assoc,
            List.singleton_append]
        | stop => exact ⟨1, by simp [applyToSnapshot, hop]⟩
        | throw => exact ⟨1, by simp [applyToSnapshot, hop]⟩
    obtain ⟨k, hk⟩ := hpre (registry s) s []
    rw [hk, List.nil_append]
    exact List.take_prefix k (registry s)

/-- A function that leaves the registry alone and returns `false` on `bob`, the second of
three entries, is called on the first two entries. -/
theorem applyToActivePlayers_snapshot_witness :
    (∀ c p s s2, stopAtFour c p s = (s2, Signal.next) → s2 = s) ∧
    threePlayers.length < 4 ∧
    (applyToActivePlayers (fun s : List ActivePlayer => s) stopAtFour 4 0 threePlayers []).map
        (fun r => (r.state, r.visited, r.threw)) =
      some (threePlayers,
        [{ player := alice, conn := 3 }, { player := bob, conn := 4 }], false) :=
  ⟨fun _ _ _ _ h => (Prod.mk.inj h).1.symm, by decide,
   (applyToActivePlayers_snapshot (fun s : List ActivePlayer => s) stopAtFour
      (fun _ _ _ _ h => (Prod.mk.inj h).1.symm) threePlayers 4 (by decide)).1.trans
      (by decide)⟩

/-- Removing the first match removes the only match. -/
theorem eraseP_eq_filter_not {α : Type} (p : α → Bool) (l : List α)
    (hone : (l.filter p).length ≤ 1) : l.eraseP p = l.filter (fun x => !p x) := by
  induction l with
  | nil => rfl
  | cons e rest ih =>
    by_cases hp : p e = true
    · rw [List.eraseP_cons_of_pos hp]
      rw [List.filter_cons_of_pos hp, List.length_cons] at hone
      have hnil : rest.filter p = [] := List.length_eq_zero.mp (by omega)
      have hall : ∀ x ∈ rest, (!p x) = true := by
        intro x hx
        have := List.filter_eq_nil_iff.mp hnil x hx
        simpa using this
      rw [List.filter_cons_of_neg (by simp [hp])]
      exact (List.filter_eq_self.mpr hall).symm
    · rw [List.eraseP_cons_of_neg hp]
      rw [List.filter_cons_of_neg hp] at hone
      rw [List.filter_cons_of_pos (by simp [hp]), ih hone]

/-- Claim C17. For every registry holding at most one entry for the connection `c`: after
`deactivatePlayer(c)` the lookup `findActivePlayerByConnection(c)` finds nothing, and the
entries for the other connections are the same as before, with the same players and in
the same order; they are all that is left. -/
theorem deactivatePlayer_registry (strings : CommandStrings)
    (activePlayers : List ActivePlayer) (c : Conn)
    (hone : (activePlayers.filter (fun e => decide (e.conn = c))).length ≤ 1) :
    findActivePlayerByConnection (deactivatePlayer strings activePlayers c).1 c = none ∧
    (deactivatePlayer strings activePlayers c).1.filter (fun e => decide (e.conn ≠ c)) =
      activePlayers.filter (fun e => decide (e.conn ≠ c)) ∧
    (deactivatePlayer strings activePlayers c).1 =
      activePlayers.filter (fun e => decide (e.conn ≠ c)) := by
  have hreg : (deactivatePlayer strings activePlayers c).1 =
      activePlayers.filter (fun e => decide (e.conn ≠ c)) := by
    show activePlayers.eraseP (fun e => decide (e.conn = c)) = _
    rw [eraseP_eq_filter_not _ _ hone]
    congr 1
    funext e
    by_cases h : e.conn = c <;> simp [h]
  refine ⟨?_, ?_, hreg⟩
  · rw [hreg]
    unfold findActivePlayerByConnection
    have : (activePlayers.filter (fun e => decide (e.conn ≠ c))).find?
        (fun e => decide (e.conn = c)) = none := by
      rw [List.find?_eq_none]
      intro x hx
      have := (List.mem_filter.mp hx).2
      simpa using this
    rw [this]
    rfl
  · rw [hreg, List.filter_filter]
    congr 1
    funext e
    by_cases h : e.conn = c <;> simp [h]

/-- With `alice`, `bob` and `carol` registered on connections 3, 4 and 5, deactivating
connection 4 leaves `alice` and `carol`, in that order. -/
theorem deactivatePlayer_registry_witness :
    (threePlayers.filter (fun e => decide (e.conn = 4))).length ≤ 1 ∧
    findActivePlayerByConnection (deactivatePlayer sampleCommandStrings threePlayers 4).1 4
      = none ∧
    (deactivatePlayer sampleCommandStrings threePlayers 4).1 =
      [{ player := alice, conn := 3 }, { player := carol, conn := 5 }] :=
  ⟨by decide,
   (deactivatePlayer_registry sampleCommandStrings threePlayers 4 (by decide)).1,
   by decide⟩

/-! ## Theorems: feedback of the permission engine -/

/-- The function of `sendMessageRoomExcept` never changes the registry. -/
theorem sendMessageRoomExceptOperation_keeps (conn : Conn) (message : JSString)
    (values : Values) (c : Conn) (p : MUDObject) (s s2 : RoomBroadcast) (sig : Signal)
    (h : sendMessageRoomExceptOperation conn message values c p s = (s2, sig)) :
    s2.1.1 = s.1.1 := by
  unfold sendMessageRoomExceptOperation at h
  cases hf : findActivePlayerByConnection s.1.1 conn with
  | none =>
    rw [hf] at h
    rw [← (Prod.mk.inj h).1]
  | some curr =>
    rw [hf] at h
    simp only [] at h
    split_ifs at h
    · rw [← (Prod.mk.inj h).1]
    · rw [← (Prod.mk.inj h).1]

/-- The iteration of `sendMessageRoomExcept` over the entries of the registry from the
position `i` on, when the sender is registered: a message to every entry in the same
location whose position is not that of the sender. -/
theorem applyToSnapshot_roomExcept (conn : Conn) (message : JSString) (values : Values)
    (reg : List ActivePlayer) (curr : MUDObject)
    (hcurr : findActivePlayerByConnection reg conn = some curr) (l : List ActivePlayer) :
    ∀ (acc : List Emit) (i : Nat) (visited : List ActivePlayer),
      (applyToSnapshot (sendMessageRoomExceptOperation conn message values) l
          ((reg, acc), i) visited).state =
        ((reg, acc ++ ((l.enumFrom i).filter
          (fun p => decide (p.2.player.locationId = curr.locationId ∧
            actorPosition reg conn ≠ p.1))).map
          (fun p => Emit.send p.2.conn message values)), i + l.length) ∧
      (applyToSnapshot (sendMessageRoomExceptOperation conn message values) l
          ((reg, acc), i) visited).threw = false := by
  induction l with
  | nil =>
    intro acc i visited
    simp [applyToSnapshot]
  | cons e rest ih =>
    intro acc i visited
    by_cases hc : e.player.locationId = curr.locationId ∧ actorPosition reg conn ≠ i
    · have hop : sendMessageRoomExceptOperation conn message values e.conn e.player
          ((reg, acc), i)
          = (((reg, acc ++ [Emit.send e.conn message values]), i + 1), Signal.next) := by
        simp only [sendMessageRoomExceptOperation, hcurr]
        rw [if_pos hc]
      obtain ⟨h1, h2⟩ := ih (acc ++ [Emit.send e.conn message values]) (i + 1)
        (visited ++ [e])
      rw [List.enumFrom_cons, List.filter_cons_of_pos (by simpa using hc)]
      simp only [applyToSnapshot, hop, h1, h2, List.map_cons, List.append_assoc,
        List.singleton_append, List.length_cons, and_true]
      congr 1
      omega
    · have hop : sendMessageRoomExceptOperation conn message values e.conn e.player
          ((reg, acc), i) = (((reg, acc), i + 1), Signal.next) := by
        simp only [sendMessageRoomExceptOperation, hcurr]
        rw [if_neg hc]
      obtain ⟨h1, h2⟩ := ih acc (i + 1) (visited ++ [e])
      rw [List.enumFrom_cons, List.filter_cons_of_neg (by simpa using hc)]
      simp only [applyToSnapshot, hop, h1, h2, List.length_cons, and_true]
      congr 1
      omega

/-- When the sender is registered, `sendMessageRoomExcept` sends the message to the
bystanders of the sender, in registry order, and nothing else. -/
theorem sendMessageRoomExcept_eq (activePlayers : List ActivePlayer) (conn : Conn)
    (message : JSString) (values : Values) (curr : MUDObject)
    (hcurr : findActivePlayerByConnection activePlayers conn = some curr) :
    sendMessageRoomExcept activePlayers conn message values =
      (bystanders activePlayers conn curr).map
        (fun e => Emit.send e.conn message values) := by
  have hrun := applyToActivePlayers_drop (fun s : RoomBroadcast => s.1.1)
    (sendMessageRoomExceptOperation conn message values)
    (fun c p s s2 h => sendMessageRoomExceptOperation_keeps conn message values c p s s2 _ h)
    (activePlayers.length + 1) 0 ((activePlayers, []), 0) []
    (by simp only [Nat.sub_zero]; exact Nat.lt_succ_self _)
  obtain ⟨h1, h2⟩ := applyToSnapshot_roomExcept conn message values activePlayers curr hcurr
    activePlayers [] 0 []
  simp only [List.drop_zero] at hrun
  unfold sendMessageRoomExcept runRoomBroadcast
  cases hres : applyToActivePlayers (fun s : RoomBroadcast => s.1.1)
      (sendMessageRoomExceptOperation conn message values) (activePlayers.length + 1) 0
      ((activePlayers, []), 0) [] with
  | none => rw [hres] at hrun; exact Option.noConfusion hrun
  | some run =>
    rw [hres] at hrun
    simp only [Option.map_some', Option.some.injEq, Prod.mk.injEq] at hrun
    obtain ⟨hs, -, ht⟩ := hrun
    simp only []
    rw [ht, h2, hs, h1]
    unfold bystanders List.enum
    simp [List.map_map, Function.comp_def]

/-- The connection found for a player is registered, with some player object. -/
theorem findActivePlayerByConnection_of_connection (activePlayers : List ActivePlayer)
    (player : MUDObject) (playerConn : Conn)
    (h : findActiveConnectionByPlayer activePlayers player = some playerConn) :
    ∃ curr, findActivePlayerByConnection activePlayers playerConn = some curr := by
  unfold findActiveConnectionByPlayer at h
  rw [Option.map_eq_some'] at h
  obtain ⟨e, he, hc⟩ := h
  have hmem := List.mem_of_find?_eq_some he
  unfold findActivePlayerByConnection
  cases hf : activePlayers.find? (fun e => decide (e.conn = playerConn)) with
  | some e2 => exact ⟨e2.player, rfl⟩
  | none =>
    rw [List.find?_eq_none] at hf
    have := hf e hmem
    simp [hc] at this

/-- The guarded send is the send of the configured message. -/
theorem sendIfSet_eq (conn : Conn) (message : Option JSString) :
    sendIfSet conn message =
      match configured message with
      | some m => [Emit.send conn m Values.none]
      | none => [] := by
  unfold sendIfSet configured
  cases message with
  | none => rfl
  | some m => cases m <;> rfl

/-- Claim C18. For every player with an active connection and every entity, `canDoIt`
selects the messages by the decision of `couldDoIt`: on deny the actor is sent the
entity's `failureMessage` if configured, otherwise the default failure message of the
caller if supplied, otherwise nothing, and the bystanders are sent `othersFailureMessage`
(after the actor's name) only if configured; on allow the actor is sent `successMessage`
only if configured and the bystanders `othersSuccessMessage` only if configured; no
message of the opposite outcome is sent, and the value given to the continuation is the
decision. The bystanders are the entries of the registry in the location of the actor
other than the entry of the actor, whatever rows they hold. -/
theorem canDoIt_feedback (activePlayers : List ActivePlayer) (db : List MUDObject)
    (player thing : MUDObject) (defaultFailureMessage : Option JSString) (playerConn : Conn)
    (hconn : findActiveConnectionByPlayer activePlayers player = some playerConn) :
    ∃ curr, findActivePlayerByConnection activePlayers playerConn = some curr ∧
      (allows db player thing = false →
        canDoIt activePlayers db player thing defaultFailureMessage =
          (denyFeedback activePlayers playerConn curr player thing defaultFailureMessage,
            decision db player thing)) ∧
      (allows db player thing = true →
        canDoIt activePlayers db player thing defaultFailureMessage =
          (allowFeedback activePlayers playerConn curr player thing,
            decision db player thing)) := by
  obtain ⟨curr, hcurr⟩ :=
    findActivePlayerByConnection_of_connection activePlayers player playerConn hconn
  refine ⟨curr, hcurr, ?_, ?_⟩
  · intro hdeny
    have hd : (couldDoIt db player thing id).truthy = false := hdeny
    unfold canDoIt
    simp only [hconn]
    rw [couldDoIt_callback]
    simp only [hd, if_true]
    unfold denyFeedback actorFeedback roomFeedback decision
    congr 1
    congr 1
    · rw [sendIfSet_eq, sendIfSet_eq]
      cases hf : thing.failureMessage with
      | none =>
        cases hdm : defaultFailureMessage with
        | none => rfl
        | some d => cases d <;> rfl
      | some m =>
        cases m with
        | nil =>
          cases hdm : defaultFailureMessage with
          | none => rfl
          | some d => cases d <;> rfl
        | cons c cs => rfl
    · cases ho : thing.othersFailureMessage with
      | none => rfl
      | some m =>
        cases m with
        | nil => rfl
        | cons c cs =>
          simp only [configured]
          exact sendMessageRoomExcept_eq activePlayers playerConn _ _ curr hcurr
  · intro hallow
    have hd : (couldDoIt db player thing id).truthy = true := hallow
    unfold canDoIt
    simp only [hconn]
    rw [couldDoIt_callback]
    simp only [hd]
    rw [if_neg (by decide)]
    unfold allowFeedback actorFeedback roomFeedback decision
    congr 1
    congr 1
    · rw [sendIfSet_eq]
      cases hf : thing.successMessage with
      | none => rfl
      | some m => cases m <;> rfl
    · cases ho : thing.othersSuccessMessage with
      | none => rfl
      | some m =>
        cases m with
        | nil => rfl
        | cons c cs =>
          simp only [configured]
          exact sendMessageRoomExcept_eq activePlayers playerConn _ _ curr hcurr

/-- With `alice` on connection 3 carrying the key of `talkingDoor`, and `bob` in the same
room: `alice` is sent the success message and `bob` the others-success message, and the
decision is to allow. With `alice` registered on connections 3 and 9, the session on
connection 9 holds another object and is sent the others-success message. -/
theorem canDoIt_feedback_witness :
    findActiveConnectionByPlayer threePlayers alice = some 3 ∧
    allows [alice, brassKey, talkingDoor] alice talkingDoor = true ∧
    canDoIt threePlayers [alice, brassKey, talkingDoor] alice talkingDoor none =
      ([Emit.send 3 "You open the door.".toList Values.none,
        Emit.send 4 "alice opens the door.".toList Values.none], JSVal.bool true) ∧
    bystanders twoWindows 3 alice = [{ player := alice, conn := 9 }] ∧
    canDoIt twoWindows [alice, brassKey, talkingDoor] alice talkingDoor none =
      ([Emit.send 3 "You open the door.".toList Values.none,
        Emit.send 9 "alice opens the door.".toList Values.none], JSVal.bool true) := by
  refine ⟨by decide, by decide, ?_, by decide, ?_⟩
  · obtain ⟨curr, hcurr, -, hallow⟩ := canDoIt_feedback threePlayers
      [alice, brassKey, talkingDoor] alice talkingDoor none 3 (by decide)
    have hc : curr = alice :=
      Option.some.inj (hcurr.symm.trans (by decide))
    rw [hallow (by decide), hc]
    decide
  · obtain ⟨curr, hcurr, -, hallow⟩ := canDoIt_feedback twoWindows
      [alice, brassKey, talkingDoor] alice talkingDoor none 3 (by decide)
    have hc : curr = alice :=
      Option.some.inj (hcurr.symm.trans (by decide))
    rw [hallow (by decide), hc]
    decide

/-! ## Theorems: unknown command tokens -/

/-- Claim C19, the code at the failing input: `toString` is not a name of the command
table, yet the property read `commands["toString"]` finds the member inherited from
`Object.prototype`; neither the "unknown command" message nor the splash is sent, the
call of the undefined `perform` raises a `TypeError`, for a connection in the registry and
for one that is not. -/
theorem handleMessage_inherited_member :
    commandStrOf "toString".toList = "toString".toList ∧
    commands "toString".toList = none ∧
    findActivePlayerByConnection sampleRegistry 3 ≠ none ∧
    handleMessage sampleStrings commandsObject sampleRegistry 3 "toString".toList
      = [Effect.typeError] ∧
    findActivePlayerByConnection sampleRegistry 4 = none ∧
    handleMessage sampleStrings commandsObject sampleRegistry 4 "toString".toList
      = [Effect.typeError] := by
  decide

/-- For a line whose non-empty command token is neither a name of the command table nor a
member of `Object.prototype`, the "unknown command" message is sent to a connection of
the registry and the splash to any other, and nothing else happens. -/
theorem handleMessage_unknown (strings : Strings) (activePlayers : List ActivePlayer)
    (conn : Conn) (message : JSString) (hne : commandStrOf message ≠ [])
    (htable : commands (commandStrOf message) = none)
    (hproto : commandStrOf message ∉ objectPrototypeKeys) :
    handleMessage strings commandsObject activePlayers conn message =
      if (findActivePlayerByConnection activePlayers conn).isSome = true then
        [Effect.sendMessage conn strings.unknownCommand none]
      else [Effect.sendMessage conn strings.loginPrompt none] := by
  have hlen : ¬ (commandStrOf message).length = 0 := by
    intro h; exact hne (List.length_eq_zero.mp h)
  have hlook : commandsObject (commandStrOf message) = none := by
    unfold commandsObject
    rw [htable]
    simp only [hproto, if_false]
  unfold handleMessage
  simp only [hlen, if_false, hlook]
  rfl

/-! ## Theorems: `extend` -/

/-- The own property read on a list of properties, by its first element. -/
theorem ownProperty_cons {V : Type} (e : JSString × V) (rest : List (JSString × V))
    (key : JSString) :
    ownProperty (e :: rest) key = if e.1 = key then some e.2 else ownProperty rest key := by
  unfold ownProperty
  by_cases h : e.1 = key
  · rw [if_pos h, List.find?_cons_of_pos _ (by simpa using h)]
    rfl
  · rw [if_neg h, List.find?_cons_of_neg _ (by simpa using h)]

/-- No own property is read where no element has the key. -/
theorem ownProperty_eq_none {V : Type} (own : List (JSString × V)) (key : JSString)
    (h : ∀ x ∈ own, x.1 ≠ key) : ownProperty own key = none := by
  induction own with
  | nil => rfl
  | cons e rest ih =>
    rw [ownProperty_cons, if_neg (h e (List.mem_cons_self e rest))]
    exact ih (fun x hx => h x (List.mem_cons_of_mem e hx))

/-- The own property read after an existing property was overwritten. -/
theorem ownProperty_map_set {V : Type} (k : JSString) (v : V) (key : JSString)
    (own : List (JSString × V)) :
    ownProperty (own.map (fun kv => if kv.1 = k then (k, v) else kv)) key =
      if key = k then (if own.any (fun kv => decide (kv.1 = k)) = true then some v else none)
      else ownProperty own key := by
  induction own with
  | nil =>
    by_cases hk : key = k
    · rw [if_pos hk]; rfl
    · rw [if_neg hk]; rfl
  | cons e rest ih =>
    rw [List.map_cons, ownProperty_cons, ih, ownProperty_cons, List.any_cons]
    by_cases he : e.1 = k
    · by_cases hk : key = k
      · have h1 : (if e.1 = k then (k, v) else e).1 = key := by rw [if_pos he]; exact hk.symm
        have h2 : (if e.1 = k then (k, v) else e).2 = v := by rw [if_pos he]
        rw [if_pos h1, h2, if_pos hk, decide_eq_true he, Bool.true_or, if_pos rfl]
      · have h1 : ¬ (if e.1 = k then (k, v) else e).1 = key := by
          rw [if_pos he]; exact fun h => hk h.symm
        have h3 : ¬ e.1 = key := fun h => hk (h.symm.trans he)
        rw [if_neg h1, if_neg hk, if_neg hk, if_neg h3]
    · have h0 : (if e.1 = k then (k, v) else e) = e := by rw [if_neg he]
      rw [h0]
      by_cases hk : key = k
      · have h3 : ¬ e.1 = key := fun h => he (h.trans hk)
        rw [if_neg h3, if_pos hk, if_pos hk, decide_eq_false he, Bool.false_or]
      · rw [if_neg hk, if_neg hk]

/-- The own property read after an assignment. -/
theorem ownProperty_setOwn {V : Type} (own : List (JSString × V)) (k : JSString) (v : V)
    (key : JSString) :
    ownProperty (setOwn own k v) key =
      if key = k then some v else ownProperty own key := by
  unfold setOwn
  by_cases hany : own.any (fun kv => decide (kv.1 = k)) = true
  · rw [if_pos hany, ownProperty_map_set, if_pos hany]
  · rw [if_neg hany]
    have hnone : ownProperty own k = none := by
      apply ownProperty_eq_none
      intro x hx hxk
      apply hany
      rw [List.any_eq_true]
      exact ⟨x, hx, by simpa using hxk⟩
    induction own with
    | nil =>
      rw [List.nil_append, ownProperty_cons]
      by_cases hk : key = k
      · rw [if_pos hk.symm, if_pos hk]
      · rw [if_neg (fun h => hk h.symm), if_neg hk]
    | cons e rest ih =>
      rw [List.cons_append, ownProperty_cons, ownProperty_cons]
      have hek : ¬ e.1 = k := by
        intro h
        apply hany
        rw [List.any_cons]
        simp [h]
      have hrest : ¬ rest.any (fun kv => decide (kv.1 = k)) = true := by
        intro h
        apply hany
        rw [List.any_cons, h]
        simp
      have hnone2 : ownProperty rest k = none := by
        rw [ownProperty_cons, if_neg hek] at hnone
        exact hnone
      by_cases h1 : e.1 = key
      · have hk : ¬ key = k := fun h => hek (h1.trans h)
        rw [if_pos h1, if_pos h1, if_neg hk]
      · rw [if_neg h1, if_neg h1]
        exact ih hrest hnone2

/-- The own property read after the assignments of `extend`, for an extension object with
one value for a key. -/
theorem ownProperty_foldl_setOwn {V : Type} (ext : List (JSString × V)) :
    ∀ (own : List (JSString × V)) (key : JSString), (ext.map (fun kv => kv.1)).Nodup →
      ownProperty (ext.foldl (fun acc kv => setOwn acc kv.1 kv.2) own) key =
        match ownProperty ext key with
        | some v => some v
        | none => ownProperty own key := by
  induction ext with
  | nil => intro own key _; rfl
  | cons e rest ih =>
    intro own key hkeys
    rw [List.map_cons, List.nodup_cons] at hkeys
    rw [List.foldl_cons, ih (setOwn own e.1 e.2) key hkeys.2, ownProperty_setOwn,
      ownProperty_cons]
    by_cases hk : key = e.1
    · have hrest : ownProperty rest key = none := by
        apply ownProperty_eq_none
        intro x hx hxk
        apply hkeys.1
        rw [List.mem_map]
        exact ⟨x, hx, hxk.trans hk⟩
      rw [hrest, if_pos hk, if_pos hk.symm]
    · rw [if_neg hk, if_neg (fun h => hk h.symm)]

/-- An assignment on the last object of the heap changes that object only. -/
theorem assign_last {V : Type} (heap : Heap V) (c : JSObject V) (k : JSString) (v : V) :
    assign (heap ++ [c]) heap.length k v = heap ++ [{ c with own := setOwn c.own k v }] := by
  unfold assign
  induction heap with
  | nil => rfl
  | cons o rest ih =>
    simp only [List.cons_append, List.length_cons, List.modify_succ_cons]
    rw [ih]

/-- The assignments of `extend` change the clone only. -/
theorem foldl_assign_last {V : Type} (heap : Heap V) (ext : List (JSString × V)) :
    ∀ c : JSObject V,
      ext.foldl (fun h kv => assign h heap.length kv.1 kv.2) (heap ++ [c]) =
        heap ++ [{ c with own := ext.foldl (fun acc kv => setOwn acc kv.1 kv.2) c.own }] := by
  induction ext with
  | nil => intro c; rfl
  | cons e rest ih =>
    intro c
    rw [List.foldl_cons, assign_last, ih]
    rfl

/-- In a well-formed heap a property read does not depend on the number of objects it
may go through, once that number exceeds the address. -/
theorem getProperty_fuel {V : Type} (heap : Heap V) (hwf : heap.wellFormed)
    (key : JSString) :
    ∀ (r n m : Nat), r < n → r < m → getProperty heap n r key = getProperty heap m r key := by
  intro r
  induction r using Nat.strong_induction_on with
  | _ r ih =>
    intro n m hn hm
    obtain ⟨n2, rfl⟩ : ∃ n2, n = n2 + 1 := ⟨n - 1, by omega⟩
    obtain ⟨m2, rfl⟩ : ∃ m2, m = m2 + 1 := ⟨m - 1, by omega⟩
    unfold getProperty
    cases hget : heap[r]? with
    | none => rfl
    | some o =>
      simp only []
      cases ownProperty o.own key with
      | some v => rfl
      | none =>
        simp only []
        cases hp : o.proto with
        | none => rfl
        | some p =>
          simp only []
          have hlt : p < r := hwf r o p hget hp
          exact ih p hlt n2 m2 (by omega) (by omega)

/-- In a well-formed heap a property read of an object is not changed by objects
allocated after it. -/
theorem getProperty_append {V : Type} (heap extra : Heap V) (hwf : heap.wellFormed)
    (key : JSString) :
    ∀ (n r : Nat), r < heap.length →
      getProperty (heap ++ extra) n r key = getProperty heap n r key := by
  intro n
  induction n with
  | zero => intro r _; rfl
  | succ n ih =>
    intro r hr
    unfold getProperty
    rw [List.getElem?_append_left hr]
    cases hget : heap[r]? with
    | none => rfl
    | some o =>
      simp only []
      cases ownProperty o.own key with
      | some v => rfl
      | none =>
        simp only []
        cases hp : o.proto with
        | none => rfl
        | some p =>
          simp only []
          have hlt : p < r := hwf r o p hget hp
          exact ih p (by omega)

/-- A heap that holds one object without prototype is well-formed. -/
theorem wellFormed_singleton {V : Type} (o : JSObject V) (h : o.proto = none) :
    Heap.wellFormed [o] := by
  intro r o2 p hget hp
  cases r with
  | zero =>
    simp only [List.getElem?_cons_zero, Option.some.injEq] at hget
    rw [← hget, h] at hp
    exact Option.noConfusion hp
  | succ r => simp at hget

/-- Claim C20. For every base definition `B` (an object of a well-formed heap) and every
extension record `E` (with one value for a key), `B.extend(E)` yields a new object whose
value for each property present in `E` is the value in `E`, and whose value for every
other property is the value read on `B`; `B` and every other object of the heap are left
unchanged, and so are the values read on them. -/
theorem extend_spec {V : Type} (heap : Heap V) (self : Nat) (ext : List (JSString × V))
    (hwf : heap.wellFormed) (hself : self < heap.length)
    (hkeys : (ext.map (fun kv => kv.1)).Nodup) :
    (extend heap self ext).2 = heap.length ∧
    (∀ key, getProp (extend heap self ext).1 (extend heap self ext).2 key =
      match ownProperty ext key with
      | some v => some v
      | none => getProp heap self key) ∧
    (∀ r, r < heap.length → (extend heap self ext).1[r]? = heap[r]?) ∧
    (∀ r key, r < heap.length → getProp (extend heap self ext).1 r key = getProp heap r key) ∧
    (extend heap self ext).1.wellFormed := by
  have hheap : (extend heap self ext).1 = heap ++
      [{ proto := some self,
         own := ext.foldl (fun acc kv => setOwn acc kv.1 kv.2) [] }] := by
    unfold extend objectCreate
    simp only []
    rw [foldl_assign_last]
  have hwf2 : (extend heap self ext).1.wellFormed := by
    rw [hheap]
    intro r o p hget hp
    rcases Nat.lt_or_ge r heap.length with hr | hr
    · rw [List.getElem?_append_left hr] at hget
      exact hwf r o p hget hp
    · rcases Nat.eq_or_lt_of_le hr with hr2 | hr2
      · rw [← hr2, List.getElem?_append_right (Nat.le_refl _)] at hget
        simp only [Nat.sub_self, List.getElem?_cons_zero, Option.some.injEq] at hget
        rw [← hget] at hp
        simp only [Option.some.injEq] at hp
        omega
      · rw [List.getElem?_eq_none (by simp; omega)] at hget
        exact Option.noConfusion hget
  refine ⟨rfl, ?_, ?_, ?_, hwf2⟩
  · intro key
    show getProp (extend heap self ext).1 heap.length key = _
    unfold getProp
    rw [hheap]
    unfold getProperty
    rw [List.getElem?_append_right (Nat.le_refl _)]
    simp only [Nat.sub_self, List.getElem?_cons_zero]
    rw [ownProperty_foldl_setOwn ext [] key hkeys]
    cases ownProperty ext key with
    | some v => rfl
    | none =>
      simp only []
      have hnil : ownProperty ([] : List (JSString × V)) key = none := rfl
      rw [hnil]
      simp only []
      rw [getProperty_append heap _ hwf key heap.length self hself]
      exact getProperty_fuel heap hwf key self heap.length (self + 1) hself (by omega)
  · intro r hr
    rw [hheap, List.getElem?_append_left hr]
  · intro r key hr
    unfold getProp
    rw [hheap]
    exact getProperty_append heap _ hwf key (r + 1) r hr

/-- The base object extended as in `PropertyHandler.js`: `nargs` and `prop` are read from
the extension, `postLogin` from the base, and the base still reads `nargs` as before. -/
theorem extend_spec_witness :
    Heap.wellFormed [baseObject] ∧ 0 < [baseObject].length ∧
    (propertyExtension.map (fun kv => kv.1)).Nodup ∧
    getProp (extend [baseObject] 0 propertyExtension).1
      (extend [baseObject] 0 propertyExtension).2 "nargs".toList = some "1".toList ∧
    getProp (extend [baseObject] 0 propertyExtension).1
      (extend [baseObject] 0 propertyExtension).2 "postLogin".toList = some "true".toList ∧
    getProp (extend [baseObject] 0 propertyExtension).1 0 "nargs".toList = some "0".toList :=
  ⟨wellFormed_singleton baseObject rfl, by decide, by decide,
   ((extend_spec [baseObject] 0 propertyExtension (wellFormed_singleton baseObject rfl)
      (by decide) (by decide)).2.1 "nargs".toList).trans (by decide),
   by decide, by decide⟩

/-! ## Theorems: ownership of edited entities -/

/-- A save of `@set.perform` is a save of an entity that the player owns. -/
theorem setPerform_save (strings : Strings) (cstrings : CommandStrings)
    (db : List MUDObject) (conn : Conn) (player : MUDObject) (objectName flagName : JSString)
    (before after : MUDObject)
    (h : Emit.save before after ∈ setPerform strings cstrings db conn player objectName
      flagName) :
    before.ownerId = some player.id := by
  unfold setPerform at h
  split at h
  · rename_i object _
    by_cases ho : object.ownerId = some player.id
    · rw [if_pos ho] at h
      simp only [] at h
      split_ifs at h
      · simp only [List.mem_cons, Emit.save.injEq, List.mem_singleton, reduceCtorEq,
          or_false, List.not_mem_nil] at h
        rw [h.1]; exact ho
      · simp only [List.mem_cons, Emit.save.injEq, List.mem_singleton, reduceCtorEq,
          or_false, List.not_mem_nil] at h
        rw [h.1]; exact ho
    · rw [if_neg ho] at h
      simp at h
  · simp at h
  · simp at h

/-- A save of `@set.validate` followed by `@set.perform` is a save of an entity that the
player owns. -/
theorem setValidate_save (strings : Strings) (cstrings : CommandStrings)
    (db : List MUDObject) (conn : Conn) (player : MUDObject) (argsArr : List JSString)
    (before after : MUDObject)
    (h : Emit.save before after ∈ setValidate strings cstrings db conn player argsArr) :
    before.ownerId = some player.id := by
  unfold setValidate at h
  split at h
  · split at h
    · simp only [] at h
      split_ifs at h
      · exact setPerform_save strings cstrings db conn player _ _ before after h
      · simp at h
    · simp at h
  · simp at h

/-- A save of `linkDirection` is the save of the unlinked exit it was given, with the
player as its new owner. -/
theorem linkDirection_save (cstrings : CommandStrings) (idOfString : JSString → Option Int)
    (db : List MUDObject) (conn : Conn) (player passedObject : MUDObject)
    (passedRoomID : JSString) (before after : MUDObject)
    (h : Emit.save before after ∈ linkDirection cstrings idOfString db conn player
      passedObject passedRoomID) :
    before = passedObject ∧ before.targetId = none ∧ after.ownerId = some player.id ∧
    after.targetId ≠ none := by
  unfold linkDirection at h
  by_cases ht : passedObject.targetId = none
  · rw [if_pos ht] at h
    split at h
    · simp at h
    · split_ifs at h
      · simp only [List.mem_cons, Emit.save.injEq, List.mem_singleton, reduceCtorEq,
          or_false, List.not_mem_nil] at h
        obtain ⟨h1, h2⟩ := h
        rw [h1, h2]
        exact ⟨rfl, ht, rfl, by simp⟩
      · simp at h
  · rw [if_neg ht] at h
    simp at h

/-- A save of `linkThing` is a save of an entity that the player owns. -/
theorem linkThing_save (cstrings : CommandStrings) (idOfString : JSString → Option Int)
    (db : List MUDObject) (conn : Conn) (player passedObject : MUDObject)
    (passedRoomID : JSString) (before after : MUDObject)
    (h : Emit.save before after ∈ linkThing cstrings idOfString db conn player
      passedObject passedRoomID) :
    before.ownerId = some player.id := by
  unfold linkThing at h
  by_cases ho : passedObject.ownerId = some player.id
  · rw [if_pos ho] at h
    split at h
    · simp at h
    · split_ifs at h
      · simp only [List.mem_cons, Emit.save.injEq, List.mem_singleton, reduceCtorEq,
          or_false, List.not_mem_nil] at h
        rw [h.1]; exact ho
      · simp at h
  · rw [if_neg ho] at h
    simp at h

/-- A save of `linkRoom` is a save of an entity that the player owns. -/
theorem linkRoom_save (strings : Strings) (cstrings : CommandStrings)
    (idOfString : JSString → Option Int) (db : List MUDObject) (conn : Conn)
    (player passedObject : MUDObject) (passedRoomID : JSString) (before after : MUDObject)
    (h : Emit.save before after ∈ linkRoom strings cstrings idOfString db conn player
      passedObject passedRoomID) :
    before.ownerId = some player.id := by
  unfold linkRoom at h
  by_cases ho : passedObject.ownerId ≠ some player.id
  · rw [if_pos ho] at h
    simp at h
  · rw [if_neg ho] at h
    have ho2 : passedObject.ownerId = some player.id := not_not.mp ho
    by_cases hhome : passedRoomID ≠ "here".toList ∧ passedRoomID = "home".toList
    · rw [if_pos hhome] at h
      split at h
      · simp at h
      · split_ifs at h
        · exact setValidate_save strings cstrings db conn player _ before after h
        · exact setValidate_save strings cstrings db conn player _ before after h
    · rw [if_neg hhome] at h
      generalize (if passedRoomID = "here".toList then player.locationId
        else idOfString passedRoomID) = rid at h
      split at h
      · simp at h
      · split_ifs at h
        · simp only [List.mem_cons, Emit.save.injEq, List.mem_singleton, reduceCtorEq,
            or_false, List.not_mem_nil] at h
          rw [h.1]; exact ho2
        · simp at h

/-- A save of `updatePropertyInternal` is a save of an entity that the player owns. -/
theorem updatePropertyInternal_save (strings : Strings) (cstrings : CommandStrings)
    (propertyLabel : Property → JSString) (conn : Conn) (me : MUDObject)
    (targets : List (Option MUDObject)) (propertyName : Property) (value : JSString)
    (before after : MUDObject)
    (h : Emit.save before after ∈ updatePropertyInternal strings cstrings propertyLabel conn
      me targets propertyName value) :
    before.ownerId = some me.id := by
  unfold updatePropertyInternal at h
  split at h
  · simp at h
  · rename_i objs _
    simp only [] at h
    split_ifs at h
    · simp at h
    · simp at h
    · split at h
      · simp at h
      · rename_i target rest hf
        simp only [List.mem_cons, Emit.save.injEq, List.mem_singleton, reduceCtorEq,
          or_false, List.not_mem_nil] at h
        have hmem : target ∈ objs.filter (fun obj => decide (obj.ownerId = some me.id)) := by
          rw [hf]; exact List.mem_cons_self _ _
        have := (List.mem_filter.mp hmem).2
        rw [h.1]
        simpa using this

/-- Claim C11 as stated fails: `alice` does not own the unlinked exit `north` (its owner is
`bob`), and her `@link north=12`, to a room of her own, sets the `targetId` of the exit and
makes her its owner. -/
theorem link_exit_by_non_owner :
    northExit.ownerId ≠ some alice.id ∧
    Execution.run asciiLower substringLike sampleStrings sampleCommandStrings sampleLabel
        decimalId sampleWorld 3 alice (Execution.link "north".toList "12".toList) =
      [Emit.save northExit { northExit with targetId := some 12, ownerId := some 1 },
       Emit.send 3 sampleCommandStrings.linked Values.none] := by
  decide

/-- Claim C11, amended. For every execution of a property setter, of `@set`, of `@link` or
of `@unlink` that saves a change of an entity (its name, its description, one of its four
messages, its flags or its `targetId`), the acting player is the owner of that entity when
it is changed, with one exception: `@link` on an exit whose `targetId` is null needs no
ownership of the exit, and makes the acting player its owner. -/
theorem editing_saves_owned (toLowerCase : JSString → JSString)
    (like : JSString → JSString → Bool) (strings : Strings) (cstrings : CommandStrings)
    (propertyLabel : Property → JSString) (idOfString : JSString → Option Int)
    (db : List MUDObject) (conn : Conn) (player : MUDObject) (e : Execution)
    (before after : MUDObject)
    (h : Emit.save before after ∈ Execution.run toLowerCase like strings cstrings
      propertyLabel idOfString db conn player e) :
    before.ownerId = some player.id ∨
    ((∃ objectName roomID, e = Execution.link objectName roomID) ∧
      before.type = MUDType.EXIT ∧ before.targetId = none ∧
      after.ownerId = some player.id) := by
  cases e with
  | property propertyName arg =>
    left
    simp only [Execution.run, propertyPerform, updateProperty] at h
    rw [findPotentialMUDObjects_callback] at h
    exact updatePropertyInternal_save strings cstrings propertyLabel conn player _ _ _
      before after h
  | set objectName flagName =>
    left
    exact setPerform_save strings cstrings db conn player objectName flagName before after h
  | link objectName roomID =>
    simp only [Execution.run, linkPerform] at h
    split_ifs at h with hroom
    · simp at h
    · rw [findPotentialMUDObjects_callback] at h
      generalize findPotentialMUDObjects toLowerCase like db player objectName id true true
        none = objectArr at h
      split at h
      · simp at h
      · rename_i object
        by_cases h1 : object.type = MUDType.EXIT
        · rw [if_pos h1] at h
          obtain ⟨hb, ht, ha, -⟩ := linkDirection_save cstrings idOfString db conn player
            object roomID before after h
          right
          exact ⟨⟨objectName, roomID, rfl⟩, by rw [hb]; exact h1, ht, ha⟩
        · rw [if_neg h1] at h
          left
          split_ifs at h
          · exact linkThing_save cstrings idOfString db conn player object roomID before
              after h
          · exact linkRoom_save strings cstrings idOfString db conn player object roomID
              before after h
          · simp at h
      · simp at h
      · simp at h
  | unlink objectName =>
    left
    simp only [Execution.run, unlinkPerform] at h
    rw [findPotentialMUDObjects_callback] at h
    generalize findPotentialMUDObjects toLowerCase like db player objectName id false true
      none = objArr at h
    split at h
    · simp at h
    · split at h
      · rename_i object _
        split_ifs at h with ho
        · simp only [List.mem_cons, Emit.save.injEq, List.mem_singleton, reduceCtorEq,
            or_false, List.not_mem_nil] at h
          rw [h.1]; exact ho
        · simp at h
      · simp at h
      · simp at h

/-- The owner `bob` of the room `hall` sets its description with `hall=A large hall.`. -/
theorem editing_saves_owned_witness :
    Emit.save hall (setProperty hall Property.description "A large hall.".toList) ∈
      Execution.run asciiLower substringLike sampleStrings sampleCommandStrings sampleLabel
        decimalId sampleWorld 4 bob
        (Execution.property Property.description "hall=A large hall.".toList) ∧
    (hall.ownerId = some bob.id ∨
      ((∃ objectName roomID, Execution.property Property.description
          "hall=A large hall.".toList = Execution.link objectName roomID) ∧
        hall.type = MUDType.EXIT ∧ hall.targetId = none ∧
        (setProperty hall Property.description "A large hall.".toList).ownerId
          = some bob.id)) :=
  ⟨by decide,
   editing_saves_owned asciiLower substringLike sampleStrings sampleCommandStrings
     sampleLabel decimalId sampleWorld 4 bob
     (Execution.property Property.description "hall=A large hall.".toList) hall
     (setProperty hall Property.description "A large hall.".toList) (by decide)⟩

/-! ## Theorems: linking an exit -/

/-- The lookup of a row by id after a save of a row with that id finds the saved row. -/
theorem findById_saveObject (db : List MUDObject) (roomID : Option Int) (R R2 : MUDObject)
    (hid : R2.id = R.id) (h : findById db roomID = some R) :
    findById (saveObject db R2) roomID = some R2 := by
  cases roomID with
  | none => exact Option.noConfusion h
  | some n =>
    unfold findById at h ⊢
    simp only [] at h ⊢
    have hn : R.id = n := by
      have := List.find?_some h
      simpa using this
    unfold saveObject
    rw [List.find?_map]
    have hcomp : ((fun o : MUDObject => decide (o.id = n)) ∘
        fun o : MUDObject => if o.id = R2.id then R2 else o) =
        fun o : MUDObject => decide (o.id = n) := by
      funext o
      simp only [Function.comp]
      by_cases ho : o.id = R2.id
      · simp [ho]
      · simp [ho]
    rw [hcomp, h]
    simp only [Option.map_some', Option.some.injEq]
    rw [if_pos hid.symm]

/-- Claim C13. For every unlinked exit, every room `R` that the attempt names and every
player `S` who does not own `R`: while the `link_ok` flag of `R` is clear, `linkDirection`
by `S` sends "permission denied" and saves nothing, so the exit's `targetId` and `ownerId`
are unchanged; once `R` has been saved with `link_ok` set, the same attempt saves the exit
with `targetId` set to the id of `R` (and `S` as owner) and sends "linked". -/
theorem linkDirection_link_ok (cstrings : CommandStrings)
    (idOfString : JSString → Option Int) (db : List MUDObject) (conn : Conn)
    (S exit R : MUDObject) (passedRoomID : JSString)
    (hexit : exit.targetId = none)
    (hroom : findById db (resolveRoomID idOfString S passedRoomID) = some R)
    (hown : R.ownerId ≠ some S.id) (hclear : R.canLink = 0) :
    linkDirection cstrings idOfString db conn S exit passedRoomID =
      [Emit.send conn cstrings.permissionDenied Values.none] ∧
    persist db (linkDirection cstrings idOfString db conn S exit passedRoomID) = db ∧
    linkDirection cstrings idOfString (saveObject db (R.setFlag FLAGS.link_ok)) conn S exit
        passedRoomID =
      [Emit.save exit { exit with targetId := some R.id, ownerId := some S.id },
       Emit.send conn cstrings.linked Values.none] := by
  have hdeny : linkDirection cstrings idOfString db conn S exit passedRoomID =
      [Emit.send conn cstrings.permissionDenied Values.none] := by
    unfold linkDirection
    rw [if_pos hexit, hroom]
    simp only []
    have : ¬ isLinkable R S = true := by
      unfold isLinkable
      rw [if_neg hown, if_neg (by rw [hclear]; exact fun h => h rfl)]
      decide
    rw [if_neg this]
  refine ⟨hdeny, ?_, ?_⟩
  · rw [hdeny]; rfl
  · have hfind := findById_saveObject db (resolveRoomID idOfString S passedRoomID) R
      (R.setFlag FLAGS.link_ok) rfl hroom
    unfold linkDirection
    rw [if_pos hexit, hfind]
    simp only []
    have hlink : isLinkable (R.setFlag FLAGS.link_ok) S = true := by
      unfold isLinkable
      have h1 : ¬ (R.setFlag FLAGS.link_ok).ownerId = some S.id := hown
      have h2 : (R.setFlag FLAGS.link_ok).canLink ≠ 0 := by
        show bitAnd (bitOr R.flags FLAGS.link_ok) FLAGS.link_ok ≠ 0
        rw [bitAnd_bitOr_self]
        decide
      rw [if_neg h1, if_pos h2]
    rw [if_pos hlink]
    rfl

/-- The exit `north` in `hall`, the room `yard` named by its id, and `alice`, who does not
own `yard`: denied while `link_ok` is clear on `yard`, linked to room 11 once it is set. -/
theorem linkDirection_link_ok_witness :
    northExit.targetId = none ∧
    findById sampleWorld (resolveRoomID decimalId alice "11".toList) = some yard ∧
    yard.ownerId ≠ some alice.id ∧ yard.canLink = 0 ∧
    linkDirection sampleCommandStrings decimalId sampleWorld 3 alice northExit "11".toList =
      [Emit.send 3 sampleCommandStrings.permissionDenied Values.none] ∧
    linkDirection sampleCommandStrings decimalId
        (saveObject sampleWorld (yard.setFlag FLAGS.link_ok)) 3 alice northExit "11".toList =
      [Emit.save northExit { northExit with targetId := some 11, ownerId := some 1 },
       Emit.send 3 sampleCommandStrings.linked Values.none] :=
  ⟨by decide, by decide, by decide, by decide,
   (linkDirection_link_ok sampleCommandStrings decimalId sampleWorld 3 alice northExit yard
      "11".toList (by decide) (by decide) (by decide) (by decide)).1,
   (linkDirection_link_ok sampleCommandStrings decimalId sampleWorld 3 alice northExit yard
      "11".toList (by decide) (by decide) (by decide) (by decide)).2.2⟩

/-- The owner of a room sets `link_ok` on it with `@set`: when the room is the only entity
of its name, the store afterwards is the store with the room saved with the flag set. -/
theorem setPerform_link_ok (strings : Strings) (cstrings : CommandStrings)
    (db : List MUDObject) (conn : Conn) (owner R : MUDObject)
    (hname : db.filter (fun o => decide (o.name = R.name)) = [R])
    (hown : R.ownerId = some owner.id) :
    persist db (setPerform strings cstrings db conn owner R.name "link_ok".toList) =
      saveObject db (R.setFlag FLAGS.link_ok) := by
  unfold setPerform
  rw [hname]
  simp only []
  rw [if_pos hown]
  have hidx : ¬ strIndexOf "link_ok".toList '!' > -1 := by decide
  rw [if_neg hidx]
  rfl

/-! ## Theorems: described candidates and the outcome of the resolver -/

/-- The narrowing keeps candidates only. -/
theorem narrowByDescription_subset (requireDescription : Bool) (objs : List MUDObject)
    (x : MUDObject) (hx : x ∈ narrowByDescription requireDescription objs) : x ∈ objs := by
  unfold narrowByDescription at hx
  by_cases h1 : requireDescription = true ∧ objs.length > 1
  · rw [if_pos h1] at hx
    by_cases h2 : (objs.filter (fun obj => obj.description.isSome)).length = 1
    · simp only [h2, if_true] at hx
      exact (List.mem_filter.mp hx).1
    · simp only [h2, if_false] at hx
      exact hx
  · rw [if_neg h1] at hx
    exact hx

/-- Claim C22. For every call of `findPotentialMUDObject` with `requireDescription` set to
`true` whose candidates are more than one: if the candidates with a non-null description
are exactly one, `d`, then the callback is called with `d` and no message is sent, whatever
the names of the candidates and the query. -/
theorem findPotentialMUDObject_prefers_described (toLowerCase : JSString → JSString)
    (like : JSString → JSString → Bool) (strings : Strings) (db : List MUDObject)
    (player : MUDObject) (name : JSString) (allowMe allowHere : Bool) (type : Option MUDType)
    (ambigMsg failMsg : Option JSString) (d : MUDObject)
    (hmany : 1 < (candidateRows toLowerCase like db player name allowMe allowHere type).length)
    (hone : (candidateRows toLowerCase like db player name allowMe allowHere type).filter
      (fun obj => obj.description.isSome) = [d]) :
    findPotentialMUDObject toLowerCase like strings db player name allowMe allowHere type
      ambigMsg failMsg true = Outcome.callback (some d) := by
  have hc : candidates toLowerCase like db player name allowMe allowHere type =
      (candidateRows toLowerCase like db player name allowMe allowHere type).map some := by
    rcases candidates_cases toLowerCase like db player name allowMe allowHere type with h | h
    · exact h
    · exfalso
      have hr : candidateRows toLowerCase like db player name allowMe allowHere type = [] := by
        unfold candidateRows; rw [h]; rfl
      rw [hr] at hmany
      exact absurd hmany (by decide)
  rw [findPotentialMUDObject_of_rows toLowerCase like strings db player name allowMe
    allowHere type ambigMsg failMsg true hc]
  generalize candidateRows toLowerCase like db player name allowMe allowHere type = objs
    at hmany hone
  have hn : narrowByDescription true objs = [d] := by
    unfold narrowByDescription
    rw [if_pos ⟨rfl, hmany⟩]
    simp only [hone, List.length_singleton, if_true]
  unfold resolveObjects
  rw [if_pos (by omega)]
  simp only [hn, List.length_singleton, if_true, List.head?_cons]

/-- Of the two things named `key` in the room, only `describedKey` has a description, and
it is the one passed to the callback. -/
theorem findPotentialMUDObject_prefers_described_witness :
    1 < (candidateRows asciiLower substringLike [alice, plainKey, describedKey] alice
        "key".toList true true none).length ∧
    (candidateRows asciiLower substringLike [alice, plainKey, describedKey] alice
        "key".toList true true none).filter (fun obj => obj.description.isSome)
      = [describedKey] ∧
    findPotentialMUDObject asciiLower substringLike sampleStrings
        [alice, plainKey, describedKey] alice "key".toList true true none none none true
      = Outcome.callback (some describedKey) :=
  ⟨by decide, by decide,
   findPotentialMUDObject_prefers_described asciiLower substringLike sampleStrings
     [alice, plainKey, describedKey] alice "key".toList true true none none none
     describedKey (by decide) (by decide)⟩

/-- Claim C29. For every call of `findPotentialMUDObject`, once the candidates are known
exactly one thing happens: the callback is called, once, with a member of the array that
`findPotentialMUDObjects` returned, and no message is sent; or the array is empty and the
not-found message is sent, and the callback is not called; or the array is not empty and
the ambiguity message is sent, and the callback is not called. -/
theorem findPotentialMUDObject_one_outcome (toLowerCase : JSString → JSString)
    (like : JSString → JSString → Bool) (strings : Strings) (db : List MUDObject)
    (player : MUDObject) (name : JSString) (allowMe allowHere : Bool) (type : Option MUDType)
    (ambigMsg failMsg : Option JSString) (requireDescription : Bool) :
    (∃ obj, obj ∈ candidates toLowerCase like db player name allowMe allowHere type ∧
      findPotentialMUDObject toLowerCase like strings db player name allowMe allowHere type
        ambigMsg failMsg requireDescription = Outcome.callback obj) ∨
    (candidates toLowerCase like db player name allowMe allowHere type = [] ∧
      findPotentialMUDObject toLowerCase like strings db player name allowMe allowHere type
        ambigMsg failMsg requireDescription
        = Outcome.sendMessage (orDefault failMsg strings.dontSeeThat)) ∨
    (candidates toLowerCase like db player name allowMe allowHere type ≠ [] ∧
      findPotentialMUDObject toLowerCase like strings db player name allowMe allowHere type
        ambigMsg failMsg requireDescription
        = Outcome.sendMessage (orDefault ambigMsg strings.ambigSet)) := by
  rcases candidates_cases toLowerCase like db player name allowMe allowHere type with hc | hc
  · rw [findPotentialMUDObject_of_rows toLowerCase like strings db player name allowMe
      allowHere type ambigMsg failMsg requireDescription hc, hc]
    generalize candidateRows toLowerCase like db player name allowMe allowHere type = objs
    by_cases hlen : objs.length > 0
    · by_cases hone : (narrowByDescription requireDescription objs).length = 1
      · left
        obtain ⟨x, hn⟩ := List.length_eq_one.mp hone
        have hx : x ∈ objs := narrowByDescription_subset requireDescription objs x
          (by rw [hn]; exact List.mem_singleton_self x)
        refine ⟨some x, List.mem_map.mpr ⟨x, hx, rfl⟩, ?_⟩
        unfold resolveObjects
        rw [if_pos hlen]
        simp only [hn, List.length_singleton, if_true, List.head?_cons]
      · have hmany : 1 < (narrowByDescription requireDescription objs).length := by
          rcases narrowByDescription_cases requireDescription objs with h | h
          · rw [h] at hone ⊢; omega
          · exact absurd h hone
        rw [resolveObjects_many toLowerCase strings name ambigMsg failMsg requireDescription
          objs hmany]
        cases hf : (narrowByDescription requireDescription objs).filter
            (exactName toLowerCase name) with
        | nil =>
          right; right
          refine ⟨?_, rfl⟩
          intro h
          rw [List.map_eq_nil_iff] at h
          rw [h] at hlen
          exact absurd hlen (by decide)
        | cons c cs =>
          cases cs with
          | nil =>
            left
            have hcm : c ∈ (narrowByDescription requireDescription objs).filter
                (exactName toLowerCase name) := by
              rw [hf]; exact List.mem_singleton_self c
            exact ⟨some c, List.mem_map.mpr ⟨c, narrowByDescription_subset requireDescription
              objs c (List.mem_filter.mp hcm).1, rfl⟩, rfl⟩
          | cons e es =>
            right; right
            refine ⟨?_, rfl⟩
            intro h
            rw [List.map_eq_nil_iff] at h
            rw [h] at hlen
            exact absurd hlen (by decide)
    · right; left
      have hnil : objs = [] := List.length_eq_zero.mp (by omega)
      subst hnil
      exact ⟨rfl, rfl⟩
  · left
    refine ⟨none, by rw [hc]; exact List.mem_singleton_self _, ?_⟩
    unfold findPotentialMUDObject
    rw [findPotentialMUDObjects_callback]
    unfold candidates at hc
    rw [hc]
    rfl

/-! ## Theorems: flags do not interfere -/

/-- Setting the bits of `b` does not change the bits of `c` when the two share none:
`(f | b) & c` is `f & c`. -/
theorem bitAnd_bitOr_other (f b c : Int) (h : Int.land (toInt32 b) (toInt32 c) = 0) :
    bitAnd (bitOr f b) c = bitAnd f c := by
  unfold bitAnd bitOr
  rw [toInt32_of_inInt32 _ (inInt32_lor _ _ (toInt32_inInt32 f) (toInt32_inInt32 b))]
  apply int_eq_of_testBit_eq
  intro i
  have hz : Int.testBit 0 i = false := Nat.zero_testBit i
  have hi : ((toInt32 b).testBit i && (toInt32 c).testBit i) = false := by
    rw [← Int.testBit_land, h, hz]
  rw [Int.testBit_land, Int.testBit_lor, Int.testBit_land]
  revert hi
  cases (toInt32 f).testBit i <;> cases (toInt32 b).testBit i <;>
    cases (toInt32 c).testBit i <;> decide

/-- Clearing the bits of `b` does not change the bits of `c` when the two share none:
`(f & ~b) & c` is `f & c`. -/
theorem bitAnd_bitNot_other (f b c : Int) (h : Int.land (toInt32 b) (toInt32 c) = 0) :
    bitAnd (bitAnd f (bitNot b)) c = bitAnd f c := by
  unfold bitAnd bitNot
  rw [toInt32_of_inInt32 (Int.lnot (toInt32 b)) (inInt32_lnot _ (toInt32_inInt32 b)),
    toInt32_of_inInt32 _ (inInt32_land _ _ (toInt32_inInt32 f)
      (inInt32_lnot _ (toInt32_inInt32 b)))]
  apply int_eq_of_testBit_eq
  intro i
  have hz : Int.testBit 0 i = false := Nat.zero_testBit i
  have hi : ((toInt32 b).testBit i && (toInt32 c).testBit i) = false := by
    rw [← Int.testBit_land, h, hz]
  rw [Int.testBit_land, Int.testBit_land, Int.testBit_lnot, Int.testBit_land]
  revert hi
  cases (toInt32 f).testBit i <;> cases (toInt32 b).testBit i <;>
    cases (toInt32 c).testBit i <;> decide

/-- Claim C30. For every entity, with any integer `flags` value, and every two distinct
flag names `f` and `g` among `link_ok`, `anti_lock` and `temple`: `getFlag(g)` has the same
value after `setFlag(FLAGS[f])` and after `resetFlag(FLAGS[f])` as before. -/
theorem getFlag_other_flag (o : MUDObject) (f g : JSString)
    (hf : f = "link_ok".toList ∨ f = "anti_lock".toList ∨ f = "temple".toList)
    (hg : g = "link_ok".toList ∨ g = "anti_lock".toList ∨ g = "temple".toList)
    (hfg : f ≠ g) :
    (o.setFlag (operand (FLAGS.lookup f))).getFlag g = o.getFlag g ∧
    (o.resetFlag (operand (FLAGS.lookup f))).getFlag g = o.getFlag g := by
  have hdisj : Int.land (toInt32 (operand (FLAGS.lookup f)))
      (toInt32 (operand (FLAGS.lookup g))) = 0 := by
    rcases hf with h1 | h1 | h1 <;> rcases hg with h2 | h2 | h2 <;>
      first
      | exact absurd (h1.trans h2.symm) hfg
      | (rw [h1, h2]; decide)
  constructor
  · show bitAnd (bitOr o.flags (operand (FLAGS.lookup f))) (operand (FLAGS.lookup g)) =
      bitAnd o.flags (operand (FLAGS.lookup g))
    exact bitAnd_bitOr_other _ _ _ hdisj
  · show bitAnd (bitAnd o.flags (bitNot (operand (FLAGS.lookup f))))
      (operand (FLAGS.lookup g)) = bitAnd o.flags (operand (FLAGS.lookup g))
    exact bitAnd_bitNot_other _ _ _ hdisj

/-- The flag `temple` set and reset on `antiDoor`, whose flags are `2`: `anti_lock`
stays set. -/
theorem getFlag_other_flag_witness :
    ("temple".toList = "link_ok".toList ∨ "temple".toList = "anti_lock".toList ∨
      "temple".toList = "temple".toList) ∧
    ("anti_lock".toList = "link_ok".toList ∨ "anti_lock".toList = "anti_lock".toList ∨
      "anti_lock".toList = "temple".toList) ∧
    "temple".toList ≠ "anti_lock".toList ∧
    antiDoor.getFlag "anti_lock".toList = 2 ∧
    (antiDoor.setFlag (operand (FLAGS.lookup "temple".toList))).flags = 6 ∧
    (antiDoor.setFlag (operand (FLAGS.lookup "temple".toList))).getFlag "anti_lock".toList
      = antiDoor.getFlag "anti_lock".toList ∧
    (antiDoor.resetFlag (operand (FLAGS.lookup "temple".toList))).getFlag "anti_lock".toList
      = antiDoor.getFlag "anti_lock".toList :=
  ⟨Or.inr (Or.inr rfl), Or.inr (Or.inl rfl), by decide, by decide, by decide,
   (getFlag_other_flag antiDoor "temple".toList "anti_lock".toList (Or.inr (Or.inr rfl))
     (Or.inr (Or.inl rfl)) (by decide)).1,
   (getFlag_other_flag antiDoor "temple".toList "anti_lock".toList (Or.inr (Or.inr rfl))
     (Or.inr (Or.inl rfl)) (by decide)).2⟩

/-! ## Theorems: property setters -/

/-- The names of a list of entities are all the same when `sameName` says so. -/
theorem sameName_iff (ftargets : List MUDObject) :
    sameName ftargets = true ↔ ∀ a ∈ ftargets, ∀ b ∈ ftargets, a.name = b.name := by
  cases ftargets with
  | nil => simp [sameName]
  | cons first rest =>
    simp only [sameName, List.all_eq_true, decide_eq_true_eq, List.mem_cons]
    constructor
    · intro h a ha b hb
      have hfa : first.name = a.name := by
        rcases ha with rfl | ha
        · rfl
        · exact h a ha
      have hfb : first.name = b.name := by
        rcases hb with rfl | hb
        · rfl
        · exact h b hb
      exact hfa.symm.trans hfb
    · intro h x hx
      exact h first (Or.inl rfl) x (Or.inr hx)

/-- When the room of the player is in the store, the array given to the callback of
`findPotentialMUDObjects` holds entities only. -/
theorem candidates_of_location (toLowerCase : JSString → JSString)
    (like : JSString → JSString → Bool) (db : List MUDObject) (player : MUDObject)
    (name : JSString) (allowMe allowHere : Bool) (type : Option MUDType)
    (hloc : (getLocation db player).isSome = true) :
    candidates toLowerCase like db player name allowMe allowHere type =
      (candidateRows toLowerCase like db player name allowMe allowHere type).map some := by
  unfold candidateRows candidates findPotentialMUDObjects
  split_ifs
  · rfl
  · cases hl : getLocation db player with
    | none => rw [hl] at hloc; exact absurd hloc (by decide)
    | some loc => rfl
  · cases type with
    | none => simp only [id, List.filterMap_map, Function.comp_def, List.filterMap_some]
    | some t => simp only [id, List.filterMap_map, Function.comp_def, List.filterMap_some]

/-- The actions of `updateProperty` by the candidates that the player owns. -/
theorem updateProperty_eq (toLowerCase : JSString → JSString)
    (like : JSString → JSString → Bool) (strings : Strings) (cstrings : CommandStrings)
    (propertyLabel : Property → JSString) (db : List MUDObject) (conn : Conn)
    (me : MUDObject) (targetName : JSString) (propertyName : Property) (value : JSString)
    (hloc : (getLocation db me).isSome = true) :
    updateProperty toLowerCase like strings cstrings propertyLabel db conn me targetName
      propertyName value =
    match ownedCandidates toLowerCase like db me targetName with
    | [] => [Emit.send conn cstrings.permissionDenied Values.none]
    | target :: rest =>
      if rest ≠ [] ∧ sameName (target :: rest) = true then
        [Emit.send conn strings.ambigSet Values.none]
      else
        [Emit.save target (setProperty target propertyName value),
         Emit.send conn cstrings.set
           (Values.fields [("property".toList, propertyLabel propertyName)])] := by
  have hc := candidates_of_location toLowerCase like db me targetName true true none hloc
  unfold updateProperty
  rw [findPotentialMUDObjects_callback]
  unfold candidates at hc
  rw [hc]
  unfold updatePropertyInternal
  rw [allObjects_map_some]
  unfold ownedCandidates
  simp only []
  cases hf : (candidateRows toLowerCase like db me targetName true true none).filter
      (fun obj => decide (obj.ownerId = some me.id)) with
  | nil => simp
  | cons target rest =>
    cases rest with
    | nil => simp
    | cons r rs => simp


/-- Claim C25 as stated fails: `alice` owns both `red key` and `blue key`, the two
candidates of her `@describe key=shiny`; no ambiguity message is sent, and the description
of `red key`, the first of the two, is changed. -/
theorem updateProperty_differing_names_not_ambiguous :
    candidates asciiLower substringLike keyWorld alice "key".toList true true none
      = [some aliceRedKey, some aliceBlueKey] ∧
    aliceRedKey.ownerId = some alice.id ∧ aliceBlueKey.ownerId = some alice.id ∧
    aliceRedKey ≠ aliceBlueKey ∧
    propertyPerform asciiLower substringLike sampleStrings sampleCommandStrings sampleLabel
        keyWorld 3 alice Property.description "key=shiny".toList
      = [Emit.save aliceRedKey { aliceRedKey with description := some "shiny".toList },
         Emit.send 3 sampleCommandStrings.set
           (Values.fields [("property".toList, "Description".toList)])] ∧
    persist keyWorld (propertyPerform asciiLower substringLike sampleStrings
        sampleCommandStrings sampleLabel keyWorld 3 alice Property.description
        "key=shiny".toList)
      = [hall, alice, { aliceRedKey with description := some "shiny".toList },
         aliceBlueKey] := by
  decide

/-- Claim C25, amended. For every property-setting command run by a player whose room is
in the store, with `owned` the candidates for the target name that the player owns:
if `owned` is empty, no entity is modified and permission denied is sent; if `owned` has
more than one entity and they all have the same name, no entity is modified and the
ambiguity message is sent; in every other case (one owned candidate, or several that do
not all have the same name) the first owned candidate is the one entity modified. An
entity is so changed only when the player owns it. -/
theorem updateProperty_owned_unambiguous (toLowerCase : JSString → JSString)
    (like : JSString → JSString → Bool) (strings : Strings) (cstrings : CommandStrings)
    (propertyLabel : Property → JSString) (db : List MUDObject) (conn : Conn)
    (me : MUDObject) (targetName : JSString) (propertyName : Property) (value : JSString)
    (hloc : (getLocation db me).isSome = true) :
    (ownedCandidates toLowerCase like db me targetName = [] →
      updateProperty toLowerCase like strings cstrings propertyLabel db conn me targetName
        propertyName value = [Emit.send conn cstrings.permissionDenied Values.none]) ∧
    (1 < (ownedCandidates toLowerCase like db me targetName).length →
      (∀ a ∈ ownedCandidates toLowerCase like db me targetName,
        ∀ b ∈ ownedCandidates toLowerCase like db me targetName, a.name = b.name) →
      updateProperty toLowerCase like strings cstrings propertyLabel db conn me targetName
        propertyName value = [Emit.send conn strings.ambigSet Values.none]) ∧
    (∀ target rest, ownedCandidates toLowerCase like db me targetName = target :: rest →
      (rest = [] ∨ ∃ a ∈ target :: rest, ∃ b ∈ target :: rest, a.name ≠ b.name) →
      target.ownerId = some me.id ∧
      updateProperty toLowerCase like strings cstrings propertyLabel db conn me targetName
        propertyName value =
        [Emit.save target (setProperty target propertyName value),
         Emit.send conn cstrings.set
           (Values.fields [("property".toList, propertyLabel propertyName)])]) := by
  rw [updateProperty_eq toLowerCase like strings cstrings propertyLabel db conn me targetName
    propertyName value hloc]
  refine ⟨fun h => by rw [h], fun hlen hsame => ?_, fun target rest h hcase => ?_⟩
  · have hs := (sameName_iff _).mpr hsame
    match hd : ownedCandidates toLowerCase like db me targetName, hlen, hs with
    | target :: r :: rs, _, hs =>
      simp only []
      rw [if_pos ⟨List.cons_ne_nil _ _, hs⟩]
  · have hown : target.ownerId = some me.id := by
      have hmem : target ∈ ownedCandidates toLowerCase like db me targetName := by
        rw [h]; exact List.mem_cons_self _ _
      unfold ownedCandidates at hmem
      simpa using (List.mem_filter.mp hmem).2
    refine ⟨hown, ?_⟩
    rw [h]
    simp only []
    rw [if_neg]
    rintro ⟨hne, hs⟩
    rcases hcase with hnil | ⟨a, ha, b, hb, hab⟩
    · exact hne hnil
    · exact hab ((sameName_iff _).mp hs a ha b hb)

/-- In the store `keyWorld`, where `alice` owns `red key` and `blue key`: her
`@describe blue=shiny` has one owned candidate, which is modified. -/
theorem updateProperty_owned_unambiguous_witness :
    (getLocation keyWorld alice).isSome = true ∧
    ownedCandidates asciiLower substringLike keyWorld alice "blue".toList
      = [aliceBlueKey] ∧
    aliceBlueKey.ownerId = some alice.id ∧
    updateProperty asciiLower substringLike sampleStrings sampleCommandStrings sampleLabel
        keyWorld 3 alice "blue".toList Property.description "shiny".toList
      = [Emit.save aliceBlueKey (setProperty aliceBlueKey Property.description
           "shiny".toList),
         Emit.send 3 sampleCommandStrings.set
           (Values.fields [("property".toList, sampleLabel Property.description)])] :=
  ⟨by decide, by decide,
   ((updateProperty_owned_unambiguous asciiLower substringLike sampleStrings
      sampleCommandStrings sampleLabel keyWorld 3 alice "blue".toList Property.description
      "shiny".toList (by decide)).2.2 aliceBlueKey [] (by decide) (Or.inl rfl)).1,
   ((updateProperty_owned_unambiguous asciiLower substringLike sampleStrings
      sampleCommandStrings sampleLabel keyWorld 3 alice "blue".toList Property.description
      "shiny".toList (by decide)).2.2 aliceBlueKey [] (by decide) (Or.inl rfl)).2⟩

/-! ## Theorems: `key=value` arguments -/

/-- The characters before the first occurrence of `c`. -/
theorem take_indexOf (c : Char) (s : JSString) :
    s.take (s.indexOf c) = s.takeWhile (fun d => decide (d ≠ c)) := by
  induction s with
  | nil => rfl
  | cons a rest ih =>
    by_cases h : a = c
    · subst h
      simp [List.indexOf_cons_eq]
    · rw [List.indexOf_cons_ne _ h, List.take_succ_cons, ih,
        List.takeWhile_cons_of_pos (by simpa using h)]

/-- The characters after the first occurrence of `c`. -/
theorem drop_indexOf_succ (c : Char) (s : JSString) :
    s.drop (s.indexOf c + 1) = (s.dropWhile (fun d => decide (d ≠ c))).drop 1 := by
  induction s with
  | nil => rfl
  | cons a rest ih =>
    by_cases h : a = c
    · subst h
      simp [List.indexOf_cons_eq]
    · rw [List.indexOf_cons_ne _ h, List.drop_succ_cons, ih,
        List.dropWhile_cons_of_pos (by simpa using h)]

/-- The sibling path: `PropertyHandler.perform` splits its argument on the first `=`. The
target name is the text before it and the value all of the text after it, both trimmed. -/
theorem propertyPerform_splits_first (toLowerCase : JSString → JSString)
    (like : JSString → JSString → Bool) (strings : Strings) (cstrings : CommandStrings)
    (propertyLabel : Property → JSString) (db : List MUDObject) (conn : Conn)
    (me : MUDObject) (propertyName : Property) (arg : JSString) :
    propertyPerform toLowerCase like strings cstrings propertyLabel db conn me propertyName
      arg =
    updateProperty toLowerCase like strings cstrings propertyLabel db conn me
      (trim (beforeFirstEquals arg)) propertyName (trim (afterFirstEquals arg)) := by
  unfold propertyPerform beforeFirstEquals afterFirstEquals substring substringFrom strIndexOf
  simp only [List.drop_zero, Nat.sub_zero]
  by_cases h : arg.indexOf '=' < arg.length
  · rw [if_pos h]
    have hne : ¬ ((arg.indexOf '=' : Nat) : Int) = -1 := by omega
    rw [if_neg hne, Int.toNat_ofNat, take_indexOf, drop_indexOf_succ]
  · rw [if_neg h]
    simp only [if_true]
    have hlen : arg.indexOf '=' = arg.length := by
      have := List.indexOf_le_length (a := '=') (l := arg)
      omega
    rw [← hlen, take_indexOf, drop_indexOf_succ]


/-- Claim C21 fails on the commands that call `split("=")`: the value they pass on is the
text between the first and the second `=`, and what follows the second `=` is dropped.
`whisper bob=meet at x=3` whispers `meet at x`; `@password old=new=pass` takes `new` as the
new password; `@link north=12=13` links to `12`; `@lock door=key=old` takes `key` as the
key name; `@set hall=temple=no` is accepted and sets `temple` on the room of `bob`. The
property setters keep the text: `@describe hall=a=b` describes the room as `a=b`. -/
theorem split_drops_after_second_equals :
    whisperValidate sampleStrings ["bob=meet at x=3".toList]
      = Validation.cb "bob".toList (some "meet at x".toList) ∧
    afterFirstEquals "bob=meet at x=3".toList = "meet at x=3".toList ∧
    passwordValidate sampleStrings ["old=new=pass".toList]
      = Validation.cb "old".toList (some "new".toList) ∧
    afterFirstEquals "old=new=pass".toList = "new=pass".toList ∧
    linkValidate sampleStrings ["north=12=13".toList]
      = Validation.cb "north".toList (some "12".toList) ∧
    lockValidate sampleStrings ["door=key=old".toList]
      = Validation.cb "door".toList (some "key".toList) ∧
    setValidate sampleStrings sampleCommandStrings sampleWorld 4 bob ["hall=temple=no".toList]
      = [Emit.save hall { hall with flags := 4 },
         Emit.send 4 sampleCommandStrings.set
           (Values.fields [("property".toList, "temple".toList)])] ∧
    propertyPerform asciiLower substringLike sampleStrings sampleCommandStrings sampleLabel
        sampleWorld 4 bob Property.description "hall=a=b".toList
      = [Emit.save hall { hall with description := some "a=b".toList },
         Emit.send 4 sampleCommandStrings.set
           (Values.fields [("property".toList, "Description".toList)])] := by
  decide

/-! ## Theorems: the arguments that `getArgs` returns -/

/-- A trimmed string does not start with white space. -/
theorem trim_head (s : JSString) (c : Char) (h : (trim s).head? = some c) :
    isWhiteSpace c = false := by
  unfold trim at h
  rw [List.head?_reverse] at h
  obtain ⟨t, ht⟩ := List.dropWhile_suffix (l := (s.dropWhile isWhiteSpace).reverse) isWhiteSpace
  have hA : s.dropWhile isWhiteSpace =
      (((s.dropWhile isWhiteSpace).reverse.dropWhile isWhiteSpace).reverse) ++ t.reverse := by
    rw [← List.reverse_append, ht, List.reverse_reverse]
  have hhead : (s.dropWhile isWhiteSpace).head? = some c := by
    rw [hA, List.head?_append, List.head?_reverse, h]
    rfl
  have := List.head?_dropWhile_not isWhiteSpace s
  rw [hhead] at this
  simpa using this

/-- A trimmed string does not end with white space. -/
theorem trim_last (s : JSString) (d : Char) (h : (trim s).getLast? = some d) :
    isWhiteSpace d = false := by
  unfold trim at h
  rw [List.getLast?_reverse] at h
  have := List.head?_dropWhile_not isWhiteSpace (s.dropWhile isWhiteSpace).reverse
  rw [h] at this
  simpa using this

/-- A string that ends with a character that is not white space has a non-empty trim. -/
theorem trim_ne_nil (s : JSString) (d : Char) (h : s.getLast? = some d)
    (hd : isWhiteSpace d = false) : trim s ≠ [] := by
  have hmem : d ∈ s := by
    obtain ⟨ys, hys⟩ := List.getLast?_eq_some_iff.mp h
    rw [hys]; simp
  have hA : s.dropWhile isWhiteSpace ≠ [] := by
    intro h0
    have := (List.dropWhile_eq_nil_iff.mp h0) d hmem
    rw [hd] at this
    exact absurd this (by decide)
  obtain ⟨t, ht⟩ := List.dropWhile_suffix (l := s) isWhiteSpace
  have hlast : (s.dropWhile isWhiteSpace).getLast? = some d := by
    have h2 : (t ++ s.dropWhile isWhiteSpace).getLast? = some d := by rw [ht]; exact h
    rw [List.getLast?_append] at h2
    cases hx : (s.dropWhile isWhiteSpace).getLast? with
    | none => exact absurd (List.getLast?_eq_none_iff.mp hx) hA
    | some x =>
      rw [hx] at h2
      exact h2
  unfold trim
  intro h0
  rw [List.reverse_eq_nil_iff, List.dropWhile_eq_nil_iff] at h0
  have := h0 d (by
    rw [List.mem_reverse]
    obtain ⟨ys, hys⟩ := List.getLast?_eq_some_iff.mp hlast
    rw [hys]; simp)
  rw [hd] at this
  exact absurd this (by decide)

/-- A string of white space only has an empty trim. -/
theorem trim_whiteSpace (s : JSString) (h : s.all isWhiteSpace = true) : trim s = [] := by
  unfold trim
  have : s.dropWhile isWhiteSpace = [] := by
    rw [List.dropWhile_eq_nil_iff]
    intro x hx
    exact List.all_eq_true.mp h x hx
  rw [this]
  rfl

/-- The loop of `getArgs` on a non-empty string that neither starts nor ends with white
space: what it adds to `argsArr` is a non-empty list of at most `n + 1` non-empty strings,
of which all but the last hold no space. -/
theorem getArgsLoop_spec (n : Nat) :
    ∀ (a : JSString) (argsArr : List JSString) (c d : Char),
      a.head? = some c → isWhiteSpace c = false →
      a.getLast? = some d → isWhiteSpace d = false →
      ∃ l : List JSString, getArgsLoop n a argsArr = argsArr ++ l ∧ l ≠ [] ∧
        l.length ≤ n + 1 ∧ (∀ x ∈ l, x ≠ []) ∧ (∀ x ∈ l.dropLast, ' ' ∉ x) := by
  induction n with
  | zero =>
    intro a argsArr c d hc _ _ _
    refine ⟨[a], rfl, by simp, by simp, ?_, by simp⟩
    intro x hx
    rw [List.mem_singleton] at hx
    rw [hx]
    intro h0
    rw [h0] at hc
    exact absurd hc (by simp)
  | succ n ih =>
    intro a argsArr c d hc hcw hd hdw
    have hane : a ≠ [] := by
      intro h0
      rw [h0] at hc
      exact absurd hc (by simp)
    unfold getArgsLoop
    simp only []
    by_cases hidx : strIndexOf a ' ' = -1
    · rw [if_pos hidx]
      refine ⟨[a], rfl, by simp, by simp, ?_, by simp⟩
      intro x hx
      rw [List.mem_singleton] at hx
      rw [hx]
      exact hane
    · rw [if_neg hidx]
      have hlt : a.indexOf ' ' < a.length := by
        by_contra hge
        apply hidx
        unfold strIndexOf
        rw [if_neg hge]
      have hval : strIndexOf a ' ' = ((a.indexOf ' ' : Nat) : Int) := by
        unfold strIndexOf
        rw [if_pos hlt]
      rw [hval, Int.toNat_ofNat]
      have hsub : substring a 0 (a.indexOf ' ') = a.takeWhile (fun x => decide (x ≠ ' ')) := by
        unfold substring
        rw [List.drop_zero, Nat.sub_zero, take_indexOf]
      have hargne : substring a 0 (a.indexOf ' ') ≠ [] := by
        rw [hsub]
        cases a with
        | nil => exact absurd rfl hane
        | cons x xs =>
          simp only [List.head?_cons, Option.some.injEq] at hc
          have hx : x ≠ ' ' := by
            intro h
            rw [← hc, h] at hcw
            exact absurd hcw (by decide)
          rw [List.takeWhile_cons_of_pos (by simpa using hx)]
          exact List.cons_ne_nil _ _
      have hargsp : ' ' ∉ substring a 0 (a.indexOf ' ') := by
        rw [hsub]
        intro hmem
        have := List.mem_takeWhile_imp hmem
        simp at this
      have hrest : (substringFrom a (a.indexOf ' ' + 1)).getLast? = some d := by
        unfold substringFrom
        rw [List.getLast?_drop]
        have hnot : ¬ a.length ≤ a.indexOf ' ' + 1 := by
          intro hle
          have heq : a.indexOf ' ' = a.length - 1 := by omega
          have hget : a[a.indexOf ' ']? = some ' ' := by
            rw [List.getElem?_eq_getElem hlt]
            congr 1
            exact List.indexOf_get hlt
          have hl : a.getLast? = a[a.length - 1]? := List.getLast?_eq_getElem? a
          rw [hl, ← heq, hget] at hd
          have : d = ' ' := (Option.some.inj hd).symm
          rw [this] at hdw
          exact absurd hdw (by decide)
        rw [if_neg hnot]
        exact hd
      have htne := trim_ne_nil _ d hrest hdw
      obtain ⟨c2, hc2⟩ : ∃ c2, (trim (substringFrom a (a.indexOf ' ' + 1))).head? = some c2 := by
        cases h : trim (substringFrom a (a.indexOf ' ' + 1)) with
        | nil => exact absurd h htne
        | cons y ys => exact ⟨y, rfl⟩
      obtain ⟨d2, hd2⟩ : ∃ d2,
          (trim (substringFrom a (a.indexOf ' ' + 1))).getLast? = some d2 := by
        cases h : (trim (substringFrom a (a.indexOf ' ' + 1))).getLast? with
        | none => exact absurd (List.getLast?_eq_none_iff.mp h) htne
        | some y => exact ⟨y, rfl⟩
      obtain ⟨l, hl, hlne, hllen, hlall, hlsp⟩ := ih _
        (argsArr ++ [substring a 0 (a.indexOf ' ')]) c2 d2 hc2 (trim_head _ _ hc2) hd2
        (trim_last _ _ hd2)
      refine ⟨substring a 0 (a.indexOf ' ') :: l, ?_, List.cons_ne_nil _ _, ?_, ?_, ?_⟩
      · rw [hl, List.append_assoc]; rfl
      · rw [List.length_cons]; omega
      · intro x hx
        rcases List.mem_cons.mp hx with h | h
        · rw [h]; exact hargne
        · exact hlall x h
      · intro x hx
        cases l with
        | nil => exact absurd rfl hlne
        | cons y ys =>
          rw [List.dropLast_cons₂] at hx
          rcases List.mem_cons.mp hx with h | h
          · rw [h]; exact hargsp
          · exact hlsp x h


/-- Claim C28. For every argument string and every `nargs`, undefined included: every
argument that `getArgs` returns is a non-empty string; when `nargs ≥ 2`, at most
`nargs + 1` arguments are returned and every one except the last holds no space; and an
argument string that is empty or made of white space only gives the empty array. -/
theorem getArgs_arguments (argsStr : JSString) (nargs : Option Nat) :
    (∀ a ∈ getArgs argsStr nargs, a ≠ []) ∧
    (∀ n, nargs = some n → 2 ≤ n →
      (getArgs argsStr nargs).length ≤ n + 1 ∧
      ∀ a ∈ (getArgs argsStr nargs).dropLast, ' ' ∉ a) ∧
    (argsStr.all isWhiteSpace = true → getArgs argsStr nargs = []) := by
  by_cases hnil : trim argsStr = []
  · have h0 : getArgs argsStr nargs = [] := by
      unfold getArgs
      simp only [hnil, List.length_nil, if_true]
    rw [h0]
    exact ⟨by simp, fun n _ _ => ⟨by simp, by simp⟩, fun _ => rfl⟩
  · have hlen : ¬ (trim argsStr).length = 0 := fun h => hnil (List.length_eq_zero.mp h)
    obtain ⟨c, hc⟩ : ∃ c, (trim argsStr).head? = some c := by
      cases h : trim argsStr with
      | nil => exact absurd h hnil
      | cons y ys => exact ⟨y, rfl⟩
    obtain ⟨d, hd⟩ : ∃ d, (trim argsStr).getLast? = some d := by
      cases h : (trim argsStr).getLast? with
      | none => exact absurd (List.getLast?_eq_none_iff.mp h) hnil
      | some y => exact ⟨y, rfl⟩
    have hloop : ∀ n, ∃ l : List JSString, getArgsLoop n (trim argsStr) [] = l ∧ l ≠ [] ∧
        l.length ≤ n + 1 ∧ (∀ x ∈ l, x ≠ []) ∧ (∀ x ∈ l.dropLast, ' ' ∉ x) := by
      intro n
      obtain ⟨l, h1, h2⟩ := getArgsLoop_spec n (trim argsStr) [] c d hc (trim_head _ _ hc) hd
        (trim_last _ _ hd)
      exact ⟨l, by rw [h1]; rfl, h2⟩
    refine ⟨?_, ?_, ?_⟩
    · unfold getArgs
      simp only [if_neg hlen]
      cases nargs with
      | none =>
        obtain ⟨l, h1, -, -, h4, -⟩ := hloop 0
        simp only [h1]
        exact h4
      | some n =>
        simp only []
        by_cases hn : n ≤ 1
        · rw [if_pos hn]
          intro a ha
          rw [List.mem_singleton] at ha
          rw [ha]
          exact hnil
        · rw [if_neg hn]
          obtain ⟨l, h1, -, -, h4, -⟩ := hloop n
          rw [h1]
          exact h4
    · intro n hnargs hn
      subst hnargs
      unfold getArgs
      simp only [if_neg hlen]
      rw [if_neg (by omega)]
      obtain ⟨l, h1, -, h3, -, h5⟩ := hloop n
      rw [h1]
      exact ⟨h3, h5⟩
    · intro hall
      exact absurd (trim_whiteSpace argsStr hall) hnil

/-! ## Theorems: the graph of the pathfinder -/

/-- The loop of the move function pushes the non-null targets, in order. -/
theorem possNodesLoop_eq (exitArr : List MUDObject) :
    ∀ possNodes : List Int,
      possNodesLoop exitArr possNodes = possNodes ++ exitArr.filterMap (fun o => o.targetId) := by
  induction exitArr with
  | nil => intro possNodes; simp [possNodesLoop]
  | cons e rest ih =>
    intro possNodes
    cases h : e.targetId with
    | none => simp [possNodesLoop, h, ih]
    | some t => simp [possNodesLoop, h, ih]

/-- The move function gives the targets of the linked exits of the room. -/
theorem pathMove_eq (db : List MUDObject) (node : Int) :
    pathMove db node = exitTargets db node := by
  have hfilter : db.filter
      (fun o => decide (o.locationId = some node) && decide (o.type = MUDType.EXIT)) =
      db.filter (fun o => decide (o.type = MUDType.EXIT) && decide (o.locationId = some node)) := by
    congr 1
    funext o
    exact Bool.and_comm _ _
  unfold pathMove exitTargets
  simp only []
  rw [hfilter]
  by_cases hlen : (db.filter (fun o => decide (o.type = MUDType.EXIT) &&
      decide (o.locationId = some node))).length > 0
  · rw [if_pos hlen, possNodesLoop_eq, List.nil_append]
  · rw [if_neg hlen]
    have hnil := List.length_eq_zero.mp (Nat.eq_zero_of_not_pos hlen)
    rw [hnil]
    rfl

/-- A room id is among the neighbours of a room when an exit of the store leads from the
room to it. -/
theorem mem_pathMove (db : List MUDObject) (u v : Int) :
    v ∈ pathMove db u ↔ linkedExit db u v = true := by
  rw [pathMove_eq]
  unfold exitTargets linkedExit
  simp only [List.mem_filterMap, List.mem_filter, List.any_eq_true, Bool.and_eq_true,
    decide_eq_true_eq]
  constructor
  · rintro ⟨o, ⟨ho, h1, h2⟩, h3⟩
    exact ⟨o, ho, ⟨h1, h2⟩, h3⟩
  · rintro ⟨o, ho, ⟨h1, h2⟩, h3⟩
    exact ⟨o, ⟨ho, h1, h2⟩, h3⟩

/-- Claim C26. For every store, every room id `node` expanded by the search of `@path` and
every destination room: the array that the move function passes to the search is exactly
the `targetId`s of the `EXIT` entities whose `locationId` is `node` and whose `targetId` is
not null, in store order; so a room id is a neighbour of `node` exactly when an exit leads
from `node` to it, and an exit with a null target adds nothing; and the goal test is true
exactly for the node equal to the id of the destination room. -/
theorem pathMove_neighbours (db : List MUDObject) (node : Int) (destinationObj : MUDObject) :
    pathMove db node = exitTargets db node ∧
    (∀ v, v ∈ pathMove db node ↔ linkedExit db node v = true) ∧
    (pathMove db node).length = (db.filter (fun o => decide (o.type = MUDType.EXIT) &&
      decide (o.locationId = some node) && o.targetId.isSome)).length ∧
    (∀ n, pathGoal destinationObj n = true ↔ n = destinationObj.id) := by
  refine ⟨pathMove_eq db node, fun v => mem_pathMove db node v, ?_, fun n => ?_⟩
  · rw [pathMove_eq]
    unfold exitTargets
    induction db with
    | nil => rfl
    | cons o rest ih =>
      by_cases h1 : o.type = MUDType.EXIT <;> by_cases h2 : o.locationId = some node <;>
        cases h3 : o.targetId <;> simp [List.filter_cons, h1, h2, h3] at ih ⊢ <;> exact ih
  · unfold pathGoal
    exact decide_eq_true_iff

/-! ## Theorems: breadth-first search -/

/-- The nodes that an expansion adds are the neighbours not visited yet. -/
theorem mem_bfsFresh {α : Type} [DecidableEq α] (moves : α → List α) (visited : List α)
    (v w : α) :
    w ∈ bfsFresh moves visited v ↔ w ∈ moves v ∧ w ∉ visited := by
  unfold bfsFresh
  rw [List.mem_dedup, List.mem_filter]
  simp

/-- One layer of the search: the next frontier extends paths of the frontier by a
neighbour not visited before, the nodes visited are those visited before and those of the
next frontier, and every neighbour of the frontier is visited. -/
theorem bfsExpand_spec {α : Type} [DecidableEq α] (moves : α → List α)
    (frontier : List (α × List α)) :
    ∀ visited : List α,
      (∀ e2 ∈ (bfsExpand moves frontier visited).1,
        ∃ e ∈ frontier, e2.2 = e.1 :: e.2 ∧ e2.1 ∈ moves e.1 ∧ e2.1 ∉ visited) ∧
      (∀ v, v ∈ (bfsExpand moves frontier visited).2 ↔
        v ∈ visited ∨ v ∈ (bfsExpand moves frontier visited).1.map Prod.fst) ∧
      (∀ e ∈ frontier, ∀ w ∈ moves e.1, w ∈ (bfsExpand moves frontier visited).2) := by
  induction frontier with
  | nil =>
    intro visited
    simp [bfsExpand]
  | cons e rest ih =>
    intro visited
    obtain ⟨h1, h2, h3⟩ := ih (visited ++ bfsFresh moves visited e.1)
    have hexp : bfsExpand moves (e :: rest) visited =
        ((bfsFresh moves visited e.1).map (fun w => (w, e.1 :: e.2)) ++
          (bfsExpand moves rest (visited ++ bfsFresh moves visited e.1)).1,
         (bfsExpand moves rest (visited ++ bfsFresh moves visited e.1)).2) := rfl
    rw [hexp]
    refine ⟨?_, ?_, ?_⟩
    · intro e2 he2
      rcases List.mem_append.mp he2 with h | h
      · obtain ⟨w, hw, rfl⟩ := List.mem_map.mp h
        have := (mem_bfsFresh moves visited e.1 w).mp hw
        exact ⟨e, List.mem_cons_self _ _, rfl, this.1, this.2⟩
      · obtain ⟨e0, he0, ha, hb, hc⟩ := h1 e2 h
        refine ⟨e0, List.mem_cons_of_mem _ he0, ha, hb, ?_⟩
        intro hv
        exact hc (List.mem_append_left _ hv)
    · intro v
      rw [h2 v]
      simp only [List.mem_append, List.map_append, List.map_map, List.mem_map,
        Function.comp_apply]
      constructor
      · rintro ((h | h) | h)
        · exact Or.inl h
        · exact Or.inr (Or.inl ⟨v, h, rfl⟩)
        · exact Or.inr (Or.inr h)
      · rintro (h | ⟨w, hw, rfl⟩ | h)
        · exact Or.inl (Or.inl h)
        · exact Or.inl (Or.inr hw)
        · exact Or.inr h
    · intro e0 he0 w hw
      rcases List.mem_cons.mp he0 with h | h
      · subst h
        rw [h2 w]
        left
        by_cases hv : w ∈ visited
        · exact List.mem_append_left _ hv
        · exact List.mem_append_right _ ((mem_bfsFresh moves visited e0.1 w).mpr ⟨hw, hv⟩)
      · exact h3 e0 h w hw

/-- A walk of `k + 1` edges is a walk of `k` edges followed by an edge. -/
theorem reach_succ_iff {α : Type} (moves : α → List α) (k : Nat) :
    ∀ u v, reach moves u (k + 1) v ↔ ∃ w, reach moves u k w ∧ v ∈ moves w := by
  induction k with
  | zero =>
    intro u v
    simp only [reach]
    constructor
    · rintro ⟨w, hw, rfl⟩
      exact ⟨u, rfl, hw⟩
    · rintro ⟨w, rfl, hv⟩
      exact ⟨v, hv, rfl⟩
  | succ k ih =>
    intro u v
    constructor
    · rintro ⟨x, hx, hr⟩
      obtain ⟨w, hw, hv⟩ := (ih x v).mp hr
      exact ⟨w, ⟨x, hx, hw⟩, hv⟩
    · rintro ⟨w, ⟨x, hx, hw⟩, hv⟩
      exact ⟨x, hx, (ih x v).mpr ⟨w, hw, hv⟩⟩

/-- Two walks that meet make one walk. -/
theorem reach_add {α : Type} (moves : α → List α) (k : Nat) :
    ∀ (u w : α) (m : Nat) (v : α),
      reach moves u k w → reach moves w m v → reach moves u (k + m) v := by
  induction k with
  | zero =>
    intro u w m v h1 h2
    simp only [reach] at h1
    subst h1
    rw [Nat.zero_add]
    exact h2
  | succ k ih =>
    intro u w m v h1 h2
    obtain ⟨x, hx, hr⟩ := h1
    rw [Nat.succ_add]
    exact ⟨x, hx, ih x w m v hr h2⟩

/-- A walk passes through a node after each number of edges. -/
theorem reach_split {α : Type} (moves : α → List α) (k : Nat) :
    ∀ (u : α) (m : Nat) (v : α),
      reach moves u (k + m) v → ∃ w, reach moves u k w ∧ reach moves w m v := by
  induction k with
  | zero =>
    intro u m v h
    rw [Nat.zero_add] at h
    exact ⟨u, rfl, h⟩
  | succ k ih =>
    intro u m v h
    rw [Nat.succ_add] at h
    obtain ⟨x, hx, hr⟩ := h
    obtain ⟨w, hw1, hw2⟩ := ih x m v hr
    exact ⟨w, ⟨x, hx, hw1⟩, hw2⟩

/-- A walk given as a sequence of nodes is a walk of as many edges as it has steps. -/
theorem reach_of_isWalk {α : Type} [DecidableEq α] (moves : α → List α) (l : List α) :
    ∀ u v, isWalk (fun a b => decide (b ∈ moves a)) l = true → l.head? = some u →
      l.getLast? = some v → reach moves u (l.length - 1) v := by
  induction l with
  | nil => intro u v h; simp [isWalk] at h
  | cons x rest ih =>
    intro u v hw hh hl
    cases rest with
    | nil =>
      simp only [List.head?_cons, Option.some.injEq, List.getLast?_singleton] at hh hl
      subst hh
      subst hl
      rfl
    | cons y rest2 =>
      simp only [isWalk, Bool.and_eq_true, decide_eq_true_eq] at hw
      simp only [List.head?_cons, Option.some.injEq] at hh
      subst hh
      rw [List.getLast?_cons_cons] at hl
      have := ih y v hw.2 rfl hl
      exact ⟨y, hw.1, this⟩

/-- A walk with one more edge at its end. -/
theorem isWalk_append_pair {α : Type} (edge : α → α → Bool) (l : List α) :
    ∀ u w, isWalk edge (l ++ [u, w]) = (isWalk edge (l ++ [u]) && edge u w) := by
  induction l with
  | nil => intro u w; simp [isWalk]
  | cons x rest ih =>
    intro u w
    cases rest with
    | nil => simp [isWalk]
    | cons y rest2 =>
      have h := ih u w
      rw [List.cons_append, List.cons_append] at h
      show (edge x y && isWalk edge (y :: (rest2 ++ [u, w]))) =
        ((edge x y && isWalk edge (y :: (rest2 ++ [u]))) && edge u w)
      rw [h, Bool.and_assoc]

/-- Walks along relations with the same edges are the same walks. -/
theorem isWalk_congr {α : Type} (edge1 edge2 : α → α → Bool)
    (h : ∀ a b, edge1 a b = edge2 a b)
    (l : List α) : isWalk edge1 l = isWalk edge2 l := by
  have : edge1 = edge2 := by
    funext a b
    exact h a b
  rw [this]


/-- A path of the frontier is a walk of `k` edges from the start to its node. -/
theorem reach_of_bfsInv {α : Type} [DecidableEq α] (moves : α → List α) (goal : α → Bool)
    (start : α) (k : Nat) (frontier : List (α × List α)) (visited : List α)
    (hinv : bfsInv moves goal start k frontier visited) (e : α × List α) (he : e ∈ frontier) :
    reach moves start k e.1 := by
  obtain ⟨hw, hh, hl⟩ := hinv.1 e he
  have := reach_of_isWalk moves (e.1 :: e.2).reverse start e.1 hw hh (by simp)
  simpa [hl] using this

/-- The invariant holds when the search begins. -/
theorem bfsInv_init {α : Type} [DecidableEq α] (moves : α → List α) (goal : α → Bool)
    (start : α) : bfsInv moves goal start 0 [(start, [])] [start] := by
  refine ⟨?_, ?_, ?_, ?_⟩
  · intro e he
    rw [List.mem_singleton] at he
    subst he
    exact ⟨rfl, rfl, rfl⟩
  · intro v hv
    left
    simp only [reach] at hv
    simp [hv]
  · intro v
    constructor
    · intro hv
      rw [List.mem_singleton] at hv
      exact ⟨0, Nat.le_refl 0, hv⟩
    · rintro ⟨j, hj, hr⟩
      have hj0 : j = 0 := Nat.le_zero.mp hj
      subst hj0
      simp only [reach] at hr
      rw [hr]
      exact List.mem_singleton_self _
  · intro j v hj
    exact absurd hj (Nat.not_lt_zero j)

/-- The invariant is kept by a layer none of whose nodes passes the goal test. -/
theorem bfsInv_step {α : Type} [DecidableEq α] (moves : α → List α) (goal : α → Bool)
    (start : α) (k : Nat) (frontier : List (α × List α)) (visited : List α)
    (hinv : bfsInv moves goal start k frontier visited)
    (hgoal : ∀ e ∈ frontier, goal e.1 = false) :
    bfsInv moves goal start (k + 1) (bfsExpand moves frontier visited).1
      (bfsExpand moves frontier visited).2 := by
  obtain ⟨e1, e2, e3⟩ := bfsExpand_spec moves frontier visited
  have hI1 : ∀ e ∈ (bfsExpand moves frontier visited).1,
      isWalk (fun a b => decide (b ∈ moves a)) (e.1 :: e.2).reverse = true ∧
      (e.1 :: e.2).reverse.head? = some start ∧ e.2.length = k + 1 := by
    intro e he
    obtain ⟨e0, he0, hp, hm, -⟩ := e1 e he
    obtain ⟨hw, hh, hl⟩ := hinv.1 e0 he0
    rw [hp]
    refine ⟨?_, ?_, by rw [List.length_cons, hl]⟩
    · have : (e.1 :: e0.1 :: e0.2).reverse = e0.2.reverse ++ [e0.1, e.1] := by simp
      rw [this, isWalk_append_pair]
      have hw2 : isWalk (fun a b => decide (b ∈ moves a)) (e0.2.reverse ++ [e0.1]) = true := by
        rw [← List.reverse_cons]; exact hw
      rw [hw2]
      simpa using hm
    · have : (e.1 :: e0.1 :: e0.2).reverse = (e0.1 :: e0.2).reverse ++ [e.1] := by simp
      rw [this, List.head?_append, hh]
      rfl
  have hreach : ∀ e ∈ (bfsExpand moves frontier visited).1, reach moves start (k + 1) e.1 := by
    intro e he
    obtain ⟨e0, he0, -, hm, -⟩ := e1 e he
    exact (reach_succ_iff moves k start e.1).mpr
      ⟨e0.1, reach_of_bfsInv moves goal start k frontier visited hinv e0 he0, hm⟩
  have hI3 : ∀ v, v ∈ (bfsExpand moves frontier visited).2 ↔
      ∃ j, j ≤ k + 1 ∧ reach moves start j v := by
    intro v
    constructor
    · intro hv
      rcases (e2 v).mp hv with h | h
      · obtain ⟨j, hj, hr⟩ := (hinv.2.2.1 v).mp h
        exact ⟨j, Nat.le_succ_of_le hj, hr⟩
      · obtain ⟨e, he, rfl⟩ := List.mem_map.mp h
        exact ⟨k + 1, Nat.le_refl _, hreach e he⟩
    · rintro ⟨j, hj, hr⟩
      rcases Nat.lt_or_ge j (k + 1) with hlt | hge
      · exact (e2 v).mpr (Or.inl ((hinv.2.2.1 v).mpr ⟨j, Nat.lt_succ_iff.mp hlt, hr⟩))
      · have hjk : j = k + 1 := Nat.le_antisymm hj hge
        subst hjk
        obtain ⟨u, hu, hvu⟩ := (reach_succ_iff moves k start v).mp hr
        rcases hinv.2.1 u hu with h | ⟨j2, hj2, hr2⟩
        · obtain ⟨e, he, rfl⟩ := List.mem_map.mp h
          exact e3 e he v hvu
        · exact (e2 v).mpr (Or.inl ((hinv.2.2.1 v).mpr
            ⟨j2 + 1, hj2, (reach_succ_iff moves j2 start v).mpr ⟨u, hr2, hvu⟩⟩))
  refine ⟨hI1, ?_, hI3, ?_⟩
  · intro v hv
    rcases (e2 v).mp ((hI3 v).mpr ⟨k + 1, Nat.le_refl _, hv⟩) with h | h
    · obtain ⟨j, hj, hr⟩ := (hinv.2.2.1 v).mp h
      exact Or.inr ⟨j, Nat.lt_succ_of_le hj, hr⟩
    · exact Or.inl h
  · intro j v hj hr
    rcases Nat.lt_or_ge j k with hlt | hge
    · exact hinv.2.2.2 j v hlt hr
    · have hjk : j = k := Nat.le_antisymm (Nat.lt_succ_iff.mp hj) hge
      subst hjk
      rcases hinv.2.1 v hr with h | ⟨j2, hj2, hr2⟩
      · obtain ⟨e, he, rfl⟩ := List.mem_map.mp h
        exact hgoal e he
      · exact hinv.2.2.2 j2 v hj2 hr2


/-- The search on a frontier that keeps the invariant: a path found is a walk from the start
to a node that passes the goal test, and no walk to such a node has fewer edges. -/
theorem bfsLayers_sound {α : Type} [DecidableEq α] (moves : α → List α) (goal : α → Bool)
    (start : α) (fuel : Nat) :
    ∀ (k : Nat) (frontier : List (α × List α)) (visited : List α),
      bfsInv moves goal start k frontier visited →
      ∀ path, bfsLayers moves goal fuel frontier visited = some (some path) →
        isWalk (fun a b => decide (b ∈ moves a)) path = true ∧ path.head? = some start ∧
        (∃ g, path.getLast? = some g ∧ goal g = true) ∧
        (∀ j v, reach moves start j v → goal v = true → path.length ≤ j + 1) := by
  induction fuel with
  | zero =>
    intro k frontier visited _ path h
    exact absurd h (by simp [bfsLayers])
  | succ fuel ih =>
    intro k frontier visited hinv path h
    unfold bfsLayers at h
    cases hfind : frontier.find? (fun e => goal e.1) with
    | some e =>
      rw [hfind] at h
      simp only [Option.some.injEq] at h
      have he : e ∈ frontier := List.mem_of_find?_eq_some hfind
      have hg : goal e.1 = true := by
        have := List.find?_some hfind
        simpa using this
      obtain ⟨hw, hh, hl⟩ := hinv.1 e he
      rw [← h]
      refine ⟨hw, hh, ⟨e.1, by simp, hg⟩, ?_⟩
      intro j v hr hgv
      rcases Nat.lt_or_ge j k with hlt | hge
      · have := hinv.2.2.2 j v hlt hr
        rw [hgv] at this
        exact absurd this (by decide)
      · simp only [List.length_reverse, List.length_cons, hl]
        omega
    | none =>
      rw [hfind] at h
      have hgoal : ∀ e ∈ frontier, goal e.1 = false := by
        intro e he
        have := List.find?_eq_none.mp hfind e he
        simpa using this
      cases frontier with
      | nil => exact absurd h (by simp)
      | cons e rest =>
        rw [if_neg (by simp)] at h
        exact ih (k + 1) _ _ (bfsInv_step moves goal start k (e :: rest) visited hinv hgoal)
          path h

/-- With an empty frontier, every node that a walk reaches is reached by a walk of fewer
edges than the layer. -/
theorem reach_below_of_empty {α : Type} [DecidableEq α] (moves : α → List α)
    (goal : α → Bool) (start : α) (k : Nat) (visited : List α)
    (hinv : bfsInv moves goal start k [] visited) (j : Nat) :
    ∀ v, reach moves start j v → ∃ j2, j2 < k ∧ reach moves start j2 v := by
  have hk : ∀ v, reach moves start k v → ∃ j2, j2 < k ∧ reach moves start j2 v := by
    intro v hv
    rcases hinv.2.1 v hv with h | h
    · simp at h
    · exact h
  induction j with
  | zero =>
    intro v hv
    rcases Nat.eq_zero_or_pos k with h0 | hpos
    · subst h0
      exact hk v hv
    · exact ⟨0, hpos, hv⟩
  | succ j ih =>
    intro v hv
    obtain ⟨u, hu, hvu⟩ := (reach_succ_iff moves j start v).mp hv
    obtain ⟨j2, hj2, hr2⟩ := ih u hu
    have hr3 : reach moves start (j2 + 1) v :=
      (reach_succ_iff moves j2 start v).mpr ⟨u, hr2, hvu⟩
    rcases Nat.lt_or_ge (j2 + 1) k with hlt | hge
    · exact ⟨j2 + 1, hlt, hr3⟩
    · have hjk : j2 + 1 = k := Nat.le_antisymm hj2 hge
      rw [hjk] at hr3
      exact hk v hr3

/-- The search on a frontier that keeps the invariant: when it ends with not-found, no
walk from the start reaches a node that passes the goal test. -/
theorem bfsLayers_notFound {α : Type} [DecidableEq α] (moves : α → List α)
    (goal : α → Bool) (start : α) (fuel : Nat) :
    ∀ (k : Nat) (frontier : List (α × List α)) (visited : List α),
      bfsInv moves goal start k frontier visited →
      bfsLayers moves goal fuel frontier visited = some none →
        ∀ j v, reach moves start j v → goal v = false := by
  induction fuel with
  | zero =>
    intro k frontier visited _ h
    exact absurd h (by simp [bfsLayers])
  | succ fuel ih =>
    intro k frontier visited hinv h
    unfold bfsLayers at h
    cases hfind : frontier.find? (fun e => goal e.1) with
    | some e =>
      rw [hfind] at h
      exact absurd h (by simp)
    | none =>
      rw [hfind] at h
      have hgoal : ∀ e ∈ frontier, goal e.1 = false := by
        intro e he
        have := List.find?_eq_none.mp hfind e he
        simpa using this
      cases frontier with
      | nil =>
        intro j v hr
        obtain ⟨j2, hj2, hr2⟩ := reach_below_of_empty moves goal start k visited hinv j v hr
        exact hinv.2.2.2 j2 v hj2 hr2
      | cons e rest =>
        rw [if_neg (by simp)] at h
        exact ih (k + 1) _ _ (bfsInv_step moves goal start k (e :: rest) visited hinv hgoal) h

/-- The search on a frontier that keeps the invariant finds a path when a node that
passes the goal test is reached by a walk of fewer edges than the layers allowed. -/
theorem bfsLayers_complete {α : Type} [DecidableEq α] (moves : α → List α)
    (goal : α → Bool) (start : α) (fuel : Nat) :
    ∀ (k : Nat) (frontier : List (α × List α)) (visited : List α),
      bfsInv moves goal start k frontier visited →
      ∀ j g, reach moves start j g → goal g = true →
        (∀ j2 v, j2 < j → reach moves start j2 v → goal v = false) → j < k + fuel →
        ∃ path, bfsLayers moves goal fuel frontier visited = some (some path) := by
  induction fuel with
  | zero =>
    intro k frontier visited hinv j g hr hg _ hj
    have := hinv.2.2.2 j g (by omega) hr
    rw [hg] at this
    exact absurd this (by decide)
  | succ fuel ih =>
    intro k frontier visited hinv j g hr hg hmin hj
    unfold bfsLayers
    cases hfind : frontier.find? (fun e => goal e.1) with
    | some e => exact ⟨_, rfl⟩
    | none =>
      have hgoal : ∀ e ∈ frontier, goal e.1 = false := by
        intro e he
        have := List.find?_eq_none.mp hfind e he
        simpa using this
      have hkj : k < j := by
        rcases Nat.lt_trichotomy j k with hlt | heq | hgt
        · have := hinv.2.2.2 j g hlt hr
          rw [hg] at this
          exact absurd this (by decide)
        · subst heq
          rcases hinv.2.1 g hr with h | ⟨j2, hj2, hr2⟩
          · obtain ⟨e, he, rfl⟩ := List.mem_map.mp h
            have := hgoal e he
            rw [hg] at this
            exact absurd this (by decide)
          · have := hinv.2.2.2 j2 g hj2 hr2
            rw [hg] at this
            exact absurd this (by decide)
        · exact hgt
      have hne : frontier ≠ [] := by
        have hsplit : reach moves start (k + (j - k)) g := by
          rw [Nat.add_sub_cancel' (Nat.le_of_lt hkj)]
          exact hr
        obtain ⟨w, hw1, hw2⟩ := reach_split moves k start (j - k) g hsplit
        rcases hinv.2.1 w hw1 with h | ⟨j2, hj2, hr2⟩
        · intro h0
          rw [h0] at h
          simp at h
        · have hr3 := reach_add moves j2 start w (j - k) g hr2 hw2
          have := hmin (j2 + (j - k)) g (by omega) hr3
          rw [hg] at this
          exact absurd this (by decide)
      cases frontier with
      | nil => exact absurd rfl hne
      | cons e rest =>
        rw [if_neg (by simp)]
        exact ih (k + 1) _ _ (bfsInv_step moves goal start k (e :: rest) visited hinv hgoal)
          j g hr hg hmin (by omega)


/-- Among the walks from the start to a node that passes the goal test, one has the fewest
edges. -/
theorem exists_min_reach {α : Type} (moves : α → List α) (goal : α → Bool) (start : α)
    (j : Nat) :
    ∀ g, reach moves start j g → goal g = true →
      ∃ j0 g0, j0 ≤ j ∧ reach moves start j0 g0 ∧ goal g0 = true ∧
        ∀ j2 v, j2 < j0 → reach moves start j2 v → goal v = false := by
  induction j using Nat.strong_induction_on with
  | _ j ih =>
    intro g hr hg
    by_cases hmin : ∀ j2 v, j2 < j → reach moves start j2 v → goal v = false
    · exact ⟨j, g, Nat.le_refl j, hr, hg, hmin⟩
    · simp only [not_forall] at hmin
      obtain ⟨j2, v, hj2, hr2, hgv⟩ := hmin
      have hgv2 : goal v = true := by
        cases h : goal v with
        | true => rfl
        | false => exact absurd h hgv
      obtain ⟨j0, g0, h1, h2, h3, h4⟩ := ih j2 hj2 v hr2 hgv2
      exact ⟨j0, g0, Nat.le_trans h1 (Nat.le_of_lt hj2), h2, h3, h4⟩

/-- A route of the store is a walk along the move function of `@path`. -/
theorem isRoute_eq (db : List MUDObject) (rooms : List Int) :
    isRoute db rooms = isWalk (fun a b => decide (b ∈ pathMove db a)) rooms := by
  unfold isRoute
  apply isWalk_congr
  intro a b
  rw [Bool.eq_iff_iff, decide_eq_true_iff]
  exact (mem_pathMove db a b).symm

/-- Claim C23. For every store in which the room of the player and the destination room of
`@path` are found: the path that `@path` obtains from the breadth-first search and hands to
`printPath` is a sequence of rooms joined by linked exits, from the room of the player to
the destination room, and no such sequence uses fewer edges; the search obtains a path as
soon as a route exists and the search is allowed as many layers as the route has rooms;
and when the search reports not-found, no route exists. -/
theorem path_shortest (wstrings : WorldStrings) (db : List MUDObject) (conn : Conn)
    (player : MUDObject) (destinationName : JSString) (fuel : Nat)
    (location destinationObj : MUDObject)
    (hloc : getLocation db player = some location)
    (hdest : db.find? (fun o => decide (o.name = destinationName) &&
      decide (o.type = MUDType.ROOM)) = some destinationObj) :
    (∀ path startId endId,
      pathPerform wstrings db conn player destinationName fuel
        = PathOutcome.printPath conn path startId endId →
      startId = location.id ∧ endId = destinationObj.id ∧ isRoute db path = true ∧
      path.head? = some location.id ∧ path.getLast? = some destinationObj.id ∧
      ∀ route, isRoute db route = true → route.head? = some location.id →
        route.getLast? = some destinationObj.id → path.length - 1 ≤ route.length - 1) ∧
    (∀ route, isRoute db route = true → route.head? = some location.id →
      route.getLast? = some destinationObj.id → route.length ≤ fuel →
      ∃ path, pathPerform wstrings db conn player destinationName fuel
        = PathOutcome.printPath conn path location.id destinationObj.id) ∧
    (pathPerform wstrings db conn player destinationName fuel
        = PathOutcome.send conn wstrings.notFound →
      ∀ route, isRoute db route = true → route.head? = some location.id →
        route.getLast? ≠ some destinationObj.id) := by
  have hinv := bfsInv_init (pathMove db) (pathGoal destinationObj) location.id
  have hroute : ∀ route, isRoute db route = true → route.head? = some location.id →
      route.getLast? = some destinationObj.id →
      reach (pathMove db) location.id (route.length - 1) destinationObj.id ∧
      pathGoal destinationObj destinationObj.id = true ∧ 0 < route.length := by
    intro route hr hh hl
    rw [isRoute_eq] at hr
    refine ⟨reach_of_isWalk (pathMove db) route _ _ hr hh hl, by simp [pathGoal], ?_⟩
    cases route with
    | nil => simp at hh
    | cons x xs => simp
  unfold pathPerform
  rw [hdest, hloc]
  simp only []
  cases hb : bfs (pathMove db) (pathGoal destinationObj) fuel location.id with
  | none =>
    simp only []
    refine ⟨fun path startId endId h => by simp at h, ?_, fun h => by simp at h⟩
    intro route hr hh hl hfuel
    exfalso
    obtain ⟨h1, h2, h3⟩ := hroute route hr hh hl
    obtain ⟨j0, g0, hj0, hr0, hg0, hmin⟩ :=
      exists_min_reach (pathMove db) (pathGoal destinationObj) location.id _ _ h1 h2
    obtain ⟨path, hp⟩ := bfsLayers_complete (pathMove db) (pathGoal destinationObj)
      location.id fuel 0 _ _ hinv j0 g0 hr0 hg0 hmin (by omega)
    unfold bfs at hb
    rw [hp] at hb
    exact absurd hb (by simp)
  | some r =>
    cases r with
    | none =>
      simp only []
      refine ⟨fun path startId endId h => by simp at h, ?_, ?_⟩
      · intro route hr hh hl hfuel
        exfalso
        obtain ⟨h1, h2, -⟩ := hroute route hr hh hl
        have := bfsLayers_notFound (pathMove db) (pathGoal destinationObj) location.id fuel
          0 _ _ hinv hb _ _ h1
        rw [h2] at this
        exact absurd this (by decide)
      · intro _ route hr hh hl
        obtain ⟨h1, h2, -⟩ := hroute route hr hh hl
        have := bfsLayers_notFound (pathMove db) (pathGoal destinationObj) location.id fuel
          0 _ _ hinv hb _ _ h1
        rw [h2] at this
        exact absurd this (by decide)
    | some p =>
      simp only []
      obtain ⟨hw, hh, ⟨g, hg1, hg2⟩, hmin⟩ := bfsLayers_sound (pathMove db)
        (pathGoal destinationObj) location.id fuel 0 _ _ hinv p hb
      have hgd : g = destinationObj.id := by
        unfold pathGoal at hg2
        simpa using hg2
      rw [hgd] at hg1
      refine ⟨?_, fun _ _ _ _ _ => ⟨p, rfl⟩, fun h => by simp at h⟩
      intro path startId endId h
      simp only [PathOutcome.printPath.injEq, true_and] at h
      obtain ⟨hp, hs, he⟩ := h
      subst hp
      refine ⟨hs.symm, he.symm, by rw [isRoute_eq]; exact hw, hh, hg1, ?_⟩
      intro route hr hh2 hl2
      obtain ⟨h1, h2, h3⟩ := hroute route hr hh2 hl2
      have := hmin _ _ h1 h2
      omega

/-- On the diamond `A → B`, `A → C`, `B → D`, `C → D`, with `dana` in `A`: `@path D` obtains
the path `A`, `B`, `D`, of three rooms and two edges, and every route from `A` to `D` has
two edges or more. The route `A`, `C`, `D` is one of them. -/
theorem path_shortest_witness :
    getLocation diamond dana = some (mkRoom 101 "A") ∧
    diamond.find? (fun o => decide (o.name = "D".toList) && decide (o.type = MUDType.ROOM))
      = some (mkRoom 104 "D") ∧
    pathPerform sampleWorldStrings diamond 3 dana "D".toList 3
      = PathOutcome.printPath 3 [101, 102, 104] 101 104 ∧
    isRoute diamond [101, 103, 104] = true ∧
    (∀ route, isRoute diamond route = true → route.head? = some 101 →
      route.getLast? = some 104 → 2 ≤ route.length - 1) :=
  ⟨by decide, by decide, by decide, by decide,
   ((path_shortest sampleWorldStrings diamond 3 dana "D".toList 3 (mkRoom 101 "A")
      (mkRoom 104 "D") (by decide) (by decide)).1 [101, 102, 104] 101 104
      (by decide)).2.2.2.2.2⟩

/-! ## Theorems: `drop` -/

/-- The test `isTemple()` reads the flag `temple`. -/
theorem getFlag_temple (o : MUDObject) : o.getFlag "temple".toList = o.isTemple := by
  unfold MUDObject.getFlag MUDObject.isTemple
  have : FLAGS.lookup "temple".toList = some FLAGS.temple := by decide
  rw [this]
  rfl

/-- The loop of `drop.perform` saves every thing with the location that the room decides. -/
theorem dropLoop_eq (wstrings : WorldStrings) (conn : Conn) (currentRoom : MUDObject)
    (thingArr : List MUDObject) :
    dropLoop wstrings conn currentRoom thingArr =
      thingArr.flatMap (fun t =>
        [Emit.save t { t with locationId := dropLocation currentRoom t },
         Emit.send conn wstrings.dropped Values.none]) := by
  induction thingArr with
  | nil => rfl
  | cons t rest ih =>
    rw [List.flatMap_cons, ← ih]
    conv_lhs => rw [dropLoop]
    unfold dropLocation
    rw [getFlag_temple]
    by_cases h1 : currentRoom.isTemple ≠ 0
    · rw [if_pos h1, if_pos h1]
      cases h2 : currentRoom.targetId with
      | none => simp
      | some n => simp
    · rw [if_neg h1, if_neg h1]

/-- The store after a list of saves of distinct rows of the store, each followed by a
message: the rows of the list are replaced, and the others are left alone. -/
theorem persist_saves (f : MUDObject → MUDObject) (hf : ∀ t, (f t).id = t.id)
    (message : MUDObject → Emit) (hm : ∀ t, ∃ c m v, message t = Emit.send c m v)
    (l : List MUDObject) :
    ∀ db : List MUDObject, (∀ t ∈ l, t ∈ db) → (db.map (fun o => o.id)).Nodup →
      (l.map (fun o => o.id)).Nodup →
      persist db (l.flatMap (fun t => [Emit.save t (f t), message t])) =
        db.map (fun o => if o ∈ l then f o else o) := by
  induction l with
  | nil =>
    intro db _ _ _
    simp [persist]
  | cons t rest ih =>
    intro db hmem hdb hl
    obtain ⟨c, m, v, hmsg⟩ := hm t
    have hstep : persist db ((t :: rest).flatMap (fun t => [Emit.save t (f t), message t])) =
        persist (saveObject db (f t))
          (rest.flatMap (fun t => [Emit.save t (f t), message t])) := by
      rw [List.flatMap_cons]
      simp [persist, hmsg]
    rw [hstep]
    have hl2 := List.nodup_cons.mp hl
    have hids : (saveObject db (f t)).map (fun o => o.id) = db.map (fun o => o.id) := by
      unfold saveObject
      rw [List.map_map]
      apply List.map_congr_left
      intro o _
      by_cases h : o.id = (f t).id
      · simp [h]
      · simp [h]
    have hmem2 : ∀ t2 ∈ rest, t2 ∈ saveObject db (f t) := by
      intro t2 ht2
      unfold saveObject
      refine List.mem_map.mpr ⟨t2, hmem t2 (List.mem_cons_of_mem _ ht2), ?_⟩
      have hne : t2.id ≠ (f t).id := by
        rw [hf]
        intro h
        exact hl2.1 (List.mem_map.mpr ⟨t2, ht2, h⟩)
      rw [if_neg hne]
    rw [ih (saveObject db (f t)) hmem2 (by rw [hids]; exact hdb) hl2.2]
    unfold saveObject
    rw [List.map_map]
    apply List.map_congr_left
    intro o ho
    have hft : f t ∉ rest := by
      intro h
      exact hl2.1 (List.mem_map.mpr ⟨f t, h, hf t⟩)
    by_cases h : o.id = (f t).id
    · have hot : o = t := by
        apply List.inj_on_of_nodup_map hdb ho (hmem t (List.mem_cons_self _ _))
        rw [h, hf]
      simp only [Function.comp_apply, if_pos h, if_neg hft]
      rw [hot, if_pos (List.mem_cons_self _ _)]
    · have hot : o ≠ t := by
        intro h2
        apply h
        rw [h2, hf]
      simp only [Function.comp_apply, if_neg h, List.mem_cons, hot, false_or]


/-- The things that `drop.perform` loads are the things carried under the name. -/
theorem dropPerform_things (db : List MUDObject) (player : MUDObject) (arg : JSString) :
    db.filter (fun o => decide (o.name = arg) && decide (o.type = MUDType.THING) &&
      decide (o.locationId = some player.id)) = db.filter (isCarried player arg) := by
  congr 1
  funext o
  unfold isCarried
  cases decide (o.name = arg) <;> cases decide (o.type = MUDType.THING) <;>
    cases decide (o.locationId = some player.id) <;> rfl

/-- Claim C24. For every store, player and argument of `drop`. If the player carries no
`THING` whose name equals the argument, the message `dontHave` is sent and no entity is
changed. Otherwise, with the current room of the player found in the store, every such
thing, in store order, is saved with a new `locationId` and the message `dropped` is sent:
the `targetId` of the room if the room has the `temple` flag and a non-null `targetId`, the
`targetId` of the thing if the room has the `temple` flag and a null `targetId`, and the id
of the room if the room is not a temple; nothing else about the thing changes. In a store
with distinct ids, the store afterwards differs from the store before in the `locationId`
of these things only. -/
theorem drop_relocates (wstrings : WorldStrings) (db : List MUDObject) (conn : Conn)
    (player : MUDObject) (arg : JSString) :
    (db.filter (isCarried player arg) = [] →
      dropPerform wstrings db conn player arg
        = [Emit.send conn wstrings.dontHave Values.none] ∧
      persist db (dropPerform wstrings db conn player arg) = db) ∧
    (∀ room, db.find? (fun o => decide (o.type = MUDType.ROOM) &&
        decide (some o.id = player.locationId)) = some room →
      db.filter (isCarried player arg) ≠ [] →
      dropPerform wstrings db conn player arg =
        (db.filter (isCarried player arg)).flatMap (fun t =>
          [Emit.save t { t with locationId := dropLocation room t },
           Emit.send conn wstrings.dropped Values.none]) ∧
      ((db.map (fun o => o.id)).Nodup →
        persist db (dropPerform wstrings db conn player arg) =
          db.map (fun o =>
            if isCarried player arg o = true then
              { o with locationId := dropLocation room o }
            else o))) := by
  constructor
  · intro hnone
    have hout : dropPerform wstrings db conn player arg
        = [Emit.send conn wstrings.dontHave Values.none] := by
      unfold dropPerform
      simp only []
      rw [dropPerform_things, hnone]
      rfl
    rw [hout]
    exact ⟨rfl, rfl⟩
  · intro room hroom hsome
    have hout : dropPerform wstrings db conn player arg =
        (db.filter (isCarried player arg)).flatMap (fun t =>
          [Emit.save t { t with locationId := dropLocation room t },
           Emit.send conn wstrings.dropped Values.none]) := by
      unfold dropPerform
      simp only []
      rw [dropPerform_things, hroom]
      have hlen : (db.filter (isCarried player arg)).length > 0 :=
        List.length_pos.mpr hsome
      rw [if_pos hlen]
      exact dropLoop_eq wstrings conn room _
    refine ⟨hout, fun hnodup => ?_⟩
    rw [hout, persist_saves (fun t => { t with locationId := dropLocation room t })
      (fun _ => rfl) (fun _ => Emit.send conn wstrings.dropped Values.none)
      (fun _ => ⟨_, _, _, rfl⟩) (db.filter (isCarried player arg)) db
      (fun t ht => (List.mem_filter.mp ht).1) hnodup
      (List.Nodup.sublist (List.Sublist.map _ (List.filter_sublist db)) hnodup)]
    apply List.map_congr_left
    intro o ho
    by_cases hc : isCarried player arg o = true
    · rw [if_pos hc, if_pos (List.mem_filter.mpr ⟨ho, hc⟩)]
    · rw [if_neg hc, if_neg (fun h => hc (List.mem_filter.mp h).2)]

/-- In the store `templeWorld`, `erin` stands in a temple whose target is room 12 and drops
`coin`: her two things of that name go to room 12, and her `lamp` stays with her. -/
theorem drop_relocates_witness :
    templeWorld.find? (fun o => decide (o.type = MUDType.ROOM) &&
      decide (some o.id = erin.locationId)) = some shrine ∧
    templeWorld.filter (isCarried erin "coin".toList) = [coin, oldCoin] ∧
    (templeWorld.map (fun o => o.id)).Nodup ∧
    dropLocation shrine coin = some 12 ∧
    dropLocation { shrine with targetId := none } coin = some 10 ∧
    dropLocation { shrine with flags := 0 } coin = some 50 ∧
    dropPerform sampleWorldStrings templeWorld 6 erin "coin".toList =
      [Emit.save coin { coin with locationId := some 12 },
       Emit.send 6 sampleWorldStrings.dropped Values.none,
       Emit.save oldCoin { oldCoin with locationId := some 12 },
       Emit.send 6 sampleWorldStrings.dropped Values.none] ∧
    persist templeWorld (dropPerform sampleWorldStrings templeWorld 6 erin "coin".toList) =
      [shrine, erin, { coin with locationId := some 12 },
       { oldCoin with locationId := some 12 }, lamp] :=
  ⟨by decide, by decide, by decide, by decide, by decide, by decide,
   ((drop_relocates sampleWorldStrings templeWorld 6 erin "coin".toList).2 shrine
      (by decide) (by decide)).1.trans (by decide),
   (((drop_relocates sampleWorldStrings templeWorld 6 erin "coin".toList).2 shrine
      (by decide) (by decide)).2 (by decide)).trans (by decide)⟩

/-! ## Theorems: `connect` -/

/-- The run of the function of `connect.perform` over a list of entries: the first entry
whose player has the name is deactivated, and nothing else changes. -/
theorem applyToSnapshot_kick (cstrings : CommandStrings) (name : JSString)
    (l : List ActivePlayer) :
    ∀ (s : List ActivePlayer × List Emit) (visited : List ActivePlayer),
      (applyToSnapshot (kickOperation cstrings name) l s visited).state =
        match l.find? (fun e => decide (e.player.name = name)) with
        | none => s
        | some e => ((deactivatePlayer cstrings s.1 e.conn).1,
            s.2 ++ (deactivatePlayer cstrings s.1 e.conn).2) := by
  induction l with
  | nil => intro s visited; rfl
  | cons e rest ih =>
    intro s visited
    by_cases h : e.player.name = name
    · have hop : kickOperation cstrings name e.conn e.player s =
          (((deactivatePlayer cstrings s.1 e.conn).1,
            s.2 ++ (deactivatePlayer cstrings s.1 e.conn).2), Signal.stop) := by
        unfold kickOperation
        rw [if_pos h]
      simp only [applyToSnapshot, hop, List.find?_cons, h, decide_True]
    · have hop : kickOperation cstrings name e.conn e.player s = (s, Signal.next) := by
        unfold kickOperation
        rw [if_neg h]
      simp only [applyToSnapshot, hop, List.find?_cons, h, decide_False]
      exact ih s (visited ++ [e])

/-- In a list without two entries of one key, at most one entry has a given key. -/
theorem filter_length_le_one {α β : Type} [DecidableEq β] (f : α → β) (c : β) (l : List α)
    (h : (l.map f).Nodup) : (l.filter (fun x => decide (f x = c))).length ≤ 1 := by
  induction l with
  | nil => simp
  | cons x rest ih =>
    rw [List.map_cons, List.nodup_cons] at h
    by_cases hx : f x = c
    · have hnil : rest.filter (fun y => decide (f y = c)) = [] := by
        rw [List.filter_eq_nil_iff]
        intro y hy hyc
        apply h.1
        rw [hx, ← of_decide_eq_true hyc]
        exact List.mem_map.mpr ⟨y, hy, rfl⟩
      rw [List.filter_cons_of_pos (by simpa using hx), hnil]
      simp
    · rw [List.filter_cons_of_neg (by simpa using hx)]
      exact ih h.2

/-- The registry after `connect.perform` has found the player: the entries whose player
has another name, followed by the new entry, when no two entries have the same name or the
same connection. -/
theorem kick_registry (cstrings : CommandStrings) (name : JSString)
    (activePlayers : List ActivePlayer)
    (hnames : (activePlayers.map (fun e => e.player.name)).Nodup)
    (hconns : (activePlayers.map (fun e => e.conn)).Nodup) :
    ∃ run, applyToActivePlayers (fun s : List ActivePlayer × List Emit => s.1)
        (kickOperation cstrings name) (activePlayers.length + 1) 0 (activePlayers, []) []
        = some run ∧
      run.state.1 = activePlayers.filter (fun e => decide (e.player.name ≠ name)) ∧
      ∀ e ∈ activePlayers, e.player.name = name → Emit.terminate e.conn ∈ run.state.2 := by
  have hkeep : ∀ c p (s s2 : List ActivePlayer × List Emit),
      kickOperation cstrings name c p s = (s2, Signal.next) → s2.1 = s.1 := by
    intro c p s s2 h
    unfold kickOperation at h
    by_cases hn : p.name = name
    · rw [if_pos hn] at h
      exact absurd (Prod.mk.inj h).2 (by decide)
    · rw [if_neg hn] at h
      rw [← (Prod.mk.inj h).1]
  have hdrop := applyToActivePlayers_drop (fun s : List ActivePlayer × List Emit => s.1)
    (kickOperation cstrings name) hkeep (activePlayers.length + 1) 0 (activePlayers, []) []
    (by simp)
  cases hrun : applyToActivePlayers (fun s : List ActivePlayer × List Emit => s.1)
      (kickOperation cstrings name) (activePlayers.length + 1) 0 (activePlayers, []) [] with
  | none =>
    rw [hrun] at hdrop
    exact absurd hdrop (by simp)
  | some run =>
    rw [hrun] at hdrop
    simp only [Option.map_some', List.drop_zero, Option.some.injEq, Prod.mk.injEq] at hdrop
    have hstate := hdrop.1
    rw [applyToSnapshot_kick] at hstate
    refine ⟨run, rfl, ?_⟩
    cases hfind : activePlayers.find? (fun e => decide (e.player.name = name)) with
    | none =>
      rw [hfind] at hstate
      have hall : ∀ e ∈ activePlayers, ¬ e.player.name = name := by
        intro e he
        have := List.find?_eq_none.mp hfind e he
        simpa using this
      rw [hstate]
      refine ⟨?_, fun e he hn => absurd hn (hall e he)⟩
      symm
      rw [List.filter_eq_self]
      intro e he
      simpa using hall e he
    | some e0 =>
      rw [hfind] at hstate
      have he0 : e0 ∈ activePlayers := List.mem_of_find?_eq_some hfind
      have hn0 : e0.player.name = name := by
        have := List.find?_some hfind
        simpa using this
      have hsame : ∀ e ∈ activePlayers, e.player.name = name → e = e0 := by
        intro e he hn
        exact List.inj_on_of_nodup_map hnames he he0 (hn.trans hn0.symm)
      rw [hstate]
      constructor
      · show activePlayers.eraseP (fun e => decide (e.conn = e0.conn)) = _
        rw [eraseP_eq_filter_not _ _
          (filter_length_le_one (fun e : ActivePlayer => e.conn) e0.conn activePlayers hconns)]
        apply List.filter_congr
        intro e he
        by_cases hc : e.conn = e0.conn
        · have : e = e0 := List.inj_on_of_nodup_map hconns he he0 hc
          rw [this]
          simp [hn0]
        · have hne : ¬ e.player.name = name := fun hn => hc (by rw [hsame e he hn])
          simp [hc, hne]
      · intro e he hn
        rw [hsame e he hn]
        show Emit.terminate e0.conn ∈ [] ++ (deactivatePlayer cstrings activePlayers e0.conn).2
        unfold deactivatePlayer
        simp


/-- Claim C27 as stated fails: `deactivatePlayer` removes by connection. The registry
`sharedConnection` has one entry per player name, `bob` and `alice`, both on connection 7.
After `connect alice secret` on connection 8 the registry holds two entries whose player is
named `alice`, the old one still among them, and the entry of `bob` is gone. -/
theorem connectPerform_shared_connection :
    (sharedConnection.map (fun e => e.player.name)).Nodup ∧
    (connectPerform sampleCommandStrings sampleWorldStrings accounts sharedConnection 8
        "alice".toList "secret".toList).map (fun r => r.1)
      = some [{ player := aliceAccount, conn := 7 }, { player := aliceAccount, conn := 8 }] ∧
    (connectPerform sampleCommandStrings sampleWorldStrings accounts sharedConnection 8
        "alice".toList "secret".toList).map (fun r => r.2.take 2)
      = some [Emit.terminate 7,
          Emit.send 7 sampleWorldStrings.hasConnected (Values.object aliceAccount)] := by
  decide

/-- Claim C27, amended. For every registry state with at most one entry per player name and
at most one entry per connection: after `connect.perform` has found the player named `N`
with the given password in the store, on connection `c`, the registry contains exactly one
entry whose player is named `N`, the new one, bound to `c`; an earlier session of `N` has
been removed and its connection terminated; and the entries of the players of other names
are the same as before, in the same order. -/
theorem connectPerform_registry (cstrings : CommandStrings) (wstrings : WorldStrings)
    (db : List MUDObject) (activePlayers : List ActivePlayer) (conn : Conn)
    (name password : JSString) (player : MUDObject)
    (hnames : (activePlayers.map (fun e => e.player.name)).Nodup)
    (hconns : (activePlayers.map (fun e => e.conn)).Nodup)
    (hplayer : db.find? (fun o => decide (o.name = name) &&
      decide (o.password = some password) && decide (o.type = MUDType.PLAYER)) = some player) :
    ∃ registry out,
      connectPerform cstrings wstrings db activePlayers conn name password
        = some (registry, out) ∧
      player.name = name ∧
      registry.filter (fun e => decide (e.player.name = name))
        = [{ player := player, conn := conn }] ∧
      registry.filter (fun e => decide (e.player.name ≠ name))
        = activePlayers.filter (fun e => decide (e.player.name ≠ name)) ∧
      registry = activePlayers.filter (fun e => decide (e.player.name ≠ name)) ++
        [{ player := player, conn := conn }] ∧
      (∀ e ∈ activePlayers, e.player.name = name → Emit.terminate e.conn ∈ out) := by
  obtain ⟨run, hrun, hreg, hkick⟩ := kick_registry cstrings name activePlayers hnames hconns
  have hname : player.name = name := by
    have := List.find?_some hplayer
    simp only [Bool.and_eq_true, decide_eq_true_eq] at this
    exact this.1.1
  have hreg2 : activatePlayer run.state.1 conn player =
      activePlayers.filter (fun e => decide (e.player.name ≠ name)) ++
        [{ player := player, conn := conn }] := by
    unfold activatePlayer
    rw [hreg]
  refine ⟨activatePlayer run.state.1 conn player,
    run.state.2 ++
      broadcastExcept (activatePlayer run.state.1 conn player) conn wstrings.hasConnected
        (Values.object player) ++
      clearScreen conn, ?_, hname, ?_, ?_, hreg2, ?_⟩
  · unfold connectPerform
    rw [hplayer]
    simp only []
    rw [hrun]
  · rw [hreg2, List.filter_append, List.filter_filter]
    have h1 : activePlayers.filter (fun e => decide (e.player.name = name) &&
        decide (e.player.name ≠ name)) = [] := by
      rw [List.filter_eq_nil_iff]
      intro e _
      by_cases h : e.player.name = name <;> simp [h]
    rw [h1]
    simp [hname]
  · rw [hreg2, List.filter_append, List.filter_filter]
    have h1 : activePlayers.filter (fun e => decide (e.player.name ≠ name) &&
        decide (e.player.name ≠ name)) =
        activePlayers.filter (fun e => decide (e.player.name ≠ name)) := by
      apply List.filter_congr
      intro e _
      exact Bool.and_self _
    rw [h1]
    simp [hname]
  · intro e he hn
    exact List.mem_append_left _ (List.mem_append_left _ (hkick e he hn))

/-- With `bob` on connection 6 and `alice` on connection 7, `connect alice secret` on
connection 8 leaves `bob` where he was, and `alice` on connection 8 only. -/
theorem connectPerform_registry_witness :
    (twoSessions.map (fun e => e.player.name)).Nodup ∧
    (twoSessions.map (fun e => e.conn)).Nodup ∧
    accounts.find? (fun o => decide (o.name = "alice".toList) &&
      decide (o.password = some "secret".toList) && decide (o.type = MUDType.PLAYER))
      = some aliceAccount ∧
    (connectPerform sampleCommandStrings sampleWorldStrings accounts twoSessions 8
        "alice".toList "secret".toList).map (fun r => r.1)
      = some [{ player := bob, conn := 6 }, { player := aliceAccount, conn := 8 }] ∧
    ∃ registry out,
      connectPerform sampleCommandStrings sampleWorldStrings accounts twoSessions 8
        "alice".toList "secret".toList = some (registry, out) ∧
      registry.filter (fun e => decide (e.player.name = "alice".toList))
        = [{ player := aliceAccount, conn := 8 }] ∧
      Emit.terminate 7 ∈ out :=
  ⟨by decide, by decide, by decide, by decide,
   match connectPerform_registry sampleCommandStrings sampleWorldStrings accounts twoSessions
      8 "alice".toList "secret".toList aliceAccount (by decide) (by decide) (by decide) with
   | ⟨registry, out, h1, _, h3, _, _, h6⟩ =>
     ⟨registry, out, h1, h3, h6 { player := aliceAccount, conn := 7 } (by decide) (by decide)⟩⟩

end ECSMUD
